import Mathlib

/-! A shallow embedding of the Go package `datastore` and of the request
handler of the load balancer in `cmd/lb`.

The package keeps a key-value store as a list of append-only segment files.
The embedding makes the file system an explicit value that every operation
takes and returns, keeps Go maps as association lists, and keeps Go's
`(value, error)` results as `Except`.

* `segment.go` : `newSegment`, `rebuildIndex`, `put`, `get`, `size`
* `db.go`      : `Open`, `Close`, `Get`, `Put`
* `merger.go`  : `mergeSegments`
* `cmd/lb/balancer.go` : the choice of the server in the handler and the
  traffic counters, in the namespace `Balancer`

How the Go state is represented:

* a file handle is the path it was opened on, and a write through it appends
  to the file of that path (`O_APPEND`);
* a write can be made to fail, after any number of bytes, by the argument
  `fault`; opening fails where the path names a directory, and creating a
  file fails where the directory of the path does not exist;
* the file system lists its files and directories; the working directory
  `.` and the root `/` exist without being listed;
* paths are strings in clean form, and `filepath.Join` and `filepath.Dir` are
  given on such paths: `filepath.Join dir name` is `dir ++ "/" ++ name`,
  except that it is `name` for the directory `.` and `"/" ++ name` for the
  root;
* the pointer `Db.current` is the position of its segment in `Db.segments`;
* the order in which `range` visits a map is an argument of `mergeSegments`;
* offsets and sizes are natural numbers (`int64` in Go; a file would need
  `2^63` bytes to tell them apart).
-/

namespace Datastore

/-! ## Bytes, strings and errors -/

/-- One byte. -/
abbrev Byte := Fin 256

/-- A Go `string` or `[]byte`: a finite sequence of bytes. -/
abbrev Bytes := List Byte

/-- The error values the package can hand to its callers. -/
inductive Err where
  /-- The package's own `ErrNotFound`. -/
  | ErrNotFound
  /-- The reader's `io.EOF`: no byte left at a record boundary. -/
  | EOF
  /-- A record that stops before its announced length. -/
  | ErrUnexpectedEOF
  /-- An `*os.PathError`: the path cannot be opened as asked. -/
  | PathError
  /-- A failed `Write` on a file handle, with the cause as a number. -/
  | WriteError (code : Nat)
  /-- A run-time panic (nil dereference). -/
  | Panic
  /-- The decoding loop was stopped by the bound on its iterations. -/
  | OutOfFuel
  deriving DecidableEq, Repr

deriving instance DecidableEq for Except

/-! ## Go maps as association lists -/

/-- The Go expression `v, ok := m[k]`. -/
def mapGet {α : Type} (m : List (Bytes × α)) (k : Bytes) : Option α :=
  match m with
  | [] => none
  | (k', v) :: rest => if k' = k then some v else mapGet rest k

/-- The Go statement `m[k] = v`: any earlier entry for `k` is replaced. -/
def mapSet {α : Type} (m : List (Bytes × α)) (k : Bytes) (v : α) : List (Bytes × α) :=
  (k, v) :: m.filter (fun p => decide (p.1 ≠ k))

/-- The type `hashIndex` of `segment.go`: `map[string]int64`. -/
abbrev hashIndex := List (Bytes × Nat)

/-! ## The record codec -/

/-- The type `entry`: one key with its value. -/
structure entry where
  key : Bytes
  value : Bytes
  deriving DecidableEq, Repr

/-- Four bytes, least significant first, of a number taken modulo `2^32`. -/
def putUint32 (n : Nat) : Bytes :=
  [Fin.ofNat (n % 256), Fin.ofNat (n / 256 % 256),
   Fin.ofNat (n / 65536 % 256), Fin.ofNat (n / 16777216 % 256)]

/-- The number held by the first four bytes of a stream, if it has four. -/
def getUint32 (b : Bytes) : Option Nat :=
  match b with
  | b0 :: b1 :: b2 :: b3 :: _ =>
    some (b0.val + 256 * b1.val + 65536 * b2.val + 16777216 * b3.val)
  | _ => none

/-- Modelled from the spec: `entry.Encode`, of the type `entry` whose Go file
is not among the files embedded here. The layout is the one section 6 of the
specification gives: a 4-byte length of the key, the key, a 4-byte length of
the value, the value. The byte order is fixed to least significant first, and
a length is written modulo `2^32`. -/
def entry.Encode (e : entry) : Bytes :=
  putUint32 (e.key.length % 4294967296) ++ e.key ++
    (putUint32 (e.value.length % 4294967296) ++ e.value)

/-- Modelled from the spec: `entry.DecodeFromReader`, of the type `entry`
whose Go file is not among the files embedded here. It reads one record from
the head of the stream and returns it with the number of bytes consumed; a
stream with no byte left gives `EOF`, a stream that ends inside a record gives
`ErrUnexpectedEOF` (section 4.1 of the specification). -/
def DecodeFromReader (stream : Bytes) : Except Err (entry × Nat) :=
  if stream = [] then .error .EOF
  else
    match getUint32 stream with
    | none => .error .ErrUnexpectedEOF
    | some kl =>
      let afterKl := stream.drop 4
      if afterKl.length < kl then .error .ErrUnexpectedEOF
      else
        let afterKey := afterKl.drop kl
        match getUint32 afterKey with
        | none => .error .ErrUnexpectedEOF
        | some vl =>
          let afterVl := afterKey.drop 4
          if afterVl.length < vl then .error .ErrUnexpectedEOF
          else .ok (⟨afterKl.take kl, afterVl.take vl⟩, 8 + kl + vl)

/-! ## The file system -/

/-- What a path names: a regular file with its content, or a directory. -/
inductive Node where
  | file (content : Bytes)
  | dir
  deriving DecidableEq, Repr

/-- The file system: paths with what they name. The first entry for a path
is the one in force. -/
abbrev FS := List (String × Node)

/-- What a path names, if anything. -/
def FS.lookup (fs : FS) (path : String) : Option Node :=
  match fs with
  | [] => none
  | (p, n) :: rest => if p = path then some n else FS.lookup rest path

/-- Replace what a path names, or add the path when it names nothing yet. -/
def FS.store (fs : FS) (path : String) (n : Node) : FS :=
  match fs with
  | [] => [(path, n)]
  | (p, m) :: rest => if p = path then (p, n) :: rest else (p, m) :: FS.store rest path n

/-- The path names a directory: it is listed as one, or it is the working
directory `.` or the root `/`, which always exist. -/
def FS.isDir (fs : FS) (path : String) : Bool :=
  decide (path = "." ∨ path = "/" ∨ fs.lookup path = some .dir)

/-- Go's `<` on strings: the lexicographic order of their characters. -/
def strLess (a b : String) : Bool :=
  decide (a.data < b.data)

/-- What stands before the name of an entry in the path that `filepath.Join`
makes from a directory in clean form: nothing for `"."` and for the empty
string, the slash for the root, the directory and a slash otherwise. -/
def dirPrefix (dir : String) : String :=
  if dir = "" ∨ dir = "." then "" else if dir = "/" then "/" else dir ++ "/"

/-- The function `filepath.Join` on a directory in clean form and one name:
the result is in clean form, so `Join(".", x)` is `x` and `Join("/", x)` is
`/x`. -/
def filepathJoin (dir name : String) : String :=
  dirPrefix dir ++ name

/-- The directory a path is resolved in: the path without its last element
and the slash before it, `"."` for a path without a slash and `"/"` for an
entry of the root. -/
def parentDir (path : String) : String :=
  if '/' ∈ path.data then
    let front := (path.data.reverse.dropWhile (fun c => decide (c ≠ '/'))).drop 1
    if front = [] then "/" else String.mk front.reverse
  else "."

/-- A string that can name a directory entry: not empty, without a slash,
and neither `.` nor `..`. -/
def isName (name : String) : Bool :=
  decide (name.data ≠ [] ∧ '/' ∉ name.data ∧ name.data ≠ ['.'] ∧ name.data ≠ ['.', '.'])

/-- The file name of `path` when `path` is a direct child of `dir`. -/
def childName (dir path : String) : Option String :=
  let pre := (dirPrefix dir).data
  if pre.isPrefixOf path.data then
    let rest := String.mk (path.data.drop pre.length)
    if isName rest = true then some rest else none
  else none

/-- The function `os.ReadDir`: the names in a directory, sorted by name. The
empty path names nothing. -/
def ReadDir (fs : FS) (dir : String) : Except Err (List String) :=
  if dir = "" then .error .PathError
  else if fs.isDir dir = true then
    .ok (((fs.filterMap (fun p => childName dir p.1)).dedup).insertionSort
      (fun a b => strLess b a = false))
  else .error .PathError

/-- A failure injected into one `Write`: how many bytes reached the file
before it, and the error reported. -/
structure WriteFault where
  written : Nat
  err : Err
  deriving DecidableEq, Repr

/-- The method `(*os.File).Write` on a handle opened with `O_APPEND`: the
bytes go to the end of the file. The handle is the path; a path that names no
regular file is a dead handle. -/
def fileWrite (fs : FS) (path : String) (b : Bytes) (fault : Option WriteFault) :
    (Nat × Option Err) × FS :=
  match fs.lookup path with
  | some (.file content) =>
    match fault with
    | none => ((b.length, none), fs.store path (.file (content ++ b)))
    | some f =>
      ((min f.written b.length, some f.err),
        fs.store path (.file (content ++ b.take f.written)))
  | _ => ((0, some .PathError), fs)

/-! ## segment.go -/

/-- The type `segment`. The open file handle is represented by `path`. -/
structure segment where
  path : String
  index : hashIndex
  offset : Nat
  deriving DecidableEq, Repr

/-- The loop of `rebuildIndex`, bounded by `fuel` iterations. -/
def rebuildLoop : Nat → Bytes → hashIndex → Nat → Except Err (hashIndex × Nat)
  | 0, _, _, _ => .error .OutOfFuel
  | fuel + 1, stream, index, offset =>
    match DecodeFromReader stream with
    | .error .EOF => .ok (index, offset)
    | .error e => .error e
    | .ok (rec, n) => rebuildLoop fuel (stream.drop n) (mapSet index rec.key offset) (offset + n)

/-- The method `rebuildIndex`: scan the file from its start, and for every
record set the index of its key to the running offset. -/
def segment.rebuildIndex (s : segment) (fs : FS) : Except Err segment :=
  match fs.lookup s.path with
  | some (.file content) =>
    match rebuildLoop (content.length + 1) content s.index s.offset with
    | .ok (index, offset) => .ok { s with index := index, offset := offset }
    | .error e => .error e
  | _ => .error .PathError

/-- A file cannot be created at `path`: the path names nothing and the
directory it would be created in does not exist. -/
def parentMissing (fs : FS) (path : String) : Bool :=
  decide (fs.lookup path = none ∧ fs.isDir (parentDir path) = false)

/-- The function `newSegment`: open the file for appending, creating it when
it does not exist, then rebuild the index from its content. The creation
fails where the directory of the path does not exist. -/
def newSegment (fs : FS) (path : String) : Except Err segment × FS :=
  match fs.lookup path with
  | some .dir => (.error .PathError, fs)
  | some (.file _) =>
    (segment.rebuildIndex { path := path, index := [], offset := 0 } fs, fs)
  | none =>
    if fs.isDir (parentDir path) = true then
      let fs1 := fs.store path (.file [])
      (segment.rebuildIndex { path := path, index := [], offset := 0 } fs1, fs1)
    else (.error .PathError, fs)

/-- The method `put`: append the encoded record, then index its key. -/
def segment.put (s : segment) (fs : FS) (e : entry) (fault : Option WriteFault) :
    Option Err × segment × FS :=
  match fileWrite fs s.path e.Encode fault with
  | ((_, some err), fs1) => (some err, s, fs1)
  | ((n, none), fs1) =>
    (none, { s with index := mapSet s.index e.key s.offset, offset := s.offset + n }, fs1)

/-- The method `get`: look the key up in the index, then decode one record at
the offset found. -/
def segment.get (s : segment) (fs : FS) (key : Bytes) : Except Err Bytes :=
  match mapGet s.index key with
  | none => .error .ErrNotFound
  | some pos =>
    match fs.lookup s.path with
    | some (.file content) =>
      match DecodeFromReader (content.drop pos) with
      | .ok (e, _) => .ok e.value
      | .error err => .error err
    | _ => .error .PathError

/-- The method `size`: the length of the file, `none` when `Stat` fails. -/
def segment.size (s : segment) (fs : FS) : Option Nat :=
  match fs.lookup s.path with
  | some (.file content) => some content.length
  | _ => none

/-! ## db.go -/

/-- The constant `maxSegmentSize`. -/
def maxSegmentSize : Nat := 100

/-- The constant `outFileName`. -/
def outFileName : String := "current-data"

/-- The type `Db`. The pointer `current` always points at an element of
`segments`, so it is kept as the position of that element. -/
structure Db where
  segments : List segment
  current : Nat
  dir : String
  deriving DecidableEq, Repr

/-- The name `fmt.Sprintf("segment-%d", n)`. -/
def segmentName (n : Nat) : String :=
  "segment-" ++ toString n

/-- The test `f.Type().IsRegular()` on a directory entry. -/
def isRegular (fs : FS) (path : String) : Bool :=
  match fs.lookup path with
  | some (.file _) => true
  | _ => false

/-- The loop of `Open` over the directory entries: every regular file named
`segment-...` or `current-data` is loaded as a segment. -/
def openLoop (dir : String) : List String → FS → List segment → Except Err (List segment) × FS
  | [], fs, segs => (.ok segs, fs)
  | name :: rest, fs, segs =>
    if isRegular fs (filepathJoin dir name) = false then openLoop dir rest fs segs
    else if "segment-".data.isPrefixOf name.data = true ∨ name = outFileName then
      match newSegment fs (filepathJoin dir name) with
      | (.error e, fs1) => (.error e, fs1)
      | (.ok s, fs1) => openLoop dir rest fs1 (segs ++ [s])
    else openLoop dir rest fs segs

/-- The call `sort.Slice(segs, func(i, j) bool { return segs[i].path < segs[j].path })`. -/
def sortByPath (segs : List segment) : List segment :=
  segs.insertionSort (fun a b => strLess b.path a.path = false)

/-- The function `Open`. -/
def Open (fs : FS) (dir : String) : Except Err Db × FS :=
  match ReadDir fs dir with
  | .error e => (.error e, fs)
  | .ok files =>
    match openLoop dir files fs [] with
    | (.error e, fs1) => (.error e, fs1)
    | (.ok segs, fs1) =>
      if segs.length = 0 then
        match newSegment fs1 (filepathJoin dir outFileName) with
        | (.error e, fs2) => (.error e, fs2)
        | (.ok s, fs2) =>
          (.ok { segments := sortByPath (segs ++ [s]),
                 current := (sortByPath (segs ++ [s])).length - 1, dir := dir }, fs2)
      else
        (.ok { segments := sortByPath segs,
               current := (sortByPath segs).length - 1, dir := dir }, fs1)

/-- The method `Close`: every handle is released and the result is `nil`;
no file changes. -/
def Db.Close (_db : Db) (fs : FS) : Option Err × FS :=
  (none, fs)

/-- The loop of `Get` over the segments it has still to visit, the newest
first. -/
def scanSegments (fs : FS) (key : Bytes) : List segment → Except Err Bytes
  | [] => .error .ErrNotFound
  | s :: older =>
    match s.get fs key with
    | .ok val => .ok val
    | .error err => if err = .ErrNotFound then scanSegments fs key older else .error err

/-- The method `Get`: the segments are visited from the last to the first. -/
def Db.Get (db : Db) (fs : FS) (key : Bytes) : Except Err Bytes :=
  scanSegments fs key db.segments.reverse

/-- The method `Put`. -/
def Db.Put (db : Db) (fs : FS) (key value : Bytes) (fault : Option WriteFault) :
    Option Err × Db × FS :=
  match db.segments[db.current]? with
  | none => (some .Panic, db, fs)
  | some cur =>
    match cur.put fs ⟨key, value⟩ fault with
    | (some err, _, fs1) => (some err, db, fs1)
    | (none, cur1, fs1) =>
      let segs1 := db.segments.set db.current cur1
      match cur1.size fs1 with
      | none => (some .Panic, { db with segments := segs1 }, fs1)
      | some sz =>
        if sz ≥ maxSegmentSize then
          match newSegment fs1 (filepathJoin db.dir (segmentName db.segments.length)) with
          | (.error err, fs2) => (some err, { db with segments := segs1 }, fs2)
          | (.ok newSeg, fs2) =>
            (none, { db with segments := segs1 ++ [newSeg], current := segs1.length }, fs2)
        else (none, { db with segments := segs1 }, fs1)

/-! ## merger.go -/

/-- The function `filepath.Dir` on a path in clean form: the path without its
last element. -/
def filepathDir (path : String) : String :=
  let front :=
    (path.data.reverse.dropWhile (fun c => decide (c ≠ '/'))).dropWhile (fun c => decide (c = '/'))
  if front = [] then (if '/' ∈ path.data then "/" else ".") else String.mk front.reverse

/-- The orders in which the `range` loops of `mergeSegments` visit their maps:
the index of the `i`-th segment and the working map. Go fixes no order, so
each is some rearrangement of the entries. -/
structure MapOrder where
  index : Nat → hashIndex → hashIndex
  index_perm : ∀ i m, (index i m).Perm m
  merged : List (Bytes × Bytes) → List (Bytes × Bytes)
  merged_perm : ∀ m, (merged m).Perm m

/-- The loop `for key := range seg.index`: a key whose lookup fails is skipped. -/
def mergeKeys (fs : FS) (seg : segment) :
    List (Bytes × Nat) → List (Bytes × Bytes) → List (Bytes × Bytes)
  | [], merged => merged
  | (key, _) :: rest, merged =>
    match seg.get fs key with
    | .ok val => mergeKeys fs seg rest (mapSet merged key val)
    | .error _ => mergeKeys fs seg rest merged

/-- The loop `for _, seg := range segments`, from the segment number `i` on. -/
def mergeCollect (fs : FS) (ord : MapOrder) :
    Nat → List segment → List (Bytes × Bytes) → List (Bytes × Bytes)
  | _, [], merged => merged
  | i, seg :: rest, merged =>
    mergeCollect fs ord (i + 1) rest (mergeKeys fs seg (ord.index i seg.index) merged)

/-- The loop `for key, val := range merged`: the result of every `put` is
dropped. -/
def mergeWrite (fault : Bytes → Option WriteFault) :
    List (Bytes × Bytes) → segment → FS → segment × FS
  | [], s, fs => (s, fs)
  | (key, val) :: rest, s, fs =>
    match s.put fs ⟨key, val⟩ (fault key) with
    | (_, s1, fs1) => mergeWrite fault rest s1 fs1

/-- The function `os.Create`: the file is emptied when it exists and created
when the path names nothing and its directory exists. -/
def osCreate (fs : FS) (path : String) : Option Err × FS :=
  match fs.lookup path with
  | some .dir => (some .PathError, fs)
  | some (.file _) => (none, fs.store path (.file []))
  | none =>
    if fs.isDir (parentDir path) = true then (none, fs.store path (.file []))
    else (some .PathError, fs)

/-- The path of the file `mergeSegments` writes. -/
def mergedPath (outputPath : String) : String :=
  filepathJoin (filepathDir outputPath) "merged-segment"

/-- The function `mergeSegments`. The write of the record of a key fails when
`fault` names a failure for that key. -/
def mergeSegments (fs : FS) (outputPath : String) (segments : List segment) (ord : MapOrder)
    (fault : Bytes → Option WriteFault) : Except Err segment × FS :=
  let merged := mergeCollect fs ord 0 segments []
  match osCreate fs (mergedPath outputPath) with
  | (some err, fs1) => (.error err, fs1)
  | (none, fs1) =>
    match newSegment fs1 (mergedPath outputPath) with
    | (.error err, fs2) => (.error err, fs2)
    | (.ok newSeg, fs2) =>
      match mergeWrite fault (ord.merged merged) newSeg fs2 with
      | (seg, fs3) => (.ok seg, fs3)

/-- A sequence of `Put` calls without injected failure; `none` as soon as one
of them returns an error. -/
def Db.putAll : Db → FS → List (Bytes × Bytes) → Option (Db × FS)
  | db, fs, [] => some (db, fs)
  | db, fs, (key, value) :: rest =>
    match db.Put fs key value none with
    | (none, db1, fs1) => Db.putAll db1 fs1 rest
    | (some _, _, _) => none

/-! ## Predicates used in the statements -/

/-- The file at `path` holds the encoded record `e` at the offset `pos`. -/
def holdsRecord (fs : FS) (path : String) (pos : Nat) (e : entry) : Prop :=
  ∃ content rest, fs.lookup path = some (.file content) ∧ content.drop pos = e.Encode ++ rest

/-- Every record a file holds in `fs` it still holds, at the same offset, in
`fs1`. -/
def grows (fs fs1 : FS) : Prop :=
  ∀ path pos e, holdsRecord fs path pos e → holdsRecord fs1 path pos e

/-- Among the segments, given newest first, the newest one whose index has
`key` points at a record of the value `val` in its file. -/
def latestIn (fs : FS) (key val : Bytes) : List segment → Prop
  | [] => False
  | s :: older =>
    (∃ pos, mapGet s.index key = some pos ∧ holdsRecord fs s.path pos ⟨key, val⟩) ∨
      (mapGet s.index key = none ∧ latestIn fs key val older)

/-- The shape of a store that `Open` and `Put` keep: the active segment is the
last of the list, every segment has its file, the offset of the active segment
is the length of its file, no file has a name that a later rotation will
choose, and the directory of the store exists. -/
def storeOK (db : Db) (fs : FS) : Prop :=
  ∃ cur rest,
    db.segments = rest ++ [cur] ∧ db.current = rest.length ∧
    (∀ s ∈ db.segments, ∃ content, fs.lookup s.path = some (.file content)) ∧
    (∃ content, fs.lookup cur.path = some (.file content) ∧ cur.offset = content.length) ∧
    (∀ n, db.segments.length ≤ n →
      fs.lookup (filepathJoin db.dir (segmentName n)) = none) ∧
    db.dir ≠ "" ∧ fs.isDir db.dir = true

/-- The number a list of decimal digits stands for, after the digits `acc`. -/
def digitsValue (acc : Nat) (ds : List Char) : Nat :=
  ds.foldl (fun a c => a * 10 + (c.toNat - 48)) acc

/-! ## Concrete inputs -/

/-- The bytes of an ASCII text. -/
def str (t : String) : Bytes :=
  t.data.map (fun c => Fin.ofNat c.toNat)

/-- A directory with two segment files that both hold the key `k`. -/
def fsTwo : FS :=
  [("d", .dir),
   ("d/current-data", .file (entry.Encode ⟨str "k", str "a"⟩)),
   ("d/segment-1", .file (entry.Encode ⟨str "k", str "c"⟩))]

/-- The store over `fsTwo`. -/
def dbTwo : Db :=
  { segments := [⟨"d/current-data", [(str "k", 0)], 10⟩, ⟨"d/segment-1", [(str "k", 0)], 10⟩],
    current := 1, dir := "d" }

/-- The directory of `fsTwo` after the newest file lost its content. -/
def fsTruncated : FS :=
  [("d", .dir),
   ("d/current-data", .file (entry.Encode ⟨str "k", str "a"⟩)),
   ("d/segment-1", .file [])]

/-- A value of 91 bytes whose first byte is `i`; with a key of one byte its
record has exactly 100 bytes. -/
def bigValue (i : Nat) : Bytes :=
  Fin.ofNat i :: List.replicate 90 (Fin.ofNat 120)

/-- A directory `d` without entries. -/
def fsEmpty : FS :=
  [("d", .dir)]

/-- The store and the file system after a successful `Open`. -/
def opened (fs : FS) (dir : String) : Option (Db × FS) :=
  match Open fs dir with
  | (.ok db, fs1) => some (db, fs1)
  | (.error _, _) => none

/-- Open the empty directory `d`, then put the key `k` `n` times, the `i`-th
time with the value `bigValue i`. -/
def afterBigPuts (n : Nat) : Option (Db × FS) :=
  match opened fsEmpty "d" with
  | some (db, fs) => db.putAll fs ((List.range n).map (fun i => (str "k", bigValue i)))
  | none => none

/-- Close the store, open the directory `d` again. -/
def reopen (st : Option (Db × FS)) : Option (Db × FS) :=
  match st with
  | none => none
  | some (db, fs) => opened (db.Close fs).2 "d"

/-- The paths of the segments of a store, in list order. -/
def segmentPaths (st : Option (Db × FS)) : List String :=
  match st with
  | none => []
  | some (db, _) => db.segments.map (fun s => s.path)

/-- The path of the active segment of a store. -/
def currentPath (st : Option (Db × FS)) : Option String :=
  match st with
  | none => none
  | some (db, _) => db.segments[db.current]?.map (fun s => s.path)

/-- The result of `Get` on a store. -/
def getOf (st : Option (Db × FS)) (key : Bytes) : Option (Except Err Bytes) :=
  match st with
  | none => none
  | some (db, fs) => some (db.Get fs key)

/-- A directory `d` that holds `current-data`, `segment-0` and `segment-1`,
one record each. -/
def fsNamed : FS :=
  [("d", .dir),
   ("d/current-data", .file (entry.Encode ⟨str "k", str "a"⟩)),
   ("d/segment-0", .file (entry.Encode ⟨str "k", str "b"⟩)),
   ("d/segment-1", .file (entry.Encode ⟨str "k", str "c"⟩))]

/-- Every `range` loop visits its map in the order of the association list. -/
def orderAsStored : MapOrder :=
  { index := fun _ m => m, index_perm := fun _ m => List.Perm.refl m,
    merged := fun m => m, merged_perm := fun m => List.Perm.refl m }

/-- No write fails. -/
def noFault : Bytes → Option WriteFault :=
  fun _ => none

/-- The older segment of the merge example: `k1` is `a`, `k2` is `b`. -/
def segOld : segment :=
  ⟨"/tmp/d/current-data", [(str "k2", 11), (str "k1", 0)], 22⟩

/-- The newer segment of the merge example: `k1` is `c`. -/
def segNew : segment :=
  ⟨"/tmp/d/segment-1", [(str "k1", 0)], 11⟩

/-- The directory `/tmp/d` with the files of `segOld` and `segNew`. -/
def fsMerge : FS :=
  [("/tmp", .dir), ("/tmp/d", .dir),
   ("/tmp/d/current-data",
     .file (entry.Encode ⟨str "k1", str "a"⟩ ++ entry.Encode ⟨str "k2", str "b"⟩)),
   ("/tmp/d/segment-1", .file (entry.Encode ⟨str "k1", str "c"⟩))]

/-- The directory `/tmp/d` after the file of `segNew` lost its content. -/
def fsMergeTruncated : FS :=
  [("/tmp", .dir), ("/tmp/d", .dir),
   ("/tmp/d/current-data",
     .file (entry.Encode ⟨str "k1", str "a"⟩ ++ entry.Encode ⟨str "k2", str "b"⟩)),
   ("/tmp/d/segment-1", .file [])]

/-- A directory `d` that holds one file, the empty `segment-2`. -/
def fsGap : FS :=
  [("d", .dir), ("d/segment-2", .file [])]

/-- Open the directory of `fsGap`, then put the key `k` twice, first with
`bigValue 1`, then with `bigValue 2`. -/
def afterGapPuts : Option (Db × FS) :=
  match opened fsGap "d" with
  | some (db, fs) => db.putAll fs [(str "k", bigValue 1), (str "k", bigValue 2)]
  | none => none

/-- The directory of `fsMerge` when `/tmp/merged-segment` is a directory. -/
def fsMergeBlocked : FS :=
  [("/tmp", .dir), ("/tmp/d", .dir), ("/tmp/merged-segment", .dir),
   ("/tmp/d/current-data",
     .file (entry.Encode ⟨str "k1", str "a"⟩ ++ entry.Encode ⟨str "k2", str "b"⟩)),
   ("/tmp/d/segment-1", .file (entry.Encode ⟨str "k1", str "c"⟩))]

/-- The write of the record of the key `k` fails before its first byte. -/
def faultOn (k : Bytes) : Bytes → Option WriteFault :=
  fun key => if key = k then some ⟨0, .WriteError 28⟩ else none

/-- The active segment of a store. -/
def currentSegment (st : Option (Db × FS)) : Option segment :=
  match st with
  | none => none
  | some (db, _) => db.segments[db.current]?

/-- The shape `Open` gives a store and every `Put` without a failed write
keeps: the active segment is the last of the list and its offset is the
length of its file. -/
def storeShape (db : Db) (fs : FS) : Prop :=
  ∃ cur rest,
    db.segments = rest ++ [cur] ∧ db.current = rest.length ∧
    ∃ content, fs.lookup cur.path = some (.file content) ∧ cur.offset = content.length

/-- A directory `d` in which `segment-1` is a directory. -/
def fsBlocked : FS :=
  [("d", .dir), ("d/segment-1", .dir)]

/-- The key and the value of the record fit the 4-byte lengths of the format. -/
def fits (e : entry) : Prop :=
  e.key.length < 4294967296 ∧ e.value.length < 4294967296

/-- The bytes of a run of records, one record after the other. -/
def encodeAll : List entry → Bytes
  | [] => []
  | e :: rest => e.Encode ++ encodeAll rest

/-- The offset of the last record with the key `key` in a run of records of
which the first starts at `start`. -/
def lastOffset (start : Nat) : List entry → Bytes → Option Nat
  | [], _ => none
  | e :: rest, key =>
    match lastOffset (start + (8 + e.key.length + e.value.length)) rest key with
    | some pos => some pos
    | none => if e.key = key then some start else none

/-- The value of the last record with the key `key` in a run of records. -/
def lastValue : List entry → Bytes → Option Bytes
  | [], _ => none
  | e :: rest, key =>
    match lastValue rest key with
    | some v => some v
    | none => if e.key = key then some e.value else none

/-- The index and the offset after `put` was called, without failure, for
each record of the run in turn. -/
def indexAfter : List entry → hashIndex → Nat → hashIndex × Nat
  | [], index, offset => (index, offset)
  | e :: rest, index, offset =>
    indexAfter rest (mapSet index e.key offset) (offset + (8 + e.key.length + e.value.length))

/-- A run of `put` calls on one segment without injected failure; `none` as
soon as one of them returns an error. -/
def segment.putAll : segment → FS → List entry → Option (segment × FS)
  | s, fs, [] => some (s, fs)
  | s, fs, e :: rest =>
    match s.put fs e none with
    | (none, s1, fs1) => segment.putAll s1 fs1 rest
    | (some _, _, _) => none

/-- Index-to-file consistency of a segment whose file holds the records `es`:
the file is these records and nothing else, the running offset is the length
of the file, and the index maps every key to the offset of the last record
with that key. -/
def consistentWith (es : List entry) (s : segment) (fs : FS) : Prop :=
  (∀ e ∈ es, fits e) ∧ fs.lookup s.path = some (.file (encodeAll es)) ∧
    s.offset = (encodeAll es).length ∧ ∀ key, mapGet s.index key = lastOffset 0 es key

/-- The segment that `newSegment` returns on an empty file. -/
def segFresh : segment :=
  ⟨"d/current-data", [], 0⟩

/-- The directory `d` with the empty file of `segFresh`. -/
def fsFresh : FS :=
  [("d", .dir), ("d/current-data", .file [])]

/-- The segment and the file system after two `put`s on `segFresh`: the
first, of `k`, fails after 3 bytes, the second, of `j`, succeeds. -/
def afterPartialWrite : segment × FS :=
  (((segFresh.put fsFresh ⟨str "k", str "a"⟩ (some ⟨3, .WriteError 28⟩)).2.1).put
      (segFresh.put fsFresh ⟨str "k", str "a"⟩ (some ⟨3, .WriteError 28⟩)).2.2
      ⟨str "j", str "b"⟩ none).2

instance fits.decidable (e : entry) : Decidable (fits e) :=
  inferInstanceAs (Decidable (e.key.length < 4294967296 ∧ e.value.length < 4294967296))

/-- The store of `afterGapPuts` after a third `Put`, of the key `j`. -/
def afterGapThirdPut : Option (Db × FS) :=
  match afterGapPuts with
  | some (db, fs) => db.putAll fs [(str "j", str "b")]
  | none => none

/-- The position of the active segment of a store. -/
def currentOf (st : Option (Db × FS)) : Option Nat :=
  st.map (fun p => p.1.current)

/-- The segment at the position `i` of a store. -/
def segmentAt (st : Option (Db × FS)) (i : Nat) : Option segment :=
  match st with
  | none => none
  | some (db, _) => db.segments[i]?

/-- The length of the file of the segment at the position `i` of a store. -/
def segmentFileSize (st : Option (Db × FS)) (i : Nat) : Option Nat :=
  match st with
  | none => none
  | some (db, fs) =>
    match db.segments[i]? with
    | none => none
    | some s => s.size fs

/-- The records that the last loop of `mergeSegments` writes for the entries
of the working map, in the order of the list. -/
def recordsOf (l : List (Bytes × Bytes)) : List entry :=
  l.map (fun p => ⟨p.1, p.2⟩)

/-- Every key of the index of the segment can be read back: `get` returns a
value for it. -/
def readsBack (fs : FS) (s : segment) : Bool :=
  s.index.all (fun p => match s.get fs p.1 with
    | .ok _ => true
    | .error _ => false)

/-- Every `range` loop visits its map in the reverse order of the association
list. -/
def orderReversed : MapOrder :=
  { index := fun _ m => m.reverse, index_perm := fun _ m => List.reverse_perm m,
    merged := fun m => m.reverse, merged_perm := fun m => List.reverse_perm m }

/-- The write of the record of the key `k` fails after 3 bytes. -/
def partialFaultOn (k : Bytes) : Bytes → Option WriteFault :=
  fun key => if key = k then some ⟨3, .WriteError 28⟩ else none

/-- The store opened on `fsBlocked` after a `Put` of the key `k` that fails
after 3 bytes. -/
def afterBlockedPartial : Option Err × Db × FS :=
  match opened fsBlocked "d" with
  | some (db, fs) => db.Put fs (str "k") (str "a") (some ⟨3, .WriteError 28⟩)
  | none => (some .Panic, ⟨[], 0, ""⟩, [])

/-- The `Put` of the key `j` with a value of 91 bytes, without injected
failure, on the store of `afterBlockedPartial`. -/
def afterBlockedFull : Option Err × Db × FS :=
  afterBlockedPartial.2.1.Put afterBlockedPartial.2.2 (str "j") (bigValue 1) none

end Datastore

namespace Balancer

/-! ## cmd/lb/balancer.go -/

/-- The type of `trafficMap`: `map[string]uint64`. -/
abbrev TrafficMap := List (String × Nat)

/-- The expression `trafficMap[srv]`: the zero value when the key is absent. -/
def trafficGet (m : TrafficMap) (srv : String) : Nat :=
  match m with
  | [] => 0
  | (s, n) :: rest => if s = srv then n else trafficGet rest srv

/-- The statement `trafficMap[srv] = n`. -/
def trafficSet (m : TrafficMap) (srv : String) (n : Nat) : TrafficMap :=
  (srv, n) :: m.filter (fun p => decide (p.1 ≠ srv))

/-- The statement `trafficMap[srv] += n` on `uint64`. -/
def trafficAdd (m : TrafficMap) (srv : String) (n : Nat) : TrafficMap :=
  trafficSet m srv ((trafficGet m srv + n) % 18446744073709551616)

/-- The variable `serversPool`. -/
def serversPool : List String :=
  ["server1:8080", "server2:8080", "server3:8080"]

/-- The loop `for _, srv := range healthy[1:]` of the handler, with the
running `min` and `chosen`. -/
def pickLoop (traffic : TrafficMap) : List String → Nat → String → String
  | [], _, chosen => chosen
  | srv :: rest, min, chosen =>
    if trafficGet traffic srv < min then pickLoop traffic rest (trafficGet traffic srv) srv
    else pickLoop traffic rest min chosen

/-- The choice of the handler among the healthy backends; `none` when there is
none. -/
def pick (traffic : TrafficMap) (healthy : List String) : Option String :=
  match healthy with
  | [] => none
  | first :: rest => some (pickLoop traffic rest (trafficGet traffic first) first)

/-- The handler of `main` on one request. `health` is the function `health`,
`forward` tells for a backend whether `forward` fails (`none`) or how many
bytes it writes to the counting writer. The result is the backend chosen,
`none` when the answer is "no healthy backends", and the traffic table after
the request. -/
def handler (pool : List String) (health : String → Bool) (forward : String → Option Nat)
    (traffic : TrafficMap) : Option String × TrafficMap :=
  match pick traffic (pool.filter health) with
  | none => (none, traffic)
  | some chosen =>
    match forward chosen with
    | none => (some chosen, traffic)
    | some n => (some chosen, trafficAdd traffic chosen n)

/-- Requests served one after the other, each with its own `forward`. -/
def serve (pool : List String) (health : String → Bool) :
    List (String → Option Nat) → TrafficMap → List (Option String)
  | [], _ => []
  | forward :: rest, traffic =>
    (handler pool health forward traffic).1 ::
      serve pool health rest (handler pool health forward traffic).2

/-! ## cmd/lb/balancer_test.go -/

/-- The conversion `uint64(load)` of an `int`. -/
def uint64 (load : Int) : Nat :=
  (load % 18446744073709551616).toNat

/-- The inner loop `for _, s := range servers[1:]` of `expectedSequence`. -/
def expectedPick (traffic : TrafficMap) : List String → Nat → String → String
  | [], _, chosen => chosen
  | s :: rest, min, chosen =>
    if trafficGet traffic s < min then expectedPick traffic rest (trafficGet traffic s) s
    else expectedPick traffic rest min chosen

/-- The loop `for _, load := range loads` of `expectedSequence`; `none` is the
panic of `servers[0]` on an empty list. -/
def expectedLoop (servers : List String) :
    List Int → TrafficMap → List String → Option (List String)
  | [], _, seq => some seq
  | load :: rest, traffic, seq =>
    match servers with
    | [] => none
    | first :: others =>
      expectedLoop servers rest
        (trafficAdd traffic (expectedPick traffic others (trafficGet traffic first) first)
          (uint64 load))
        (seq ++ [expectedPick traffic others (trafficGet traffic first) first])

/-- The function `expectedSequence` of the test. -/
def expectedSequence (loads : List Int) (servers : List String) : Option (List String) :=
  expectedLoop servers loads (servers.foldl (fun t s => trafficSet t s 0) []) []

/-- The loads of the stubbed test. -/
def predefinedLoads : List Nat :=
  [80, 50, 30, 10, 100, 40, 90, 25, 60, 15]

end Balancer

namespace Datastore

/-! ## Facts about the codec and a single lookup -/

/-- The only errors of `DecodeFromReader` are `EOF`, on the empty stream, and
`ErrUnexpectedEOF`. -/
theorem DecodeFromReader_error (stream : Bytes) (e : Err)
    (h : DecodeFromReader stream = .error e) :
    (e = .EOF ∧ stream = []) ∨ e = .ErrUnexpectedEOF := by
  unfold DecodeFromReader at h
  by_cases h0 : stream = []
  · rw [if_pos h0] at h
    injection h with h
    exact Or.inl ⟨h.symm, h0⟩
  rw [if_neg h0] at h
  right
  cases hkl : getUint32 stream with
  | none =>
    rw [hkl] at h
    injection h with h
    exact h.symm
  | some kl =>
    rw [hkl] at h
    dsimp only at h
    by_cases h1 : (List.drop 4 stream).length < kl
    · rw [if_pos h1] at h
      injection h with h
      exact h.symm
    rw [if_neg h1] at h
    cases hvl : getUint32 (List.drop kl (List.drop 4 stream)) with
    | none =>
      rw [hvl] at h
      injection h with h
      exact h.symm
    | some vl =>
      rw [hvl] at h
      dsimp only at h
      by_cases h2 : (List.drop 4 (List.drop kl (List.drop 4 stream))).length < vl
      · rw [if_pos h2] at h
        injection h with h
        exact h.symm
      rw [if_neg h2] at h
      cases h

theorem DecodeFromReader_ne_notFound (stream : Bytes) :
    DecodeFromReader stream ≠ .error .ErrNotFound := by
  intro h
  rcases DecodeFromReader_error stream _ h with ⟨h1, _⟩ | h1 <;> cases h1

theorem getUint32_putUint32 (n : Nat) (rest : Bytes) (h : n < 4294967296) :
    getUint32 (putUint32 n ++ rest) = some n := by
  simp only [putUint32, List.cons_append, List.nil_append, getUint32, Fin.ofNat,
    Option.some.injEq]
  omega

theorem getUint32_lt (b : Bytes) (n : Nat) (h : getUint32 b = some n) : n < 4294967296 := by
  unfold getUint32 at h
  split at h
  · rename_i b0 b1 b2 b3 _
    injection h with h
    have h0 := b0.isLt
    have h1 := b1.isLt
    have h2 := b2.isLt
    have h3 := b3.isLt
    omega
  · cases h

theorem putUint32_length (n : Nat) : (putUint32 n).length = 4 := rfl

theorem entry.Encode_length (e : entry) :
    e.Encode.length = 8 + e.key.length + e.value.length := by
  simp only [entry.Encode, List.length_append, putUint32_length]
  omega

theorem entry.Encode_ne_nil (e : entry) : e.Encode ≠ [] := by
  intro h
  have := congrArg List.length h
  rw [entry.Encode_length] at this
  simp at this

/-- Decoding what `Encode` wrote gives the record back, with its length. -/
theorem DecodeFromReader_Encode (e : entry) (rest : Bytes)
    (hk : e.key.length < 4294967296) (hv : e.value.length < 4294967296) :
    DecodeFromReader (e.Encode ++ rest) = .ok (e, 8 + e.key.length + e.value.length) := by
  have hform : e.Encode ++ rest =
      putUint32 e.key.length ++ (e.key ++ (putUint32 e.value.length ++ (e.value ++ rest))) := by
    simp [entry.Encode, Nat.mod_eq_of_lt hk, Nat.mod_eq_of_lt hv]
  have hne : e.Encode ++ rest ≠ [] := by
    simp [entry.Encode_ne_nil]
  have h1 : getUint32 (e.Encode ++ rest) = some e.key.length := by
    rw [hform]
    exact getUint32_putUint32 _ _ hk
  have h2 : (e.Encode ++ rest).drop 4 =
      e.key ++ (putUint32 e.value.length ++ (e.value ++ rest)) := by
    rw [hform]
    exact List.drop_left (putUint32 e.key.length) _
  have h3 : (e.key ++ (putUint32 e.value.length ++ (e.value ++ rest))).drop e.key.length =
      putUint32 e.value.length ++ (e.value ++ rest) := List.drop_left _ _
  have h4 : (putUint32 e.value.length ++ (e.value ++ rest)).drop 4 = e.value ++ rest :=
    List.drop_left (putUint32 e.value.length) _
  unfold DecodeFromReader
  rw [if_neg hne, h1]
  simp only [h2, h3, h4, getUint32_putUint32 _ _ hv]
  rw [if_neg (by simp), if_neg (by simp)]
  simp

theorem getUint32_split (b : Bytes) (n : Nat) (h : getUint32 b = some n) :
    b = putUint32 n ++ b.drop 4 := by
  unfold getUint32 at h
  split at h
  · rename_i b0 b1 b2 b3 t
    injection h with h
    have h0 := b0.isLt
    have h1 := b1.isLt
    have h2 := b2.isLt
    have h3 := b3.isLt
    have e0 : (Fin.ofNat (n % 256) : Fin 256) = b0 := Fin.ext (by simp only [Fin.ofNat]; omega)
    have e1 : (Fin.ofNat (n / 256 % 256) : Fin 256) = b1 :=
      Fin.ext (by simp only [Fin.ofNat]; omega)
    have e2 : (Fin.ofNat (n / 65536 % 256) : Fin 256) = b2 :=
      Fin.ext (by simp only [Fin.ofNat]; omega)
    have e3 : (Fin.ofNat (n / 16777216 % 256) : Fin 256) = b3 :=
      Fin.ext (by simp only [Fin.ofNat]; omega)
    simp [putUint32, e0, e1, e2, e3]
  · cases h

/-- What `DecodeFromReader` accepts is an encoded record at the head of the
stream, and the count it returns is the length of that record. -/
theorem DecodeFromReader_ok (stream : Bytes) (e : entry) (n : Nat)
    (h : DecodeFromReader stream = .ok (e, n)) :
    stream = e.Encode ++ stream.drop n ∧ n = 8 + e.key.length + e.value.length ∧
      e.key.length < 4294967296 ∧ e.value.length < 4294967296 := by
  unfold DecodeFromReader at h
  by_cases h0 : stream = []
  · rw [if_pos h0] at h
    cases h
  rw [if_neg h0] at h
  cases hkl : getUint32 stream with
  | none =>
    rw [hkl] at h
    cases h
  | some kl =>
    rw [hkl] at h
    dsimp only at h
    by_cases h1 : (List.drop 4 stream).length < kl
    · rw [if_pos h1] at h
      cases h
    rw [if_neg h1] at h
    cases hvl : getUint32 (List.drop kl (List.drop 4 stream)) with
    | none =>
      rw [hvl] at h
      cases h
    | some vl =>
      rw [hvl] at h
      dsimp only at h
      by_cases h2 : (List.drop 4 (List.drop kl (List.drop 4 stream))).length < vl
      · rw [if_pos h2] at h
        cases h
      rw [if_neg h2] at h
      injection h with h
      injection h with he hn
      have hklt := getUint32_lt _ _ hkl
      have hvlt := getUint32_lt _ _ hvl
      have hklen : e.key.length = kl := by
        rw [← he]
        simp only [List.length_take]
        omega
      have hvlen : e.value.length = vl := by
        rw [← he]
        simp only [List.length_take]
        omega
      refine ⟨?_, by omega, by omega, by omega⟩
      have s1 := getUint32_split _ _ hkl
      have s2 := getUint32_split _ _ hvl
      have s3 : List.drop 4 stream = e.key ++ List.drop kl (List.drop 4 stream) := by
        rw [← he]
        exact (List.take_append_drop kl _).symm
      have s4 : List.drop 4 (List.drop kl (List.drop 4 stream)) =
          e.value ++ List.drop vl (List.drop 4 (List.drop kl (List.drop 4 stream))) := by
        rw [← he]
        exact (List.take_append_drop vl _).symm
      have s5 : stream.drop n =
          List.drop vl (List.drop 4 (List.drop kl (List.drop 4 stream))) := by
        rw [← hn]
        simp only [List.drop_drop]
        congr 1
        omega
      rw [s5]
      simp only [entry.Encode, hklen, hvlen, Nat.mod_eq_of_lt hklt, Nat.mod_eq_of_lt hvlt,
        List.append_assoc]
      rw [← s4, ← s2, ← s3, ← s1]

theorem segment.get_notFound_iff (s : segment) (fs : FS) (key : Bytes) :
    s.get fs key = .error .ErrNotFound ↔ mapGet s.index key = none := by
  unfold segment.get
  constructor
  · intro h
    split at h
    · assumption
    · split at h
      · split at h
        · cases h
        · rename_i err hd
          injection h with h
          subst h
          exact absurd hd (DecodeFromReader_ne_notFound _)
      · cases h
  · intro h
    simp [h]

theorem scanSegments_skip (fs : FS) (key : Bytes) (newer rest : List segment)
    (h : ∀ t ∈ newer, mapGet t.index key = none) :
    scanSegments fs key (newer ++ rest) = scanSegments fs key rest := by
  induction newer with
  | nil => rfl
  | cons t ts ih =>
    have ht : t.get fs key = .error .ErrNotFound :=
      (segment.get_notFound_iff t fs key).2 (h t (List.mem_cons_self _ _))
    have ih1 := ih (fun u hu => h u (List.mem_cons_of_mem _ hu))
    simp only [List.cons_append, scanSegments, ht, if_true]
    exact ih1

theorem scanSegments_hit (fs : FS) (key : Bytes) (s : segment) (older : List segment)
    (h : mapGet s.index key ≠ none) :
    scanSegments fs key (s :: older) = s.get fs key := by
  have hne : s.get fs key ≠ .error .ErrNotFound :=
    fun hc => h ((segment.get_notFound_iff s fs key).1 hc)
  simp only [scanSegments]
  cases hg : s.get fs key with
  | ok v => rfl
  | error e =>
    have : e ≠ .ErrNotFound := fun hc => hne (by rw [hg, hc])
    simp [this]

theorem scanSegments_notFound_iff (fs : FS) (key : Bytes) (segs : List segment) :
    scanSegments fs key segs = .error .ErrNotFound ↔ ∀ t ∈ segs, mapGet t.index key = none := by
  induction segs with
  | nil => simp [scanSegments]
  | cons t ts ih =>
    by_cases ht : mapGet t.index key = none
    · have h1 := scanSegments_skip fs key [t] ts (by simpa using ht)
      simp only [List.singleton_append] at h1
      rw [h1, ih]
      simp [ht]
    · rw [scanSegments_hit fs key t ts ht, segment.get_notFound_iff]
      simp [ht]

/-- The lookup of `Get` is the lookup of the last segment that has the key. -/
theorem Db.Get_eq_last (db : Db) (fs : FS) (key : Bytes) (older newer : List segment)
    (s : segment) (hsegs : db.segments = older ++ s :: newer)
    (hin : mapGet s.index key ≠ none)
    (hnewer : ∀ t ∈ newer, mapGet t.index key = none) :
    db.Get fs key = s.get fs key := by
  unfold Db.Get
  rw [hsegs, List.reverse_append, List.reverse_cons, List.append_assoc,
    scanSegments_skip fs key newer.reverse _ (by simpa using hnewer)]
  exact scanSegments_hit fs key s _ hin

/-! ## Facts about maps and the file system -/

theorem mapGet_mapSet_self {α : Type} (m : List (Bytes × α)) (k : Bytes) (v : α) :
    mapGet (mapSet m k v) k = some v := by
  simp [mapSet, mapGet]

theorem mapGet_filter_ne {α : Type} (m : List (Bytes × α)) (k k' : Bytes) (h : k ≠ k') :
    mapGet (m.filter (fun p => decide (p.1 ≠ k))) k' = mapGet m k' := by
  induction m with
  | nil => rfl
  | cons p rest ih =>
    obtain ⟨a, b⟩ := p
    by_cases ha : a = k <;> by_cases hb : a = k' <;> simp_all [List.filter, mapGet]

theorem mapGet_mapSet_ne {α : Type} (m : List (Bytes × α)) (k k' : Bytes) (v : α)
    (h : k ≠ k') : mapGet (mapSet m k v) k' = mapGet m k' := by
  simp only [mapSet, mapGet, h, if_false]
  exact mapGet_filter_ne m k k' h

theorem FS.lookup_store_self (fs : FS) (path : String) (n : Node) :
    (fs.store path n).lookup path = some n := by
  induction fs with
  | nil => simp [FS.store, FS.lookup]
  | cons p rest ih =>
    obtain ⟨q, m⟩ := p
    by_cases hq : q = path
    · simp [FS.store, FS.lookup, hq]
    · simp [FS.store, FS.lookup, hq, ih]

theorem FS.lookup_store_ne (fs : FS) (path other : String) (n : Node) (h : path ≠ other) :
    (fs.store path n).lookup other = fs.lookup other := by
  induction fs with
  | nil => simp [FS.store, FS.lookup, h]
  | cons p rest ih =>
    obtain ⟨q, m⟩ := p
    by_cases hq : q = path
    · subst hq
      simp [FS.store, FS.lookup, h]
    · by_cases ho : q = other
      · subst ho
        simp [FS.store, FS.lookup, hq]
      · simp [FS.store, FS.lookup, hq, ho, ih]

theorem FS.mem_of_lookup (fs : FS) (path : String) (n : Node) (h : fs.lookup path = some n) :
    (path, n) ∈ fs := by
  induction fs with
  | nil => simp [FS.lookup] at h
  | cons p rest ih =>
    obtain ⟨q, m⟩ := p
    by_cases hq : q = path
    · simp [FS.lookup, hq] at h
      simp [hq, h]
    · simp [FS.lookup, hq] at h
      exact List.mem_cons_of_mem _ (ih h)

theorem dropWhile_append_stop {α : Type} (p : α → Bool) (l r : List α) (a : α)
    (hl : ∀ x ∈ l, p x = true) (ha : p a = false) :
    (l ++ a :: r).dropWhile p = a :: r := by
  induction l with
  | nil => simp [List.dropWhile, ha]
  | cons x l ih =>
    have hx := hl x (List.mem_cons_self _ _)
    simp only [List.cons_append, List.dropWhile, hx]
    exact ih (fun y hy => hl y (List.mem_cons_of_mem _ hy))

theorem dirPrefix_cases (dir : String) :
    ((dir = "" ∨ dir = ".") ∧ dirPrefix dir = "") ∨ (dir = "/" ∧ dirPrefix dir = "/") ∨
      (dir ≠ "" ∧ dir ≠ "." ∧ dir ≠ "/" ∧ dirPrefix dir = dir ++ "/") := by
  unfold dirPrefix
  by_cases h1 : dir = "" ∨ dir = "."
  · exact Or.inl ⟨h1, by rw [if_pos h1]⟩
  · rw [if_neg h1]
    by_cases h2 : dir = "/"
    · exact Or.inr (Or.inl ⟨h2, by rw [if_pos h2]⟩)
    · rw [if_neg h2]
      exact Or.inr (Or.inr ⟨fun h => h1 (Or.inl h), fun h => h1 (Or.inr h), h2, rfl⟩)

theorem filepathJoin_data (dir name : String) :
    (filepathJoin dir name).data = (dirPrefix dir).data ++ name.data := by
  simp [filepathJoin]

theorem childName_join (dir name : String) (h : isName name = true) :
    childName dir (filepathJoin dir name) = some name := by
  have hpre : ((dirPrefix dir).data).isPrefixOf (filepathJoin dir name).data = true := by
    simp [filepathJoin]
  have hdrop : (filepathJoin dir name).data.drop (dirPrefix dir).data.length = name.data := by
    rw [filepathJoin_data]
    exact List.drop_left _ _
  simp only [childName, hpre, if_true, hdrop]
  have hname : String.mk name.data = name := rfl
  rw [hname, if_pos h]

/-- The path that `filepath.Join` makes from a directory and a name is
resolved in that directory. -/
theorem parentDir_join (dir name : String) (hname : '/' ∉ name.data) (hdir : dir ≠ "") :
    parentDir (filepathJoin dir name) = dir := by
  have hdrop : ∀ r : List Char, (name.data.reverse ++ '/' :: r).dropWhile
      (fun c => decide (c ≠ '/')) = '/' :: r := by
    intro r
    apply dropWhile_append_stop
    · intro x hx
      have : x ≠ '/' := fun hc => hname (by rw [← hc]; exact List.mem_reverse.1 hx)
      simpa using this
    · simp
  unfold parentDir
  rw [filepathJoin_data]
  rcases dirPrefix_cases dir with ⟨h1, h2⟩ | ⟨h1, h2⟩ | ⟨h1, _, _, h2⟩
  · rcases h1 with h1 | h1
    · exact absurd h1 hdir
    · rw [h2, h1]
      have he : ("" : String).data = [] := rfl
      rw [he, List.nil_append, if_neg hname]
  · rw [h2, h1]
    have hd : ("/" : String).data = ['/'] := rfl
    rw [hd]
    have hmem : '/' ∈ ['/'] ++ name.data := by simp
    rw [if_pos hmem]
    have hrev : (['/'] ++ name.data).reverse = name.data.reverse ++ '/' :: [] := by simp
    simp only [hrev, hdrop, List.drop_one, List.tail_cons, if_true]
  · rw [h2]
    have hd : (dir ++ "/").data = dir.data ++ ['/'] := by simp
    rw [hd]
    have hmem : '/' ∈ dir.data ++ ['/'] ++ name.data := by simp
    rw [if_pos hmem]
    have hrev : (dir.data ++ ['/'] ++ name.data).reverse =
        name.data.reverse ++ '/' :: dir.data.reverse := by simp
    have hne : dir.data.reverse ≠ [] := by
      intro hc
      apply hdir
      have : dir.data = [] := by simpa using hc
      exact String.ext this
    simp only [hrev, hdrop, List.drop_one, List.tail_cons, hne, if_false, List.reverse_reverse]

theorem isName_no_slash (name : String) (h : isName name = true) : '/' ∉ name.data := by
  unfold isName at h
  exact (of_decide_eq_true h).2.1

/-- A directory that `ReadDir` lists is a directory of the file system, and
its path is not empty. -/
theorem ReadDir_ok_dir (fs : FS) (dir : String) (names : List String)
    (h : ReadDir fs dir = .ok names) : dir ≠ "" ∧ fs.isDir dir = true := by
  unfold ReadDir at h
  by_cases hd : dir = ""
  · rw [if_pos hd] at h
    cases h
  · rw [if_neg hd] at h
    refine ⟨hd, ?_⟩
    by_cases hdir : fs.isDir dir = true
    · exact hdir
    · rw [if_neg hdir] at h
      cases h

/-- A directory stays one when a path that does not name a directory gets a
new content. -/
theorem FS.isDir_store (fs : FS) (d p : String) (n : Node) (h : fs.isDir d = true)
    (hp : fs.lookup p ≠ some .dir) : (fs.store p n).isDir d = true := by
  unfold FS.isDir at h ⊢
  apply decide_eq_true
  rcases of_decide_eq_true h with h1 | h1 | h1
  · exact Or.inl h1
  · exact Or.inr (Or.inl h1)
  · have hne : p ≠ d := by
      intro hc
      rw [hc] at hp
      exact hp h1
    exact Or.inr (Or.inr (by rw [FS.lookup_store_ne _ _ _ _ hne]; exact h1))

theorem ReadDir_nil_lookup (fs : FS) (dir name : String) (h : ReadDir fs dir = .ok [])
    (h1 : isName name = true) :
    fs.lookup (filepathJoin dir name) = none := by
  obtain ⟨hd, hdir⟩ := ReadDir_ok_dir fs dir [] h
  unfold ReadDir at h
  rw [if_neg hd, if_pos hdir] at h
  injection h with h
  have hlen := congrArg List.length h
  rw [List.length_insertionSort] at hlen
  have h3 := List.eq_nil_of_length_eq_zero hlen
  rw [List.dedup_eq_nil, List.filterMap_eq_nil_iff] at h3
  cases hl : fs.lookup (filepathJoin dir name) with
  | none => rfl
  | some n =>
    have := h3 _ (FS.mem_of_lookup fs _ n hl)
    rw [childName_join dir name h1] at this
    cases this

theorem rebuildIndex_empty (fs : FS) (path : String) (h : fs.lookup path = some (.file [])) :
    segment.rebuildIndex ⟨path, [], 0⟩ fs = .ok ⟨path, [], 0⟩ := by
  simp [segment.rebuildIndex, h, rebuildLoop, DecodeFromReader]

theorem newSegment_fresh (fs : FS) (path : String) (h : fs.lookup path = none)
    (hp : fs.isDir (parentDir path) = true) :
    newSegment fs path = (.ok ⟨path, [], 0⟩, fs.store path (.file [])) := by
  simp only [newSegment, h, hp, if_true]
  rw [rebuildIndex_empty _ _ (FS.lookup_store_self fs path _)]

theorem Open_empty (fs : FS) (dir : String) (h : ReadDir fs dir = .ok []) :
    Open fs dir =
      (.ok { segments := [⟨filepathJoin dir outFileName, [], 0⟩], current := 0, dir := dir },
        fs.store (filepathJoin dir outFileName) (.file [])) := by
  have hl := ReadDir_nil_lookup fs dir outFileName h (by decide)
  obtain ⟨hd, hdir⟩ := ReadDir_ok_dir fs dir [] h
  have hp : fs.isDir (parentDir (filepathJoin dir outFileName)) = true := by
    rw [parentDir_join dir outFileName (by decide) hd]
    exact hdir
  simp only [Open, h, openLoop, List.length_nil, if_true, List.nil_append,
    newSegment_fresh _ _ hl hp]
  rfl

/-- The function `os.Create` succeeds where the path does not name a directory
and the directory of the path exists when the path names nothing. -/
theorem osCreate_ok (fs : FS) (path : String) (hdir : fs.lookup path ≠ some .dir)
    (hparent : parentMissing fs path = false) :
    osCreate fs path = (none, fs.store path (.file [])) := by
  unfold osCreate
  cases hl : fs.lookup path with
  | none =>
    have hp : fs.isDir (parentDir path) = true := by
      by_contra hc
      have : parentMissing fs path = true := by
        unfold parentMissing
        exact decide_eq_true ⟨hl, by simpa using hc⟩
      rw [this] at hparent
      cases hparent
    simp only [hp, if_true]
  | some n =>
    cases n with
    | dir => exact absurd hl hdir
    | file c => rfl

theorem osCreate_fail (fs : FS) (path : String)
    (h : fs.lookup path = some .dir ∨ parentMissing fs path = true) :
    osCreate fs path = (some .PathError, fs) := by
  unfold osCreate
  rcases h with h | h
  · rw [h]
  · unfold parentMissing at h
    obtain ⟨h1, h2⟩ := of_decide_eq_true h
    rw [h1]
    simp [h2]

/-! ## The bound on the loop of `rebuildIndex` -/

/-- With more fuel than the stream has bytes the loop of `rebuildIndex` is
never stopped by the bound. -/
theorem rebuildLoop_fuel (fuel : Nat) :
    ∀ (stream : Bytes) (index : hashIndex) (offset : Nat), stream.length < fuel →
      rebuildLoop fuel stream index offset ≠ .error .OutOfFuel := by
  induction fuel with
  | zero => intro stream index offset h; omega
  | succ fuel ih =>
    intro stream index offset h
    unfold rebuildLoop
    cases hd : DecodeFromReader stream with
    | error e =>
      rcases DecodeFromReader_error stream e hd with ⟨h1, _⟩ | h1 <;> subst h1 <;> simp
    | ok r =>
      obtain ⟨rec, n⟩ := r
      obtain ⟨hs, hn, _, _⟩ := DecodeFromReader_ok stream rec n hd
      have hlen := congrArg List.length hs
      rw [List.length_append, entry.Encode_length] at hlen
      exact ih _ _ _ (by omega)

theorem segment.rebuildIndex_ne_outOfFuel (s : segment) (fs : FS) :
    s.rebuildIndex fs ≠ .error .OutOfFuel := by
  unfold segment.rebuildIndex
  split
  · rename_i content _
    have := rebuildLoop_fuel (content.length + 1) content s.index s.offset (by omega)
    split
    · simp
    · rename_i e he
      intro hc
      injection hc with hc
      rw [hc] at he
      exact this he
  · simp

/-! ## Records in a segment file -/

theorem segment.get_of_holdsRecord (s : segment) (fs : FS) (key : Bytes) (pos : Nat) (e : entry)
    (hidx : mapGet s.index key = some pos) (hrec : holdsRecord fs s.path pos e)
    (hk : e.key.length < 4294967296) (hv : e.value.length < 4294967296) :
    s.get fs key = .ok e.value := by
  obtain ⟨content, rest, hl, hd⟩ := hrec
  simp only [segment.get, hidx, hl, hd, DecodeFromReader_Encode e rest hk hv]

theorem segment.get_ok_length (s : segment) (fs : FS) (key val : Bytes)
    (h : s.get fs key = .ok val) : val.length < 4294967296 := by
  unfold segment.get at h
  split at h
  · cases h
  · split at h
    · split at h
      · rename_i e n hd
        injection h with h
        subst h
        exact (DecodeFromReader_ok _ _ _ hd).2.2.2
      · cases h
    · cases h

theorem segment.put_none (s : segment) (fs : FS) (e : entry) (content : Bytes)
    (h : fs.lookup s.path = some (.file content)) :
    s.put fs e none =
      (none, ⟨s.path, mapSet s.index e.key s.offset, s.offset + e.Encode.length⟩,
        fs.store s.path (.file (content ++ e.Encode))) := by
  simp [segment.put, fileWrite, h]

theorem holdsRecord_append (fs fs1 : FS) (path : String) (pos : Nat) (e : entry)
    (content more : Bytes) (h : holdsRecord fs path pos e)
    (h0 : fs.lookup path = some (.file content))
    (h1 : fs1.lookup path = some (.file (content ++ more))) :
    holdsRecord fs1 path pos e := by
  obtain ⟨c, rest, hl, hd⟩ := h
  rw [h0] at hl
  injection hl with hl
  injection hl with hl
  subst hl
  refine ⟨_, rest ++ more, h1, ?_⟩
  have hle : pos ≤ content.length := by
    by_contra hc
    have : content.drop pos = [] := List.drop_eq_nil_of_le (by omega)
    rw [this] at hd
    have hlen := congrArg List.length hd
    simp only [List.length_nil, List.length_append, entry.Encode_length] at hlen
    omega
  rw [List.drop_append_of_le_length hle, hd, List.append_assoc]

theorem holdsRecord_frame (fs fs1 : FS) (path : String) (pos : Nat) (e : entry)
    (h : holdsRecord fs path pos e) (h1 : fs1.lookup path = fs.lookup path) :
    holdsRecord fs1 path pos e := by
  obtain ⟨c, rest, hl, hd⟩ := h
  exact ⟨c, rest, h1.trans hl, hd⟩

/-- A run of `put`s without failure on a segment whose offset is the length of
its file: the file grows at its end only, a key that is not written keeps its
index entry, and the last record written for a key is the one the index points
at. -/
theorem mergeWrite_spec (fault : Bytes → Option WriteFault) (hfault : ∀ k, fault k = none) :
    ∀ (l : List (Bytes × Bytes)) (s : segment) (fs : FS) (content : Bytes),
      fs.lookup s.path = some (.file content) → s.offset = content.length →
      ∃ more,
        (mergeWrite fault l s fs).1.path = s.path ∧
        (mergeWrite fault l s fs).2.lookup s.path = some (.file (content ++ more)) ∧
        (mergeWrite fault l s fs).1.offset = (content ++ more).length ∧
        (∀ p, p ≠ s.path → (mergeWrite fault l s fs).2.lookup p = fs.lookup p) ∧
        (∀ k, k ∉ l.map Prod.fst →
          mapGet (mergeWrite fault l s fs).1.index k = mapGet s.index k) ∧
        (∀ a k v b, l = a ++ (k, v) :: b → k ∉ b.map Prod.fst →
          ∃ pos, mapGet (mergeWrite fault l s fs).1.index k = some pos ∧
            holdsRecord (mergeWrite fault l s fs).2 s.path pos ⟨k, v⟩) := by
  intro l
  induction l with
  | nil =>
    intro s fs content hl ho
    refine ⟨[], rfl, by simpa [mergeWrite] using hl, by simpa [mergeWrite] using ho,
      fun p _ => rfl, fun k _ => rfl, ?_⟩
    intro a k v b hab
    simp at hab
  | cons x l ih =>
    obtain ⟨k0, v0⟩ := x
    intro s fs content hl ho
    have hput := segment.put_none s fs ⟨k0, v0⟩ content hl
    have hstep : mergeWrite fault ((k0, v0) :: l) s fs =
        mergeWrite fault l ⟨s.path, mapSet s.index k0 s.offset,
          s.offset + (entry.Encode ⟨k0, v0⟩).length⟩
          (fs.store s.path (.file (content ++ entry.Encode ⟨k0, v0⟩))) := by
      simp only [mergeWrite, hfault k0, hput]
    obtain ⟨more, hp, hlk, hof, hfr, hkeep, hrec⟩ :=
      ih ⟨s.path, mapSet s.index k0 s.offset, s.offset + (entry.Encode ⟨k0, v0⟩).length⟩
        (fs.store s.path (.file (content ++ entry.Encode ⟨k0, v0⟩)))
        (content ++ entry.Encode ⟨k0, v0⟩) (FS.lookup_store_self _ _ _)
        (by simp [ho])
    dsimp only at hp hlk hof hfr hkeep hrec
    rw [hstep]
    refine ⟨entry.Encode ⟨k0, v0⟩ ++ more, hp, ?_, ?_, ?_, ?_, ?_⟩
    · rw [hlk, List.append_assoc]
    · rw [hof, List.append_assoc]
    · intro p hne
      rw [hfr p hne, FS.lookup_store_ne _ _ _ _ (Ne.symm hne)]
    · intro k hk
      simp only [List.map_cons, List.mem_cons, not_or] at hk
      rw [hkeep k hk.2]
      exact mapGet_mapSet_ne _ _ _ _ (Ne.symm hk.1)
    · intro a k v b hab hkb
      cases a with
      | nil =>
        simp only [List.nil_append, List.cons.injEq, Prod.mk.injEq] at hab
        obtain ⟨⟨hk, hv⟩, hb⟩ := hab
        subst hk hv hb
        refine ⟨content.length, ?_, ?_⟩
        · rw [hkeep k0 hkb, mapGet_mapSet_self, ho]
        · exact ⟨content ++ (entry.Encode ⟨k0, v0⟩ ++ more), more,
            by rw [hlk, List.append_assoc], List.drop_left _ _⟩
      | cons y a =>
        simp only [List.cons_append, List.cons.injEq] at hab
        exact hrec a k v b hab.2 hkb

/-! ## The working map of the merge -/

theorem mapGet_mem {α : Type} (m : List (Bytes × α)) (k : Bytes) (v : α)
    (h : mapGet m k = some v) : (k, v) ∈ m := by
  induction m with
  | nil => simp [mapGet] at h
  | cons p rest ih =>
    obtain ⟨a, b⟩ := p
    by_cases ha : a = k
    · simp [mapGet, ha] at h
      simp [ha, h]
    · simp [mapGet, ha] at h
      exact List.mem_cons_of_mem _ (ih h)

theorem mapGet_ne_none_iff {α : Type} (m : List (Bytes × α)) (k : Bytes) :
    mapGet m k ≠ none ↔ k ∈ m.map Prod.fst := by
  induction m with
  | nil => simp [mapGet]
  | cons p rest ih =>
    obtain ⟨a, b⟩ := p
    by_cases ha : a = k
    · simp [mapGet, ha]
    · simp only [mapGet, ha, if_false, List.map_cons, List.mem_cons, ih]
      constructor
      · exact Or.inr
      · rintro (h | h)
        · exact absurd h.symm ha
        · exact h

theorem mapSet_keys_nodup {α : Type} (m : List (Bytes × α)) (k : Bytes) (v : α)
    (h : (m.map Prod.fst).Nodup) : ((mapSet m k v).map Prod.fst).Nodup := by
  simp only [mapSet, List.map_cons, List.nodup_cons]
  constructor
  · intro hc
    obtain ⟨p, hp, hk⟩ := List.mem_map.1 hc
    have := (List.mem_filter.1 hp).2
    simp [hk] at this
  · exact h.sublist ((List.filter_sublist m).map Prod.fst)

theorem mergeKeys_keys_nodup (fs : FS) (seg : segment) (l : List (Bytes × Nat)) :
    ∀ merged : List (Bytes × Bytes), (merged.map Prod.fst).Nodup →
      ((mergeKeys fs seg l merged).map Prod.fst).Nodup := by
  induction l with
  | nil => intro merged h; exact h
  | cons x l ih =>
    obtain ⟨k, pos⟩ := x
    intro merged h
    simp only [mergeKeys]
    cases seg.get fs k with
    | ok val => exact ih _ (mapSet_keys_nodup merged k val h)
    | error e => exact ih _ h

theorem mergeKeys_other (fs : FS) (seg : segment) (key : Bytes) (l : List (Bytes × Nat))
    (hl : key ∉ l.map Prod.fst) :
    ∀ merged : List (Bytes × Bytes), mapGet (mergeKeys fs seg l merged) key = mapGet merged key := by
  induction l with
  | nil => intro merged; rfl
  | cons x l ih =>
    obtain ⟨k, pos⟩ := x
    intro merged
    simp only [List.map_cons, List.mem_cons, not_or] at hl
    simp only [mergeKeys]
    cases seg.get fs k with
    | ok val => rw [ih hl.2, mapGet_mapSet_ne _ _ _ _ (Ne.symm hl.1)]
    | error e => exact ih hl.2 merged

theorem mergeKeys_keep (fs : FS) (seg : segment) (key val : Bytes)
    (hget : seg.get fs key = .ok val) (l : List (Bytes × Nat)) :
    ∀ merged : List (Bytes × Bytes), mapGet merged key = some val →
      mapGet (mergeKeys fs seg l merged) key = some val := by
  induction l with
  | nil => intro merged h; exact h
  | cons x l ih =>
    obtain ⟨k, pos⟩ := x
    intro merged h
    simp only [mergeKeys]
    by_cases hk : k = key
    · subst hk
      rw [hget]
      exact ih _ (mapGet_mapSet_self _ _ _)
    · cases seg.get fs k with
      | ok v => exact ih _ (by rw [mapGet_mapSet_ne _ _ _ _ hk]; exact h)
      | error e => exact ih _ h

theorem mergeKeys_hit (fs : FS) (seg : segment) (key val : Bytes)
    (hget : seg.get fs key = .ok val) (l : List (Bytes × Nat)) (hl : key ∈ l.map Prod.fst) :
    ∀ merged : List (Bytes × Bytes), mapGet (mergeKeys fs seg l merged) key = some val := by
  induction l with
  | nil => simp at hl
  | cons x l ih =>
    obtain ⟨k, pos⟩ := x
    intro merged
    simp only [mergeKeys]
    by_cases hk : k = key
    · subst hk
      rw [hget]
      exact mergeKeys_keep fs seg k val hget l _ (mapGet_mapSet_self _ _ _)
    · have hl1 : key ∈ l.map Prod.fst := by
        simp only [List.map_cons, List.mem_cons] at hl
        rcases hl with h | h
        · exact absurd h.symm hk
        · exact h
      cases seg.get fs k with
      | ok v => exact ih hl1 _
      | error e => exact ih hl1 _

theorem mergeCollect_keys_nodup (fs : FS) (ord : MapOrder) (segs : List segment) :
    ∀ (i : Nat) (merged : List (Bytes × Bytes)), (merged.map Prod.fst).Nodup →
      ((mergeCollect fs ord i segs merged).map Prod.fst).Nodup := by
  induction segs with
  | nil => intro i merged h; exact h
  | cons t rest ih =>
    intro i merged h
    exact ih _ _ (mergeKeys_keys_nodup fs t _ merged h)

theorem mergeCollect_other (fs : FS) (ord : MapOrder) (key : Bytes) (segs : List segment)
    (h : ∀ t ∈ segs, mapGet t.index key = none) :
    ∀ (i : Nat) (merged : List (Bytes × Bytes)),
      mapGet (mergeCollect fs ord i segs merged) key = mapGet merged key := by
  induction segs with
  | nil => intro i merged; rfl
  | cons t rest ih =>
    intro i merged
    simp only [mergeCollect]
    rw [ih (fun u hu => h u (List.mem_cons_of_mem _ hu))]
    apply mergeKeys_other
    intro hc
    have hperm := (ord.index_perm i t.index).map Prod.fst
    have hmem := (hperm.mem_iff).1 hc
    exact (mapGet_ne_none_iff t.index key).2 hmem (h t (List.mem_cons_self _ _))

/-- The working map holds, for a key, the value read from the last segment
that has the key, when that read succeeds. -/
theorem mergeCollect_last (fs : FS) (ord : MapOrder) (key val : Bytes)
    (older newer : List segment) (s : segment)
    (hget : s.get fs key = .ok val)
    (hnewer : ∀ t ∈ newer, mapGet t.index key = none) :
    ∀ (i : Nat) (merged : List (Bytes × Bytes)),
      mapGet (mergeCollect fs ord i (older ++ s :: newer) merged) key = some val := by
  induction older with
  | nil =>
    intro i merged
    simp only [List.nil_append, mergeCollect]
    rw [mergeCollect_other fs ord key newer hnewer]
    apply mergeKeys_hit fs s key val hget
    have hin : mapGet s.index key ≠ none := by
      intro hc
      rw [(segment.get_notFound_iff s fs key).2 hc] at hget
      cases hget
    have hperm := (ord.index_perm i s.index).map Prod.fst
    exact (hperm.mem_iff).2 ((mapGet_ne_none_iff s.index key).1 hin)
  | cons t rest ih =>
    intro i merged
    exact ih _ _

/-! ## Names of segment files -/

theorem digitChar_value : ∀ d, d < 10 → (Nat.digitChar d).toNat - 48 = d := by
  decide

theorem toDigitsCore_value (fuel : Nat) :
    ∀ (n : Nat) (ds : List Char), n < fuel →
      digitsValue 0 (Nat.toDigitsCore 10 fuel n ds) = digitsValue n ds := by
  induction fuel with
  | zero => intro n ds h; omega
  | succ fuel ih =>
    intro n ds h
    unfold Nat.toDigitsCore
    dsimp only
    split_ifs with h0
    · simp only [digitsValue, List.foldl_cons, Nat.zero_mul, Nat.zero_add]
      rw [digitChar_value _ (Nat.mod_lt _ (by decide))]
      congr 1
      omega
    · rw [ih _ _ (by omega)]
      simp only [digitsValue, List.foldl_cons]
      rw [digitChar_value _ (Nat.mod_lt _ (by decide))]
      congr 1
      omega

theorem toString_nat_injective (n m : Nat) (h : toString n = toString m) : n = m := by
  have h1 : Nat.toDigits 10 n = Nat.toDigits 10 m := by
    have := congrArg String.data h
    simpa [toString, Nat.repr, List.asString] using this
  have h2 := congrArg (digitsValue 0) h1
  simp only [Nat.toDigits] at h2
  rw [toDigitsCore_value _ _ _ (by omega), toDigitsCore_value _ _ _ (by omega)] at h2
  simpa [digitsValue] using h2

/-- Different numbers give different segment paths. -/
theorem segmentPath_injective (dir : String) (n m : Nat)
    (h : filepathJoin dir (segmentName n) = filepathJoin dir (segmentName m)) : n = m := by
  have h1 := congrArg String.data h
  simp only [filepathJoin, segmentName, String.data_append, List.append_assoc,
    List.append_cancel_left_eq] at h1
  exact toString_nat_injective n m (String.ext h1)

theorem digitChar_ne_slash : ∀ d, d < 10 → Nat.digitChar d ≠ '/' := by
  decide

theorem toDigitsCore_no_slash (fuel : Nat) :
    ∀ (n : Nat) (ds : List Char), '/' ∉ ds → '/' ∉ Nat.toDigitsCore 10 fuel n ds := by
  induction fuel with
  | zero => intro n ds h; exact h
  | succ fuel ih =>
    intro n ds h
    have hcons : '/' ∉ Nat.digitChar (n % 10) :: ds := by
      intro hc
      rcases List.mem_cons.1 hc with h1 | h1
      · exact digitChar_ne_slash _ (Nat.mod_lt _ (by decide)) h1.symm
      · exact h h1
    unfold Nat.toDigitsCore
    dsimp only
    split_ifs with h0
    · exact hcons
    · exact ih _ _ hcons

/-- The name of a segment file has no slash. -/
theorem segmentName_no_slash (n : Nat) : '/' ∉ (segmentName n).data := by
  have hd : (segmentName n).data = "segment-".data ++ Nat.toDigits 10 n := by
    simp [segmentName, toString, Nat.repr, List.asString]
  rw [hd]
  intro hc
  rcases List.mem_append.1 hc with h | h
  · revert h
    decide
  · exact toDigitsCore_no_slash _ _ _ (List.not_mem_nil _) h

/-! ## Files that only grow -/

theorem grows_refl (fs : FS) : grows fs fs :=
  fun _ _ _ h => h

theorem grows_trans (fs fs1 fs2 : FS) (h1 : grows fs fs1) (h2 : grows fs1 fs2) : grows fs fs2 :=
  fun p pos e h => h2 p pos e (h1 p pos e h)

theorem grows_append (fs : FS) (path : String) (content more : Bytes)
    (h : fs.lookup path = some (.file content)) :
    grows fs (fs.store path (.file (content ++ more))) := by
  intro p pos e hp
  by_cases hpq : p = path
  · subst hpq
    exact holdsRecord_append fs _ p pos e content more hp h (FS.lookup_store_self _ _ _)
  · exact holdsRecord_frame fs _ p pos e hp (FS.lookup_store_ne _ _ _ _ (Ne.symm hpq))

theorem grows_create (fs : FS) (path : String) (n : Node) (h : fs.lookup path = none) :
    grows fs (fs.store path n) := by
  intro p pos e hp
  have hpq : path ≠ p := by
    intro hc
    subst hc
    obtain ⟨c, _, hl, _⟩ := hp
    rw [h] at hl
    cases hl
  exact holdsRecord_frame fs _ p pos e hp (FS.lookup_store_ne _ _ _ _ hpq)

theorem latestIn_grows (fs fs1 : FS) (key val : Bytes) (hg : grows fs fs1) :
    ∀ segs : List segment, latestIn fs key val segs → latestIn fs1 key val segs := by
  intro segs
  induction segs with
  | nil => intro h; exact h
  | cons s older ih =>
    intro h
    rcases h with ⟨pos, hi, hr⟩ | ⟨hn, ho⟩
    · exact Or.inl ⟨pos, hi, hg _ _ _ hr⟩
    · exact Or.inr ⟨hn, ih ho⟩

/-- The scan of `Get` returns the value of the newest record of the key. -/
theorem scanSegments_latestIn (fs : FS) (key val : Bytes)
    (hk : key.length < 4294967296) (hv : val.length < 4294967296) :
    ∀ segs : List segment, latestIn fs key val segs → scanSegments fs key segs = .ok val := by
  intro segs
  induction segs with
  | nil => intro h; exact absurd h id
  | cons s older ih =>
    intro h
    rcases h with ⟨pos, hi, hr⟩ | ⟨hn, ho⟩
    · rw [scanSegments_hit fs key s older (by rw [hi]; simp)]
      exact segment.get_of_holdsRecord s fs key pos ⟨key, val⟩ hi hr hk hv
    · have h1 := scanSegments_skip fs key [s] older (by simpa using hn)
      simp only [List.singleton_append] at h1
      rw [h1]
      exact ih ho

/-! ## One `Put` on a well-shaped store -/

theorem FS.lookup_file_store (fs : FS) (path other : String) (content : Bytes)
    (h : ∃ c, fs.lookup other = some (.file c)) :
    ∃ c, (fs.store path (.file content)).lookup other = some (.file c) := by
  by_cases hp : path = other
  · subst hp
    exact ⟨content, FS.lookup_store_self _ _ _⟩
  · rw [FS.lookup_store_ne _ _ _ _ hp]
    exact h

/-- On a well-shaped store a `Put` without injected failure succeeds, keeps
the shape, lets files only grow, makes the value put the newest one of its
key and leaves the newest value of every other key as it was. -/
theorem Db.Put_storeOK (db : Db) (fs : FS) (key value : Bytes) (h : storeOK db fs) :
    ∃ db1 fs1, db.Put fs key value none = (none, db1, fs1) ∧ storeOK db1 fs1 ∧
      db1.dir = db.dir ∧ grows fs fs1 ∧
      latestIn fs1 key value db1.segments.reverse ∧
      (∀ k v, k ≠ key → latestIn fs k v db.segments.reverse →
        latestIn fs1 k v db1.segments.reverse) := by
  obtain ⟨cur, rest, hsegs, hcur, hfiles, ⟨content, hl, ho⟩, hfresh, hdne, hdir⟩ := h
  have hdirw : (fs.store cur.path (.file (content ++ entry.Encode ⟨key, value⟩))).isDir db.dir =
      true :=
    FS.isDir_store fs db.dir cur.path _ hdir (by rw [hl]; simp)
  have hget : db.segments[db.current]? = some cur := by
    rw [hsegs, hcur]
    simp
  have hput := segment.put_none cur fs ⟨key, value⟩ content hl
  have hset : db.segments.set db.current
      ⟨cur.path, mapSet cur.index key cur.offset,
        cur.offset + (entry.Encode ⟨key, value⟩).length⟩ =
      rest ++ [⟨cur.path, mapSet cur.index key cur.offset,
        cur.offset + (entry.Encode ⟨key, value⟩).length⟩] := by
    rw [hsegs, hcur]
    simp
  have hlw : (fs.store cur.path (.file (content ++ entry.Encode ⟨key, value⟩))).lookup cur.path =
      some (.file (content ++ entry.Encode ⟨key, value⟩)) := FS.lookup_store_self _ _ _
  have hsize : segment.size ⟨cur.path, mapSet cur.index key cur.offset,
        cur.offset + (entry.Encode ⟨key, value⟩).length⟩
      (fs.store cur.path (.file (content ++ entry.Encode ⟨key, value⟩))) =
      some (content ++ entry.Encode ⟨key, value⟩).length := by
    simp only [segment.size, hlw]
  have hgw : grows fs (fs.store cur.path (.file (content ++ entry.Encode ⟨key, value⟩))) :=
    grows_append fs cur.path content _ hl
  have hrecw : holdsRecord (fs.store cur.path (.file (content ++ entry.Encode ⟨key, value⟩)))
      cur.path cur.offset ⟨key, value⟩ := by
    rw [ho]
    exact ⟨_, [], by rw [hlw, List.append_nil], List.drop_left _ _⟩
  have hrev : db.segments.reverse = cur :: rest.reverse := by
    rw [hsegs]
    simp
  have hfilesw : ∀ s ∈ db.segments, ∃ c,
      (fs.store cur.path (.file (content ++ entry.Encode ⟨key, value⟩))).lookup s.path =
        some (.file c) :=
    fun s hs => FS.lookup_file_store fs cur.path s.path _ (hfiles s hs)
  have hfreshw : ∀ n, db.segments.length ≤ n →
      (fs.store cur.path (.file (content ++ entry.Encode ⟨key, value⟩))).lookup
        (filepathJoin db.dir (segmentName n)) = none := by
    intro n hn
    have hne : cur.path ≠ filepathJoin db.dir (segmentName n) := by
      intro hc
      have := hfresh n hn
      rw [← hc, hl] at this
      cases this
    rw [FS.lookup_store_ne _ _ _ _ hne]
    exact hfresh n hn
  have hothers : ∀ (fs2 : FS), grows (fs.store cur.path
        (.file (content ++ entry.Encode ⟨key, value⟩))) fs2 →
      ∀ k v, k ≠ key → latestIn fs k v (cur :: rest.reverse) →
      latestIn fs2 k v ((⟨cur.path, mapSet cur.index key cur.offset,
        cur.offset + (entry.Encode ⟨key, value⟩).length⟩ : segment) :: rest.reverse) := by
    intro fs2 hg2 k v hk hlat
    have hg := grows_trans _ _ _ hgw hg2
    rcases hlat with ⟨pos, hi, hr⟩ | ⟨hn, ho2⟩
    · exact Or.inl ⟨pos, by rw [mapGet_mapSet_ne _ _ _ _ (Ne.symm hk)]; exact hi, hg _ _ _ hr⟩
    · exact Or.inr ⟨by rw [mapGet_mapSet_ne _ _ _ _ (Ne.symm hk)]; exact hn,
        latestIn_grows _ _ k v hg _ ho2⟩
  by_cases hrot : maxSegmentSize ≤ (content ++ entry.Encode ⟨key, value⟩).length
  · have hnone := hfreshw db.segments.length (Nat.le_refl _)
    have hparent : (fs.store cur.path (.file (content ++ entry.Encode ⟨key, value⟩))).isDir
        (parentDir (filepathJoin db.dir (segmentName db.segments.length))) = true := by
      rw [parentDir_join _ _ (segmentName_no_slash _) hdne]
      exact hdirw
    have hnew := newSegment_fresh _ _ hnone hparent
    have hgc := grows_create _ (filepathJoin db.dir (segmentName db.segments.length))
      (.file []) hnone
    refine ⟨⟨rest ++ [⟨cur.path, mapSet cur.index key cur.offset,
        cur.offset + (entry.Encode ⟨key, value⟩).length⟩] ++
        [⟨filepathJoin db.dir (segmentName db.segments.length), [], 0⟩],
        (rest ++ [(⟨cur.path, mapSet cur.index key cur.offset,
        cur.offset + (entry.Encode ⟨key, value⟩).length⟩ : segment)]).length, db.dir⟩,
      (fs.store cur.path (.file (content ++ entry.Encode ⟨key, value⟩))).store
        (filepathJoin db.dir (segmentName db.segments.length)) (.file []), ?_, ?_, rfl,
      grows_trans _ _ _ hgw hgc, ?_, ?_⟩
    · simp only [Db.Put, hget, hput, hsize, hset, hnew]
      rw [if_pos hrot]
    · refine ⟨⟨filepathJoin db.dir (segmentName db.segments.length), [], 0⟩,
        rest ++ [⟨cur.path, mapSet cur.index key cur.offset,
          cur.offset + (entry.Encode ⟨key, value⟩).length⟩], rfl, rfl, ?_,
        ⟨[], FS.lookup_store_self _ _ _, rfl⟩, ?_⟩
      · intro s hs
        simp only [List.mem_append, List.mem_singleton] at hs
        rcases hs with (hs | hs) | hs
        · exact FS.lookup_file_store _ _ _ _ (hfilesw s (by rw [hsegs]; simp [hs]))
        · subst hs
          exact FS.lookup_file_store _ _ _ _ ⟨_, hlw⟩
        · subst hs
          exact ⟨[], FS.lookup_store_self _ _ _⟩
      · refine ⟨?_, hdne, ?_⟩
        · intro n hn
          have hlen : db.segments.length + 1 ≤ n := by
            rw [hsegs]
            simpa using hn
          have hne : filepathJoin db.dir (segmentName db.segments.length) ≠
              filepathJoin db.dir (segmentName n) := by
            intro hc
            have := segmentPath_injective _ _ _ hc
            omega
          dsimp only
          rw [FS.lookup_store_ne _ _ _ _ hne]
          exact hfreshw n (by omega)
        · exact FS.isDir_store _ db.dir _ _ hdirw (by rw [hnone]; simp)
    · simp only [List.reverse_append, List.reverse_cons, List.reverse_nil, List.nil_append,
        List.singleton_append]
      exact Or.inr ⟨rfl, Or.inl ⟨cur.offset, mapGet_mapSet_self _ _ _, hgc _ _ _ hrecw⟩⟩
    · intro k v hk hlat
      rw [hrev] at hlat
      simp only [List.reverse_append, List.reverse_cons, List.reverse_nil, List.nil_append,
        List.singleton_append]
      exact Or.inr ⟨rfl, hothers _ hgc k v hk hlat⟩
  · refine ⟨⟨rest ++ [⟨cur.path, mapSet cur.index key cur.offset,
        cur.offset + (entry.Encode ⟨key, value⟩).length⟩], db.current, db.dir⟩,
      fs.store cur.path (.file (content ++ entry.Encode ⟨key, value⟩)), ?_, ?_, rfl, hgw, ?_, ?_⟩
    · simp only [Db.Put, hget, hput, hsize, hset]
      rw [if_neg hrot]
    · refine ⟨⟨cur.path, mapSet cur.index key cur.offset,
          cur.offset + (entry.Encode ⟨key, value⟩).length⟩, rest, rfl, hcur, ?_,
        ⟨_, hlw, by simp [ho]⟩, ?_⟩
      · intro s hs
        simp only [List.mem_append, List.mem_singleton] at hs
        rcases hs with hs | hs
        · exact hfilesw s (by rw [hsegs]; simp [hs])
        · subst hs
          exact ⟨_, hlw⟩
      · exact ⟨fun n hn => hfreshw n (by rw [hsegs]; simpa using hn), hdne, hdirw⟩
    · simp only [List.reverse_append, List.reverse_cons, List.reverse_nil, List.nil_append,
        List.singleton_append]
      exact Or.inl ⟨cur.offset, mapGet_mapSet_self _ _ _, hrecw⟩
    · intro k v hk hlat
      rw [hrev] at hlat
      simp only [List.reverse_append, List.reverse_cons, List.reverse_nil, List.nil_append,
        List.singleton_append]
      exact hothers _ (grows_refl _) k v hk hlat

/-- Any run of `Put`s without injected failure on a well-shaped store
succeeds, and afterwards the newest value of a key is the one put last. -/
theorem Db.putAll_storeOK :
    ∀ (puts : List (Bytes × Bytes)) (db : Db) (fs : FS), storeOK db fs →
      ∃ db1 fs1, db.putAll fs puts = some (db1, fs1) ∧ storeOK db1 fs1 ∧
        db1.dir = db.dir ∧ grows fs fs1 ∧
        (∀ a k v b, puts = a ++ (k, v) :: b → k ∉ b.map Prod.fst →
          latestIn fs1 k v db1.segments.reverse) ∧
        (∀ k v, k ∉ puts.map Prod.fst → latestIn fs k v db.segments.reverse →
          latestIn fs1 k v db1.segments.reverse) := by
  intro puts
  induction puts with
  | nil =>
    intro db fs h
    refine ⟨db, fs, rfl, h, rfl, grows_refl fs, ?_, fun k v _ hl => hl⟩
    intro a k v b hab
    simp at hab
  | cons x l ih =>
    obtain ⟨k0, v0⟩ := x
    intro db fs h
    obtain ⟨db1, fs1, hput, hok1, hdir1, hg1, hlat1, hoth1⟩ := Db.Put_storeOK db fs k0 v0 h
    obtain ⟨db2, fs2, hall, hok2, hdir2, hg2, hlat2, hoth2⟩ := ih db1 fs1 hok1
    refine ⟨db2, fs2, ?_, hok2, hdir2.trans hdir1, grows_trans _ _ _ hg1 hg2, ?_, ?_⟩
    · simp only [Db.putAll, hput, hall]
    · intro a k v b hab hkb
      cases a with
      | nil =>
        simp only [List.nil_append, List.cons.injEq, Prod.mk.injEq] at hab
        obtain ⟨⟨hk, hv⟩, hb⟩ := hab
        subst hk hv hb
        exact hoth2 k0 v0 hkb hlat1
      | cons y a =>
        simp only [List.cons_append, List.cons.injEq] at hab
        exact hlat2 a k v b hab.2 hkb
    · intro k v hk hlat
      simp only [List.map_cons, List.mem_cons, not_or] at hk
      exact hoth2 k v hk.2 (hoth1 k v hk.1 hlat)

/-! ## The store that `Open` returns -/

theorem rebuildLoop_offset (fuel : Nat) :
    ∀ (stream : Bytes) (index index1 : hashIndex) (offset offset1 : Nat),
      rebuildLoop fuel stream index offset = .ok (index1, offset1) →
      offset1 = offset + stream.length := by
  induction fuel with
  | zero =>
    intro stream index index1 offset offset1 h
    simp [rebuildLoop] at h
  | succ fuel ih =>
    intro stream index index1 offset offset1 h
    unfold rebuildLoop at h
    cases hd : DecodeFromReader stream with
    | error e =>
      rw [hd] at h
      rcases DecodeFromReader_error stream e hd with ⟨h1, h2⟩ | h1
      · subst h1 h2
        simp only [Except.ok.injEq, Prod.mk.injEq] at h
        simp [h.2]
      · subst h1
        simp at h
    | ok r =>
      obtain ⟨rec, n⟩ := r
      rw [hd] at h
      obtain ⟨hs, hn, _, _⟩ := DecodeFromReader_ok stream rec n hd
      have hlen := congrArg List.length hs
      rw [List.length_append, entry.Encode_length] at hlen
      have := ih _ _ _ _ _ h
      omega

/-- A segment that `newSegment` returns has its file, and its offset is the
length of that file; files that existed are untouched. -/
theorem newSegment_ok (fs fs1 : FS) (path : String) (s : segment)
    (h : newSegment fs path = (.ok s, fs1)) :
    s.path = path ∧ (∃ content, fs1.lookup path = some (.file content) ∧
      s.offset = content.length) ∧
    (∀ p, p ≠ path → fs1.lookup p = fs.lookup p) ∧
    (∀ c, fs.lookup path = some (.file c) → fs1 = fs) := by
  have key : ∀ (fs2 : FS) (content : Bytes), fs2.lookup path = some (.file content) →
      segment.rebuildIndex ⟨path, [], 0⟩ fs2 = .ok s →
      s.path = path ∧ s.offset = content.length := by
    intro fs2 content hl hr
    simp only [segment.rebuildIndex, hl] at hr
    cases hloop : rebuildLoop (content.length + 1) content [] 0 with
    | error e => simp [hloop] at hr
    | ok r =>
      obtain ⟨index1, offset1⟩ := r
      simp only [hloop, Except.ok.injEq] at hr
      have := rebuildLoop_offset _ _ _ _ _ _ hloop
      subst hr
      exact ⟨rfl, by simpa using this⟩
  cases hl : fs.lookup path with
  | none =>
    by_cases hp : fs.isDir (parentDir path) = true
    · simp only [newSegment, hl, hp, if_true, Prod.mk.injEq] at h
      obtain ⟨hr, hfs⟩ := h
      subst hfs
      obtain ⟨h1, h2⟩ := key _ [] (FS.lookup_store_self _ _ _) hr
      refine ⟨h1, ⟨[], FS.lookup_store_self _ _ _, h2⟩, ?_, ?_⟩
      · intro p hp
        exact FS.lookup_store_ne _ _ _ _ (Ne.symm hp)
      · intro c hc
        cases hc
    · simp [newSegment, hl, hp] at h
  | some n =>
    cases n with
    | dir => simp [newSegment, hl] at h
    | file content =>
      simp only [newSegment, hl, Prod.mk.injEq] at h
      obtain ⟨hr, hfs⟩ := h
      subst hfs
      obtain ⟨h1, h2⟩ := key _ content hl hr
      exact ⟨h1, ⟨content, hl, h2⟩, fun _ _ => rfl, fun _ _ => rfl⟩

theorem openLoop_ok (dir : String) :
    ∀ (names : List String) (fs fs1 : FS) (segs segs1 : List segment),
      openLoop dir names fs segs = (.ok segs1, fs1) →
      (∀ s ∈ segs, ∃ content, fs.lookup s.path = some (.file content) ∧
        s.offset = content.length) →
      fs1 = fs ∧ (∀ s ∈ segs1, ∃ content, fs.lookup s.path = some (.file content) ∧
        s.offset = content.length) ∧ (segs ≠ [] → segs1 ≠ []) := by
  intro names
  induction names with
  | nil =>
    intro fs fs1 segs segs1 h hsegs
    simp only [openLoop, Prod.mk.injEq, Except.ok.injEq] at h
    obtain ⟨h1, h2⟩ := h
    subst h1 h2
    exact ⟨rfl, hsegs, id⟩
  | cons name rest ih =>
    intro fs fs1 segs segs1 h hsegs
    unfold openLoop at h
    by_cases hreg : isRegular fs (filepathJoin dir name) = false
    · rw [if_pos hreg] at h
      exact ih _ _ _ _ h hsegs
    rw [if_neg hreg] at h
    by_cases hname : "segment-".data.isPrefixOf name.data = true ∨ name = outFileName
    · rw [if_pos hname] at h
      rcases hn : newSegment fs (filepathJoin dir name) with ⟨r, fs2⟩
      rw [hn] at h
      cases r with
      | error e => simp at h
      | ok s =>
        dsimp only at h
        have hfile : ∃ c, fs.lookup (filepathJoin dir name) = some (.file c) := by
          unfold isRegular at hreg
          split at hreg
          · rename_i c hc
            exact ⟨c, hc⟩
          · simp at hreg
        obtain ⟨c, hc⟩ := hfile
        obtain ⟨hp, ⟨content, hl2, ho⟩, _, hsame⟩ := newSegment_ok _ _ _ _ hn
        have hfs2 := hsame c hc
        subst hfs2
        have hsegs2 : ∀ t ∈ segs ++ [s], ∃ content, fs2.lookup t.path = some (.file content) ∧
            t.offset = content.length := by
          intro t ht
          simp only [List.mem_append, List.mem_singleton] at ht
          rcases ht with ht | ht
          · exact hsegs t ht
          · subst ht
            exact ⟨content, by rw [hp]; exact hl2, ho⟩
        obtain ⟨h1, h2, _⟩ := ih _ _ _ _ h hsegs2
        exact ⟨h1, h2, fun _ => by
          have := (ih _ _ _ _ h hsegs2).2.2 (by simp)
          exact this⟩
    · rw [if_neg hname] at h
      exact ih _ _ _ _ h hsegs

theorem sortByPath_mem (segs : List segment) (s : segment) :
    s ∈ sortByPath segs ↔ s ∈ segs :=
  (List.perm_insertionSort _ segs).mem_iff

theorem sortByPath_ne_nil (segs : List segment) (h : segs ≠ []) : sortByPath segs ≠ [] := by
  intro hc
  have := congrArg List.length hc
  rw [sortByPath, List.length_insertionSort] at this
  exact h (List.eq_nil_of_length_eq_zero this)

/-- The store that `Open` returns is well shaped as soon as the directory
holds no file with a name that a later rotation will choose. -/
theorem Open_storeOK (fs0 fs : FS) (dir : String) (db : Db)
    (hopen : Open fs0 dir = (.ok db, fs))
    (hfresh : ∀ n, db.segments.length ≤ n →
      fs.lookup (filepathJoin dir (segmentName n)) = none) :
    storeOK db fs ∧ db.dir = dir := by
  have build : ∀ (segs : List segment), segs ≠ [] →
      (∀ s ∈ segs, ∃ content, fs.lookup s.path = some (.file content) ∧
        s.offset = content.length) →
      dir ≠ "" → fs.isDir dir = true →
      db = ⟨sortByPath segs, (sortByPath segs).length - 1, dir⟩ → storeOK db fs ∧ db.dir = dir := by
    intro segs hne hsegs hdne hdir hdb
    have hne2 := sortByPath_ne_nil segs hne
    have hsplit := List.dropLast_append_getLast hne2
    have hlast := hsegs _ ((sortByPath_mem segs _).1 (List.getLast_mem hne2))
    subst hdb
    refine ⟨⟨(sortByPath segs).getLast hne2, (sortByPath segs).dropLast, hsplit.symm, ?_, ?_,
      hlast, hfresh, hdne, hdir⟩, rfl⟩
    · simp
    · intro s hs
      obtain ⟨c, hc, _⟩ := hsegs s ((sortByPath_mem segs s).1 hs)
      exact ⟨c, hc⟩
  unfold Open at hopen
  cases hrd : ReadDir fs0 dir with
  | error e => simp [hrd] at hopen
  | ok files =>
    simp only [hrd] at hopen
    obtain ⟨hdne, hdir⟩ := ReadDir_ok_dir fs0 dir files hrd
    rcases hloop : openLoop dir files fs0 [] with ⟨r, fs1⟩
    rw [hloop] at hopen
    cases r with
    | error e => simp at hopen
    | ok segs =>
      dsimp only at hopen
      obtain ⟨hfs1, hsegs, _⟩ := openLoop_ok dir files fs0 fs1 [] segs hloop (by simp)
      subst hfs1
      by_cases hlen : segs.length = 0
      · rw [if_pos hlen] at hopen
        rcases hn : newSegment fs1 (filepathJoin dir outFileName) with ⟨r2, fs2⟩
        rw [hn] at hopen
        cases r2 with
        | error e => simp at hopen
        | ok s =>
          simp only [Prod.mk.injEq, Except.ok.injEq] at hopen
          obtain ⟨hdb, hfs⟩ := hopen
          subst hfs
          obtain ⟨hp, ⟨content, hl2, ho⟩, hother, _⟩ := newSegment_ok _ _ _ _ hn
          have hnil : segs = [] := List.eq_nil_of_length_eq_zero hlen
          subst hnil
          have hdir2 : fs2.isDir dir = true := by
            cases hlk : fs1.lookup (filepathJoin dir outFileName) with
            | none =>
              by_cases hpd : fs1.isDir (parentDir (filepathJoin dir outFileName)) = true
              · rw [newSegment_fresh _ _ hlk hpd] at hn
                simp only [Prod.mk.injEq] at hn
                rw [← hn.2]
                exact FS.isDir_store _ dir _ _ hdir (by rw [hlk]; simp)
              · simp [newSegment, hlk, hpd] at hn
            | some n =>
              cases n with
              | dir => simp [newSegment, hlk] at hn
              | file c =>
                simp only [newSegment, hlk, Prod.mk.injEq] at hn
                rw [← hn.2]
                exact hdir
          refine build [s] (by simp) ?_ hdne hdir2 hdb.symm
          intro t ht
          simp only [List.nil_append, List.mem_singleton] at ht
          subst ht
          exact ⟨content, by rw [hp]; exact hl2, ho⟩
      · rw [if_neg hlen] at hopen
        simp only [Prod.mk.injEq, Except.ok.injEq] at hopen
        obtain ⟨hdb, hfs⟩ := hopen
        subst hfs
        exact build segs (by intro hc; rw [hc] at hlen; exact hlen rfl) hsegs hdne hdir hdb.symm

/-- Shadowing on a directory in which no rotation can meet an existing file:
after `Open`, every run of `Put`s without injected failure succeeds, and when
the last `Put` of a key (shorter than `2^32` bytes, as its value) wrote `v2`,
`Get` of the key returns `v2`, whatever was put before and whatever other keys
were put after, across any number of rotations. -/
theorem Db.shadowing_without_collision (fs0 fs : FS) (dir : String) (db : Db)
    (hopen : Open fs0 dir = (.ok db, fs))
    (hfresh : ∀ n, db.segments.length ≤ n →
      fs.lookup (filepathJoin dir (segmentName n)) = none)
    (before between after : List (Bytes × Bytes)) (k v1 v2 : Bytes)
    (hafter : k ∉ after.map Prod.fst)
    (hk : k.length < 4294967296) (hv : v2.length < 4294967296) :
    ∃ db1 fs1,
      db.putAll fs (before ++ (k, v1) :: (between ++ (k, v2) :: after)) = some (db1, fs1) ∧
      db1.Get fs1 k = .ok v2 := by
  obtain ⟨hok, _⟩ := Open_storeOK fs0 fs dir db hopen hfresh
  obtain ⟨db1, fs1, hall, _, _, _, hlat, _⟩ :=
    Db.putAll_storeOK (before ++ (k, v1) :: (between ++ (k, v2) :: after)) db fs hok
  refine ⟨db1, fs1, hall, ?_⟩
  have := hlat (before ++ (k, v1) :: between) k v2 after (by simp) hafter
  exact scanSegments_latestIn fs1 k v2 hk hv _ this

theorem fsEmpty_fresh (n : Nat) :
    FS.lookup [("d", .dir), ("d/current-data", .file [])]
      (filepathJoin "d" (segmentName n)) = none := by
  have hj : filepathJoin "d" (segmentName n) = "d/" ++ segmentName n := rfl
  have h1 : "d" ≠ filepathJoin "d" (segmentName n) := by
    intro hc
    rw [hj] at hc
    have := congrArg String.data hc
    simp [segmentName] at this
  have h2 : "d/current-data" ≠ filepathJoin "d" (segmentName n) := by
    intro hc
    rw [hj] at hc
    have := congrArg String.data hc
    simp [segmentName] at this
  simp [FS.lookup, h1, h2]

theorem Db.shadowing_without_collision_witness :
    ∃ db1 fs1,
      Db.putAll ⟨[⟨"d/current-data", [], 0⟩], 0, "d"⟩
        [("d", .dir), ("d/current-data", .file [])]
        ([] ++ (str "k", bigValue 1) ::
          ([(str "x", bigValue 0)] ++ (str "k", bigValue 2) :: [(str "y", bigValue 3)])) =
        some (db1, fs1) ∧
      db1.Get fs1 (str "k") = .ok (bigValue 2) :=
  Db.shadowing_without_collision fsEmpty _ "d" _ (by decide) (fun n _ => fsEmpty_fresh n)
    [] [(str "x", bigValue 0)] [(str "y", bigValue 3)] (str "k") (bigValue 1) (bigValue 2)
    (by decide) (by decide) (by decide)

/-! ## Reads through the store -/

/-- C1: when no segment lookup fails with an error other than `ErrNotFound`,
`Get` returns the value that the last segment of the list whose index has the
key returns for it; no value of an earlier segment is returned. -/
theorem Db.Get_last_segment_wins (db : Db) (fs : FS) (key : Bytes)
    (older newer : List segment) (s : segment)
    (hsegs : db.segments = older ++ s :: newer)
    (hin : mapGet s.index key ≠ none)
    (hnewer : ∀ t ∈ newer, mapGet t.index key = none)
    (hnoerr : ∀ t ∈ db.segments, ∀ e, t.get fs key = .error e → e = .ErrNotFound) :
    ∃ val, s.get fs key = .ok val ∧ db.Get fs key = .ok val := by
  have hget := Db.Get_eq_last db fs key older newer s hsegs hin hnewer
  cases hs : s.get fs key with
  | ok val => exact ⟨val, rfl, by rw [hget, hs]⟩
  | error e =>
    have he := hnoerr s (by rw [hsegs]; simp) e hs
    subst he
    exact absurd ((segment.get_notFound_iff s fs key).1 hs) hin

theorem Db.Get_last_segment_wins_witness :
    ∃ val, (⟨"d/segment-1", [(str "k", 0)], 10⟩ : segment).get fsTwo (str "k") = .ok val ∧
      dbTwo.Get fsTwo (str "k") = .ok val :=
  Db.Get_last_segment_wins dbTwo fsTwo (str "k")
    [⟨"d/current-data", [(str "k", 0)], 10⟩] [] ⟨"d/segment-1", [(str "k", 0)], 10⟩
    (by decide) (by decide) (by decide)
    (by
      intro t ht e he
      have h2 : t.get fsTwo (str "k") = .ok (str "a") ∨ t.get fsTwo (str "k") = .ok (str "c") := by
        simp only [dbTwo, List.mem_cons, List.mem_singleton, List.not_mem_nil, or_false] at ht
        rcases ht with rfl | rfl
        · exact Or.inl (by decide)
        · exact Or.inr (by decide)
      rcases h2 with h2 | h2 <;> rw [h2] at he <;> cases he)

/-- C9: when the lookup of a segment fails with an error other than
`ErrNotFound` and every newer segment answered `ErrNotFound`, `Get` returns
exactly that error, whatever the older segments hold. -/
theorem Db.Get_surfaces_error (db : Db) (fs : FS) (key : Bytes)
    (older newer : List segment) (s : segment) (e : Err)
    (hsegs : db.segments = older ++ s :: newer)
    (hnewer : ∀ t ∈ newer, t.get fs key = .error .ErrNotFound)
    (hfail : s.get fs key = .error e)
    (hne : e ≠ .ErrNotFound) :
    db.Get fs key = .error e := by
  have hin : mapGet s.index key ≠ none := by
    intro hc
    rw [(segment.get_notFound_iff s fs key).2 hc] at hfail
    injection hfail with h
    exact hne h.symm
  rw [Db.Get_eq_last db fs key older newer s hsegs hin
    (fun t ht => (segment.get_notFound_iff t fs key).1 (hnewer t ht))]
  exact hfail

theorem Db.Get_surfaces_error_witness :
    (⟨"d/current-data", [(str "k", 0)], 10⟩ : segment).get fsTruncated (str "k") = .ok (str "a") ∧
      dbTwo.Get fsTruncated (str "k") = .error .EOF :=
  ⟨by decide,
   Db.Get_surfaces_error dbTwo fsTruncated (str "k")
    [⟨"d/current-data", [(str "k", 0)], 10⟩] [] ⟨"d/segment-1", [(str "k", 0)], 10⟩ .EOF
    (by decide) (by decide) (by decide) (by decide)⟩

/-- C8: `Get` fails with `ErrNotFound` exactly when the key is in the index
of no segment (the provision that no lookup fails otherwise is kept as the
claim has it), and `Get` of any key on a store just opened on an empty
directory fails with `ErrNotFound`. -/
theorem Db.Get_ErrNotFound_iff (db : Db) (fs : FS) (key : Bytes) :
    ((∀ t ∈ db.segments, ∀ e, t.get fs key = .error e → e = .ErrNotFound) →
      (db.Get fs key = .error .ErrNotFound ↔ ∀ t ∈ db.segments, mapGet t.index key = none)) ∧
    (∀ dir, ReadDir fs dir = .ok [] →
      ∃ db0 fs1, Open fs dir = (.ok db0, fs1) ∧ db0.Get fs1 key = .error .ErrNotFound) := by
  refine ⟨fun _ => ?_, fun dir h => ?_⟩
  · unfold Db.Get
    rw [scanSegments_notFound_iff]
    simp
  · refine ⟨_, _, Open_empty fs dir h, ?_⟩
    simp [Db.Get, scanSegments, segment.get, mapGet]

theorem Db.Get_ErrNotFound_iff_witness :
    (dbTwo.Get fsTwo (str "x") = .error .ErrNotFound ↔
      ∀ t ∈ dbTwo.segments, mapGet t.index (str "x") = none) ∧
    (∃ db0 fs1, Open [("d", .dir)] "d" = (.ok db0, fs1) ∧
      db0.Get fs1 (str "x") = .error .ErrNotFound) :=
  ⟨(Db.Get_ErrNotFound_iff dbTwo fsTwo (str "x")).1 (by
      intro t ht e he
      have h2 : t.get fsTwo (str "x") = .error .ErrNotFound := by
        simp only [dbTwo, List.mem_cons, List.mem_singleton, List.not_mem_nil, or_false] at ht
        rcases ht with rfl | rfl <;> decide
      rw [h2] at he
      injection he with he
      exact he.symm),
   (Db.Get_ErrNotFound_iff dbTwo [("d", .dir)] (str "x")).2 "d" (by decide)⟩

/-! ## Writes -/

/-- C10: when the file write returns an error, `put` returns that error and
leaves the index and the running offset as they were; when it succeeds, the
index maps the key of the record to the offset held before the call and the
offset grows by the number of bytes written. -/
theorem segment.put_atomic (s : segment) (fs : FS) (e : entry) (fault : Option WriteFault) :
    (∀ n err fs1, fileWrite fs s.path e.Encode fault = ((n, some err), fs1) →
      s.put fs e fault = (some err, s, fs1)) ∧
    (∀ n fs1, fileWrite fs s.path e.Encode fault = ((n, none), fs1) →
      ∃ s1, s.put fs e fault = (none, s1, fs1) ∧ s1.path = s.path ∧
        mapGet s1.index e.key = some s.offset ∧ s1.offset = s.offset + n) := by
  refine ⟨fun n err fs1 h => ?_, fun n fs1 h => ?_⟩
  · simp [segment.put, h]
  · exact ⟨⟨s.path, mapSet s.index e.key s.offset, s.offset + n⟩, by simp [segment.put, h],
      rfl, mapGet_mapSet_self _ _ _, rfl⟩

theorem segment.put_atomic_witness :
    (⟨"d/segment-1", [(str "k", 0)], 10⟩ : segment).put fsTwo ⟨str "k", str "z"⟩
        (some ⟨3, .WriteError 28⟩) =
      (some (.WriteError 28), ⟨"d/segment-1", [(str "k", 0)], 10⟩,
        (fileWrite fsTwo "d/segment-1" (entry.Encode ⟨str "k", str "z"⟩)
          (some ⟨3, .WriteError 28⟩)).2) ∧
    ∃ s1, (⟨"d/segment-1", [(str "k", 0)], 10⟩ : segment).put fsTwo ⟨str "k", str "z"⟩ none =
        (none, s1, (fileWrite fsTwo "d/segment-1" (entry.Encode ⟨str "k", str "z"⟩) none).2) ∧
      s1.path = "d/segment-1" ∧ mapGet s1.index (str "k") = some 10 ∧ s1.offset = 10 + 10 :=
  ⟨(segment.put_atomic ⟨"d/segment-1", [(str "k", 0)], 10⟩ fsTwo ⟨str "k", str "z"⟩
      (some ⟨3, .WriteError 28⟩)).1 3 (.WriteError 28) _ (by decide),
   (segment.put_atomic ⟨"d/segment-1", [(str "k", 0)], 10⟩ fsTwo ⟨str "k", str "z"⟩
      none).2 10 _ (by decide)⟩

/-- C5: after a successful `Put`, when the file of the active segment has
reached 100 bytes the segment list has grown by exactly one element, placed
at its end, and that element is the active segment; when the file is shorter
the segment list keeps its elements and the active segment is the same. -/
theorem Db.Put_rotation (db : Db) (fs : FS) (key value : Bytes) (fault : Option WriteFault)
    (db1 : Db) (fs1 : FS) (hput : db.Put fs key value fault = (none, db1, fs1)) :
    ∃ cur cur1 fsw sz,
      db.segments[db.current]? = some cur ∧
      cur.put fs ⟨key, value⟩ fault = (none, cur1, fsw) ∧
      cur1.size fsw = some sz ∧
      (100 ≤ sz → ∃ newSeg,
        db1.segments = db.segments.set db.current cur1 ++ [newSeg] ∧
        db1.segments.length = db.segments.length + 1 ∧
        db1.current = db.segments.length ∧
        db1.segments[db1.current]? = some newSeg) ∧
      (sz < 100 →
        db1.segments = db.segments.set db.current cur1 ∧
        db1.segments.length = db.segments.length ∧
        db1.current = db.current ∧ fs1 = fsw) := by
  unfold Db.Put at hput
  cases hcur : db.segments[db.current]? with
  | none => simp [hcur] at hput
  | some cur =>
    simp only [hcur] at hput
    rcases hp : cur.put fs ⟨key, value⟩ fault with ⟨r, cur1, fsw⟩
    cases r with
    | some err => simp [hp] at hput
    | none =>
      simp only [hp] at hput
      cases hsz : cur1.size fsw with
      | none => simp [hsz] at hput
      | some sz =>
        simp only [hsz] at hput
        refine ⟨cur, cur1, fsw, sz, rfl, hp, hsz, ?_, ?_⟩
        · intro hge
          have hge1 : sz ≥ maxSegmentSize := hge
          simp only [hge1, if_true] at hput
          rcases hn : newSegment fsw (filepathJoin db.dir (segmentName db.segments.length))
            with ⟨rn, fs2⟩
          cases rn with
          | error err => simp [hn] at hput
          | ok newSeg =>
            simp only [hn] at hput
            injection hput with _ hput
            injection hput with hdb hfs
            subst hdb
            exact ⟨newSeg, rfl, by simp, by simp, by simp⟩
        · intro hlt
          have hlt1 : ¬ sz ≥ maxSegmentSize := Nat.not_le.2 hlt
          simp only [hlt1, if_false] at hput
          injection hput with _ hput
          injection hput with hdb hfs
          subst hdb
          exact ⟨rfl, by simp, rfl, hfs.symm⟩

theorem Db.Put_rotation_witness :
    ∃ cur cur1 fsw sz,
      dbTwo.segments[dbTwo.current]? = some cur ∧
      cur.put fsTwo ⟨str "k", bigValue 0⟩ none = (none, cur1, fsw) ∧
      cur1.size fsw = some sz ∧
      (100 ≤ sz → ∃ newSeg,
        (dbTwo.Put fsTwo (str "k") (bigValue 0) none).2.1.segments =
          dbTwo.segments.set dbTwo.current cur1 ++ [newSeg] ∧
        (dbTwo.Put fsTwo (str "k") (bigValue 0) none).2.1.segments.length =
          dbTwo.segments.length + 1 ∧
        (dbTwo.Put fsTwo (str "k") (bigValue 0) none).2.1.current = dbTwo.segments.length ∧
        (dbTwo.Put fsTwo (str "k") (bigValue 0) none).2.1.segments[
          (dbTwo.Put fsTwo (str "k") (bigValue 0) none).2.1.current]? = some newSeg) ∧
      (sz < 100 →
        (dbTwo.Put fsTwo (str "k") (bigValue 0) none).2.1.segments =
          dbTwo.segments.set dbTwo.current cur1 ∧
        (dbTwo.Put fsTwo (str "k") (bigValue 0) none).2.1.segments.length =
          dbTwo.segments.length ∧
        (dbTwo.Put fsTwo (str "k") (bigValue 0) none).2.1.current = dbTwo.current ∧
        (dbTwo.Put fsTwo (str "k") (bigValue 0) none).2.2 = fsw) :=
  Db.Put_rotation dbTwo fsTwo (str "k") (bigValue 0) none _ _ (by decide)

/-! ## The order of the segments -/

/-- C7: on a directory that holds `current-data`, `segment-0` and
`segment-1`, `Open` returns the segments with `current-data` first and makes
`segment-1` the active segment; the claim has `current-data` last and
active. -/
theorem Open_currentData_first :
    segmentPaths (opened fsNamed "d") = ["d/current-data", "d/segment-0", "d/segment-1"] ∧
    currentPath (opened fsNamed "d") = some "d/segment-1" ∧
    (Open fsNamed "d").1 =
      .ok ⟨[⟨"d/current-data", [(str "k", 0)], 10⟩, ⟨"d/segment-0", [(str "k", 0)], 10⟩,
        ⟨"d/segment-1", [(str "k", 0)], 10⟩], 2, "d"⟩ := by
  decide

/-- C2: on the directory of `fsGap` the two `Put`s of the key `k` succeed; the
first rotation creates `segment-1`, the second one opens the file `segment-2`
that the store already holds as its first segment, and `Get` then returns the
value put first, not the value put last. -/
theorem Put_rotates_onto_old_file :
    segmentPaths (opened fsGap "d") = ["d/segment-2"] ∧
    segmentPaths afterGapPuts = ["d/segment-2", "d/segment-1", "d/segment-2"] ∧
    currentPath afterGapPuts = some "d/segment-2" ∧
    getOf afterGapPuts (str "k") = some (.ok (bigValue 1)) := by
  decide

/-- C6: on a store opened on an empty directory, the tenth rotation creates
`segment-10`, whose path is smaller than the path of `segment-9` in the order
`Open` sorts by; a later `Open` places `segment-9` last, not the new
segment. On the directory of `fsGap` the segment that the second rotation
appends is not empty: it is backed by the file of the first segment. -/
theorem Put_tenth_rotation_not_last :
    segmentPaths (afterBigPuts 9) =
      ["d/current-data", "d/segment-1", "d/segment-2", "d/segment-3", "d/segment-4",
       "d/segment-5", "d/segment-6", "d/segment-7", "d/segment-8", "d/segment-9"] ∧
    segmentPaths (afterBigPuts 10) =
      ["d/current-data", "d/segment-1", "d/segment-2", "d/segment-3", "d/segment-4",
       "d/segment-5", "d/segment-6", "d/segment-7", "d/segment-8", "d/segment-9",
       "d/segment-10"] ∧
    currentPath (afterBigPuts 10) = some "d/segment-10" ∧
    strLess "d/segment-10" "d/segment-9" = true ∧
    segmentPaths (reopen (afterBigPuts 10)) =
      ["d/current-data", "d/segment-1", "d/segment-10", "d/segment-2", "d/segment-3",
       "d/segment-4", "d/segment-5", "d/segment-6", "d/segment-7", "d/segment-8",
       "d/segment-9"] ∧
    currentPath (reopen (afterBigPuts 10)) = some "d/segment-9" ∧
    currentSegment afterGapPuts = some ⟨"d/segment-2", [(str "k", 0)], 100⟩ := by
  decide

/-- C3: eleven successful `Put`s of the key `k` on a store opened on an empty
directory rotate eleven times; `Get` returns the eleventh value before
`Close` and the tenth value after `Close` and a new `Open`. -/
theorem Reopen_loses_newest_value :
    getOf (afterBigPuts 11) (str "k") = some (.ok (bigValue 10)) ∧
    getOf (reopen (afterBigPuts 11)) (str "k") = some (.ok (bigValue 9)) ∧
    segmentPaths (reopen (afterBigPuts 11)) =
      ["d/current-data", "d/segment-1", "d/segment-10", "d/segment-11", "d/segment-2",
       "d/segment-3", "d/segment-4", "d/segment-5", "d/segment-6", "d/segment-7",
       "d/segment-8", "d/segment-9"] := by
  decide

/-! ## The merge -/

/-- C4, the claim as stated fails: the index of the only input segment has
the key `k1`, its file has lost the record, and `mergeSegments` returns a
segment in which `k1` is missing. The same happens to `k1` on sound inputs
when the append of its record fails, and `mergeSegments` itself fails when
`merged-segment` is a directory. -/
theorem mergeSegments_drops_unreadable_key :
    mapGet segNew.index (str "k1") = some 0 ∧
    (mergeSegments fsMergeTruncated "/tmp/d" [segNew] orderAsStored noFault).1 =
      .ok ⟨"/tmp/merged-segment", [], 0⟩ ∧
    (⟨"/tmp/merged-segment", [], 0⟩ : segment).get
      (mergeSegments fsMergeTruncated "/tmp/d" [segNew] orderAsStored noFault).2 (str "k1") =
      .error .ErrNotFound ∧
    (mergeSegments fsMerge "/tmp/d" [segOld, segNew] orderAsStored (faultOn (str "k1"))).1 =
      .ok ⟨"/tmp/merged-segment", [(str "k2", 0)], 11⟩ ∧
    (mergeSegments fsMergeBlocked "/tmp/d" [segOld, segNew] orderAsStored noFault).1 =
      .error .PathError := by
  decide

/-- When `merged-segment` can be created and no append fails, `get` on the
segment that `mergeSegments` returns gives, for a key of the working map
shorter than `2^32` bytes, the value the working map has for it. -/
theorem mergeSegments_get_collected (fs : FS) (outputPath : String) (segments : List segment)
    (ord : MapOrder) (fault : Bytes → Option WriteFault) (key val : Bytes)
    (hM : mapGet (mergeCollect fs ord 0 segments []) key = some val)
    (hklen : key.length < 4294967296) (hvlen : val.length < 4294967296)
    (hdir : fs.lookup (mergedPath outputPath) ≠ some .dir)
    (hparent : parentMissing fs (mergedPath outputPath) = false)
    (hfault : ∀ k, fault k = none) :
    ∃ m fs1, mergeSegments fs outputPath segments ord fault = (.ok m, fs1) ∧
      m.path = mergedPath outputPath ∧ m.get fs1 key = .ok val := by
  have hcreate := osCreate_ok fs (mergedPath outputPath) hdir hparent
  have hlk : (fs.store (mergedPath outputPath) (.file [])).lookup (mergedPath outputPath) =
      some (.file []) := FS.lookup_store_self _ _ _
  have hnew : newSegment (fs.store (mergedPath outputPath) (.file [])) (mergedPath outputPath) =
      (.ok ⟨mergedPath outputPath, [], 0⟩, fs.store (mergedPath outputPath) (.file [])) := by
    simp only [newSegment, hlk, rebuildIndex_empty _ _ hlk]
  have hnd := mergeCollect_keys_nodup fs ord segments 0 [] (by simp)
  have hmemL : (key, val) ∈ ord.merged (mergeCollect fs ord 0 segments []) :=
    ((ord.merged_perm _).mem_iff).2 (mapGet_mem _ _ _ hM)
  have hndL : ((ord.merged (mergeCollect fs ord 0 segments [])).map Prod.fst).Nodup :=
    (((ord.merged_perm _).map Prod.fst).nodup_iff).2 hnd
  obtain ⟨a, b, hab⟩ := List.append_of_mem hmemL
  have hkb : key ∉ b.map Prod.fst := by
    rw [hab, List.map_append, List.map_cons] at hndL
    have h1 := (List.nodup_append.1 hndL).2.1
    exact (List.nodup_cons.1 h1).1
  obtain ⟨more, hp, hlk2, hof, hfr, hkeep, hrec⟩ :=
    mergeWrite_spec fault hfault (ord.merged (mergeCollect fs ord 0 segments []))
      ⟨mergedPath outputPath, [], 0⟩ (fs.store (mergedPath outputPath) (.file [])) [] hlk rfl
  obtain ⟨pos, hidx, hhold⟩ := hrec a key val b hab hkb
  dsimp only at hp hhold
  refine ⟨(mergeWrite fault (ord.merged (mergeCollect fs ord 0 segments []))
      ⟨mergedPath outputPath, [], 0⟩ (fs.store (mergedPath outputPath) (.file []))).1,
    (mergeWrite fault (ord.merged (mergeCollect fs ord 0 segments []))
      ⟨mergedPath outputPath, [], 0⟩ (fs.store (mergedPath outputPath) (.file []))).2,
    ?_, hp, ?_⟩
  · simp only [mergeSegments, hcreate, hnew]
  · exact segment.get_of_holdsRecord _ _ key pos ⟨key, val⟩ hidx (by rw [hp]; exact hhold) hklen
      hvlen

/-- C4 (amended): for segments passed oldest to newest and a key shorter than
`2^32` bytes, when the last segment whose index has the key reads it back
without error, the file `merged-segment` can be created (its path does not
name a directory, and the directory it is in exists when the path names
nothing) and no append to it fails, `mergeSegments` succeeds and `get` on the
returned segment returns the value that last segment holds for the key. -/
theorem mergeSegments_last_wins (fs : FS) (outputPath : String) (older newer : List segment)
    (s : segment) (ord : MapOrder) (fault : Bytes → Option WriteFault) (key val : Bytes)
    (hget : s.get fs key = .ok val)
    (hnewer : ∀ t ∈ newer, mapGet t.index key = none)
    (hklen : key.length < 4294967296)
    (hdir : fs.lookup (mergedPath outputPath) ≠ some .dir)
    (hparent : parentMissing fs (mergedPath outputPath) = false)
    (hfault : ∀ k, fault k = none) :
    ∃ m fs1, mergeSegments fs outputPath (older ++ s :: newer) ord fault = (.ok m, fs1) ∧
      m.path = mergedPath outputPath ∧ m.get fs1 key = .ok val :=
  mergeSegments_get_collected fs outputPath (older ++ s :: newer) ord fault key val
    (mergeCollect_last fs ord key val older newer s hget hnewer 0 []) hklen
    (segment.get_ok_length s fs key val hget) hdir hparent hfault

theorem mergeSegments_last_wins_witness :
    (∃ m fs1, mergeSegments fsMerge "/tmp/d" ([segOld] ++ segNew :: []) orderAsStored noFault =
        (.ok m, fs1) ∧
      m.path = mergedPath "/tmp/d" ∧ m.get fs1 (str "k1") = .ok (str "c")) ∧
    (∃ m fs1, mergeSegments fsMerge "/tmp/d" ([] ++ segOld :: [segNew]) orderAsStored noFault =
        (.ok m, fs1) ∧
      m.path = mergedPath "/tmp/d" ∧ m.get fs1 (str "k2") = .ok (str "b")) :=
  ⟨mergeSegments_last_wins fsMerge "/tmp/d" [segOld] [] segNew orderAsStored noFault
      (str "k1") (str "c") (by decide) (by decide) (by decide) (by decide) (by decide)
      (fun _ => rfl),
   mergeSegments_last_wins fsMerge "/tmp/d" [] [segNew] segOld orderAsStored noFault
      (str "k2") (str "b") (by decide) (by decide) (by decide) (by decide) (by decide)
      (fun _ => rfl)⟩

/-! ## A rotation that fails -/

theorem newSegment_error (fs fs2 : FS) (path : String) (e : Err)
    (h : newSegment fs path = (.error e, fs2)) : fs2 = fs := by
  cases hl : fs.lookup path with
  | none =>
    by_cases hp : fs.isDir (parentDir path) = true
    · rw [newSegment_fresh fs path hl hp] at h
      simp only [Prod.mk.injEq] at h
      cases h.1
    · simp only [newSegment, hl] at h
      rw [if_neg hp] at h
      simp only [Prod.mk.injEq] at h
      exact h.2.symm
  | some n =>
    cases n with
    | dir =>
      simp only [newSegment, hl, Prod.mk.injEq] at h
      exact h.2.symm
    | file c =>
      simp only [newSegment, hl, Prod.mk.injEq] at h
      exact h.2.symm

/-- C11 (amended): on a store whose active segment is the last one and has the
length of its file as offset (no earlier write to it stopped inside a record),
when the append succeeds, the file has reached 100 bytes and the creation of
the new segment fails, `Put` returns the creation error, the segment list
keeps its length and its other elements, the active segment is the same, and
`Get` of the key returns the value just written (key and value shorter than
`2^32` bytes). -/
theorem Db.Put_rotation_failure (db : Db) (fs : FS) (key value : Bytes)
    (fault : Option WriteFault) (cur cur1 : segment) (fsw fs2 : FS) (sz : Nat) (err : Err)
    (hshape : storeShape db fs)
    (hcur : db.segments[db.current]? = some cur)
    (hput : cur.put fs ⟨key, value⟩ fault = (none, cur1, fsw))
    (hsz : cur1.size fsw = some sz) (hfull : 100 ≤ sz)
    (hnew : newSegment fsw (filepathJoin db.dir (segmentName db.segments.length)) =
      (.error err, fs2))
    (hk : key.length < 4294967296) (hv : value.length < 4294967296) :
    ∃ db1, db.Put fs key value fault = (some err, db1, fs2) ∧
      db1.segments = db.segments.set db.current cur1 ∧
      db1.segments.length = db.segments.length ∧
      db1.current = db.current ∧
      db1.segments[db1.current]? = some cur1 ∧
      cur1.get fs2 key = .ok value ∧
      db1.Get fs2 key = .ok value := by
  obtain ⟨c, rest, hsegs, hcurpos, content, hl, ho⟩ := hshape
  have hc : c = cur := by
    rw [hsegs, hcurpos] at hcur
    simpa using hcur
  subst hc
  have hfs2 := newSegment_error _ _ _ _ hnew
  subst hfs2
  have hfull1 : sz ≥ maxSegmentSize := hfull
  have hfault : fault = none := by
    cases fault with
    | none => rfl
    | some f => simp [segment.put, fileWrite, hl] at hput
  subst hfault
  rw [segment.put_none c fs ⟨key, value⟩ content hl] at hput
  simp only [Prod.mk.injEq, true_and] at hput
  obtain ⟨hc1, hfw⟩ := hput
  have hrec : holdsRecord fs2 c.path c.offset ⟨key, value⟩ := by
    rw [ho, ← hfw]
    exact ⟨_, [], by rw [FS.lookup_store_self, List.append_nil], List.drop_left _ _⟩
  have hidx : mapGet cur1.index key = some c.offset := by
    rw [← hc1]
    exact mapGet_mapSet_self _ _ _
  have hpath : cur1.path = c.path := by rw [← hc1]
  have hget1 : cur1.get fs2 key = .ok value :=
    segment.get_of_holdsRecord cur1 fs2 key c.offset ⟨key, value⟩ hidx
      (by rw [hpath]; exact hrec) hk hv
  have hset : db.segments.set db.current cur1 = rest ++ [cur1] := by
    rw [hsegs, hcurpos]
    simp
  refine ⟨{ db with segments := db.segments.set db.current cur1 }, ?_, rfl, by simp, rfl, ?_,
    hget1, ?_⟩
  · have hput2 : c.put fs ⟨key, value⟩ none = (none, cur1, fs2) := by
      rw [segment.put_none c fs ⟨key, value⟩ content hl, hc1, hfw]
    simp only [Db.Put, hcur, hput2, hsz, hnew]
    rw [if_pos hfull1]
  · dsimp only
    rw [hset, hcurpos]
    simp
  · unfold Db.Get
    dsimp only
    rw [hset]
    simp only [List.reverse_append, List.reverse_cons, List.reverse_nil, List.nil_append,
      List.singleton_append]
    rw [scanSegments_hit fs2 key cur1 _ (by rw [hidx]; simp)]
    exact hget1

theorem Db.Put_rotation_failure_witness :
    ∃ db1, Db.Put ⟨[⟨"d/current-data", [], 0⟩], 0, "d"⟩
        (fsBlocked ++ [("d/current-data", .file [])]) (str "k") (bigValue 7) none =
        (some .PathError, db1,
          fsBlocked ++ [("d/current-data", .file (entry.Encode ⟨str "k", bigValue 7⟩))]) ∧
      db1.segments = [⟨"d/current-data", [], 0⟩].set 0
        ⟨"d/current-data", [(str "k", 0)], 100⟩ ∧
      db1.segments.length = 1 ∧
      db1.current = 0 ∧
      db1.segments[db1.current]? = some ⟨"d/current-data", [(str "k", 0)], 100⟩ ∧
      (⟨"d/current-data", [(str "k", 0)], 100⟩ : segment).get
        (fsBlocked ++ [("d/current-data", .file (entry.Encode ⟨str "k", bigValue 7⟩))])
        (str "k") = .ok (bigValue 7) ∧
      db1.Get (fsBlocked ++ [("d/current-data", .file (entry.Encode ⟨str "k", bigValue 7⟩))])
        (str "k") = .ok (bigValue 7) :=
  Db.Put_rotation_failure ⟨[⟨"d/current-data", [], 0⟩], 0, "d"⟩
    (fsBlocked ++ [("d/current-data", .file [])]) (str "k") (bigValue 7) none
    ⟨"d/current-data", [], 0⟩ ⟨"d/current-data", [(str "k", 0)], 100⟩
    (fsBlocked ++ [("d/current-data", .file (entry.Encode ⟨str "k", bigValue 7⟩))])
    (fsBlocked ++ [("d/current-data", .file (entry.Encode ⟨str "k", bigValue 7⟩))])
    100 .PathError
    ⟨⟨"d/current-data", [], 0⟩, [], rfl, rfl, [], by decide, rfl⟩
    (by decide) (by decide) (by decide) (by decide) (by decide) (by decide) (by decide)

/-- The store that `Open` returns has the shape `storeShape`. -/
theorem Open_storeShape (fs0 fs : FS) (dir : String) (db : Db)
    (hopen : Open fs0 dir = (.ok db, fs)) : storeShape db fs := by
  have build : ∀ (segs : List segment), segs ≠ [] →
      (∀ s ∈ segs, ∃ content, fs.lookup s.path = some (.file content) ∧
        s.offset = content.length) →
      db = ⟨sortByPath segs, (sortByPath segs).length - 1, dir⟩ → storeShape db fs := by
    intro segs hne hsegs hdb
    have hne2 := sortByPath_ne_nil segs hne
    have hsplit := List.dropLast_append_getLast hne2
    have hlast := hsegs _ ((sortByPath_mem segs _).1 (List.getLast_mem hne2))
    subst hdb
    exact ⟨(sortByPath segs).getLast hne2, (sortByPath segs).dropLast, hsplit.symm, by simp,
      hlast⟩
  unfold Open at hopen
  cases hrd : ReadDir fs0 dir with
  | error e => simp [hrd] at hopen
  | ok files =>
    simp only [hrd] at hopen
    rcases hloop : openLoop dir files fs0 [] with ⟨r, fs1⟩
    rw [hloop] at hopen
    cases r with
    | error e => simp at hopen
    | ok segs =>
      dsimp only at hopen
      obtain ⟨hfs1, hsegs, _⟩ := openLoop_ok dir files fs0 fs1 [] segs hloop (by simp)
      subst hfs1
      by_cases hlen : segs.length = 0
      · rw [if_pos hlen] at hopen
        rcases hn : newSegment fs1 (filepathJoin dir outFileName) with ⟨r2, fs2⟩
        rw [hn] at hopen
        cases r2 with
        | error e => simp at hopen
        | ok s =>
          simp only [Prod.mk.injEq, Except.ok.injEq] at hopen
          obtain ⟨hdb, hfs⟩ := hopen
          subst hfs
          obtain ⟨hp, ⟨content, hl2, ho⟩, _, _⟩ := newSegment_ok _ _ _ _ hn
          have hnil : segs = [] := List.eq_nil_of_length_eq_zero hlen
          subst hnil
          refine build [s] (by simp) ?_ hdb.symm
          intro t ht
          simp only [List.nil_append, List.mem_singleton] at ht
          subst ht
          exact ⟨content, by rw [hp]; exact hl2, ho⟩
      · rw [if_neg hlen] at hopen
        simp only [Prod.mk.injEq, Except.ok.injEq] at hopen
        obtain ⟨hdb, hfs⟩ := hopen
        subst hfs
        exact build segs (by intro hc; rw [hc] at hlen; exact hlen rfl) hsegs hdb.symm

/-- A `Put` that returns no error keeps the shape `storeShape`, also when the
rotation opens a file that exists. -/
theorem Db.Put_storeShape (db db1 : Db) (fs fs1 : FS) (key value : Bytes)
    (fault : Option WriteFault) (hshape : storeShape db fs)
    (hput : db.Put fs key value fault = (none, db1, fs1)) : storeShape db1 fs1 := by
  obtain ⟨cur, rest, hsegs, hcurpos, content, hl, ho⟩ := hshape
  have hget : db.segments[db.current]? = some cur := by
    rw [hsegs, hcurpos]
    simp
  have hfault : fault = none := by
    cases fault with
    | none => rfl
    | some f => simp [Db.Put, hget, segment.put, fileWrite, hl] at hput
  subst hfault
  have hp := segment.put_none cur fs ⟨key, value⟩ content hl
  have hlw : (fs.store cur.path (.file (content ++ entry.Encode ⟨key, value⟩))).lookup cur.path =
      some (.file (content ++ entry.Encode ⟨key, value⟩)) := FS.lookup_store_self _ _ _
  have hsize : segment.size ⟨cur.path, mapSet cur.index key cur.offset,
        cur.offset + (entry.Encode ⟨key, value⟩).length⟩
      (fs.store cur.path (.file (content ++ entry.Encode ⟨key, value⟩))) =
      some (content ++ entry.Encode ⟨key, value⟩).length := by
    simp only [segment.size, hlw]
  have hset : db.segments.set db.current
      ⟨cur.path, mapSet cur.index key cur.offset,
        cur.offset + (entry.Encode ⟨key, value⟩).length⟩ =
      rest ++ [⟨cur.path, mapSet cur.index key cur.offset,
        cur.offset + (entry.Encode ⟨key, value⟩).length⟩] := by
    rw [hsegs, hcurpos]
    simp
  simp only [Db.Put, hget, hp, hsize, hset] at hput
  by_cases hrot : maxSegmentSize ≤ (content ++ entry.Encode ⟨key, value⟩).length
  · rw [if_pos hrot] at hput
    rcases hn : newSegment (fs.store cur.path (.file (content ++ entry.Encode ⟨key, value⟩)))
      (filepathJoin db.dir (segmentName db.segments.length)) with ⟨r, fs2⟩
    rw [hn] at hput
    cases r with
    | error e => simp at hput
    | ok newSeg =>
      simp only [Prod.mk.injEq, true_and] at hput
      obtain ⟨hdb, hfs⟩ := hput
      subst hdb hfs
      obtain ⟨hpath, ⟨c2, hl2, ho2⟩, _, _⟩ := newSegment_ok _ _ _ _ hn
      exact ⟨newSeg, rest ++ [⟨cur.path, mapSet cur.index key cur.offset,
        cur.offset + (entry.Encode ⟨key, value⟩).length⟩], rfl, rfl, c2,
        by rw [hpath]; exact hl2, ho2⟩
  · rw [if_neg hrot] at hput
    simp only [Prod.mk.injEq, true_and] at hput
    obtain ⟨hdb, hfs⟩ := hput
    subst hdb hfs
    exact ⟨_, rest, rfl, hcurpos, _, hlw, by simp [ho]⟩

/-! ## What the merge touches and what it reports -/

theorem segment.put_path (s : segment) (fs : FS) (e : entry) (fault : Option WriteFault) :
    (s.put fs e fault).2.1.path = s.path := by
  unfold segment.put
  split <;> rfl

theorem fileWrite_frame (fs : FS) (path other : String) (b : Bytes) (fault : Option WriteFault)
    (h : other ≠ path) : (fileWrite fs path b fault).2.lookup other = fs.lookup other := by
  unfold fileWrite
  split
  · split <;> exact FS.lookup_store_ne _ _ _ _ (Ne.symm h)
  · rfl

theorem segment.put_frame (s : segment) (fs : FS) (e : entry) (fault : Option WriteFault)
    (other : String) (h : other ≠ s.path) :
    (s.put fs e fault).2.2.lookup other = fs.lookup other := by
  have := fileWrite_frame fs s.path other e.Encode fault h
  unfold segment.put
  split
  · rename_i heq
    rw [heq] at this
    exact this
  · rename_i heq
    rw [heq] at this
    exact this

theorem segment.put_index (s : segment) (fs : FS) (e : entry) (fault : Option WriteFault)
    (k : Bytes) (h : mapGet (s.put fs e fault).2.1.index k ≠ none) :
    mapGet s.index k ≠ none ∨ (k = e.key ∧ fault = none) := by
  unfold segment.put at h
  split at h
  · exact Or.inl h
  · rename_i n fs1 heq
    by_cases hk : e.key = k
    · right
      refine ⟨hk.symm, ?_⟩
      cases fault with
      | none => rfl
      | some f =>
        unfold fileWrite at heq
        split at heq
        · simp at heq
        · simp at heq
    · left
      dsimp only at h
      rw [mapGet_mapSet_ne _ _ _ _ hk] at h
      exact h

/-- Whatever fails, the loop that writes the merged segment stays on the file
of that segment, and only keys whose append was not made to fail enter the
index. -/
theorem mergeWrite_frame (fault : Bytes → Option WriteFault) :
    ∀ (l : List (Bytes × Bytes)) (s : segment) (fs : FS),
      (mergeWrite fault l s fs).1.path = s.path ∧
      (∀ other, other ≠ s.path → (mergeWrite fault l s fs).2.lookup other = fs.lookup other) ∧
      (∀ k, mapGet (mergeWrite fault l s fs).1.index k ≠ none →
        mapGet s.index k ≠ none ∨ (k ∈ l.map Prod.fst ∧ fault k = none)) := by
  intro l
  induction l with
  | nil =>
    intro s fs
    exact ⟨rfl, fun _ _ => rfl, fun k h => Or.inl h⟩
  | cons x l ih =>
    obtain ⟨k0, v0⟩ := x
    intro s fs
    have hstep : mergeWrite fault ((k0, v0) :: l) s fs =
        mergeWrite fault l (s.put fs ⟨k0, v0⟩ (fault k0)).2.1
          (s.put fs ⟨k0, v0⟩ (fault k0)).2.2 := by
      simp only [mergeWrite]
    obtain ⟨h1, h2, h3⟩ := ih (s.put fs ⟨k0, v0⟩ (fault k0)).2.1
      (s.put fs ⟨k0, v0⟩ (fault k0)).2.2
    have hp := segment.put_path s fs ⟨k0, v0⟩ (fault k0)
    rw [hstep]
    refine ⟨h1.trans hp, ?_, ?_⟩
    · intro other ho
      rw [h2 other (by rw [hp]; exact ho)]
      exact segment.put_frame s fs ⟨k0, v0⟩ (fault k0) other ho
    · intro k hk
      rcases h3 k hk with h | ⟨h, hf⟩
      · rcases segment.put_index s fs ⟨k0, v0⟩ (fault k0) k h with h' | ⟨h', hf'⟩
        · exact Or.inl h'
        · right
          dsimp only at h'
          subst h'
          exact ⟨by simp, hf'⟩
      · exact Or.inr ⟨by simp [h], hf⟩

theorem mapGet_mergeKeys (fs : FS) (seg : segment) (key : Bytes) (l : List (Bytes × Nat)) :
    ∀ merged : List (Bytes × Bytes), mapGet (mergeKeys fs seg l merged) key ≠ none →
      mapGet merged key ≠ none ∨ (key ∈ l.map Prod.fst ∧ ∃ v, seg.get fs key = .ok v) := by
  induction l with
  | nil => intro merged h; exact Or.inl h
  | cons x l ih =>
    obtain ⟨k, pos⟩ := x
    intro merged h
    simp only [mergeKeys] at h
    cases hg : seg.get fs k with
    | ok val =>
      rw [hg] at h
      rcases ih _ h with h1 | ⟨h1, h2⟩
      · by_cases hk : k = key
        · subst hk
          exact Or.inr ⟨by simp, val, hg⟩
        · rw [mapGet_mapSet_ne _ _ _ _ hk] at h1
          exact Or.inl h1
      · exact Or.inr ⟨by simp [h1], h2⟩
    | error e =>
      rw [hg] at h
      rcases ih _ h with h1 | ⟨h1, h2⟩
      · exact Or.inl h1
      · exact Or.inr ⟨by simp [h1], h2⟩

/-- A key of the working map was read without error from a segment whose
index has it. -/
theorem mapGet_mergeCollect (fs : FS) (ord : MapOrder) (key : Bytes) (segs : List segment) :
    ∀ (i : Nat) (merged : List (Bytes × Bytes)),
      mapGet (mergeCollect fs ord i segs merged) key ≠ none →
      mapGet merged key ≠ none ∨
        ∃ s ∈ segs, mapGet s.index key ≠ none ∧ ∃ v, s.get fs key = .ok v := by
  induction segs with
  | nil => intro i merged h; exact Or.inl h
  | cons t rest ih =>
    intro i merged h
    simp only [mergeCollect] at h
    rcases ih _ _ h with h1 | ⟨s, hs, h2⟩
    · rcases mapGet_mergeKeys fs t key _ _ h1 with h3 | ⟨h3, h4⟩
      · exact Or.inl h3
      · right
        refine ⟨t, List.mem_cons_self _ _, ?_, h4⟩
        have hperm := (ord.index_perm i t.index).map Prod.fst
        exact (mapGet_ne_none_iff t.index key).2 ((hperm.mem_iff).1 h3)
    · exact Or.inr ⟨s, List.mem_cons_of_mem _ hs, h2⟩

/-- The two outcomes of `mergeSegments`: an error and no change when
`merged-segment` cannot be created, the segment filled by the last loop
otherwise. -/
theorem mergeSegments_cases (fs : FS) (outputPath : String) (segments : List segment)
    (ord : MapOrder) (fault : Bytes → Option WriteFault) :
    ((fs.lookup (mergedPath outputPath) = some .dir ∨
        parentMissing fs (mergedPath outputPath) = true) ∧
      mergeSegments fs outputPath segments ord fault = (.error .PathError, fs)) ∨
    ((fs.lookup (mergedPath outputPath) ≠ some .dir ∧
        parentMissing fs (mergedPath outputPath) = false) ∧
      mergeSegments fs outputPath segments ord fault =
        (.ok (mergeWrite fault (ord.merged (mergeCollect fs ord 0 segments []))
            ⟨mergedPath outputPath, [], 0⟩
            (fs.store (mergedPath outputPath) (.file []))).1,
          (mergeWrite fault (ord.merged (mergeCollect fs ord 0 segments []))
            ⟨mergedPath outputPath, [], 0⟩
            (fs.store (mergedPath outputPath) (.file []))).2)) := by
  by_cases hfail : fs.lookup (mergedPath outputPath) = some .dir ∨
      parentMissing fs (mergedPath outputPath) = true
  · left
    refine ⟨hfail, ?_⟩
    simp only [mergeSegments, osCreate_fail _ _ hfail]
  · right
    have hdir : fs.lookup (mergedPath outputPath) ≠ some .dir := fun h => hfail (Or.inl h)
    have hparent : parentMissing fs (mergedPath outputPath) = false := by
      cases hp : parentMissing fs (mergedPath outputPath) with
      | false => rfl
      | true => exact absurd (Or.inr hp) hfail
    refine ⟨⟨hdir, hparent⟩, ?_⟩
    have hcreate := osCreate_ok fs (mergedPath outputPath) hdir hparent
    have hlk : (fs.store (mergedPath outputPath) (.file [])).lookup (mergedPath outputPath) =
        some (.file []) := FS.lookup_store_self _ _ _
    have hnew : newSegment (fs.store (mergedPath outputPath) (.file []))
        (mergedPath outputPath) =
        (.ok ⟨mergedPath outputPath, [], 0⟩, fs.store (mergedPath outputPath) (.file [])) := by
      simp only [newSegment, hlk, rebuildIndex_empty _ _ hlk]
    simp only [mergeSegments, hcreate, hnew]

/-! ## The inputs of the merge -/

theorem mergeSegments_ok_path (fs fs1 : FS) (outputPath : String) (segments : List segment)
    (ord : MapOrder) (fault : Bytes → Option WriteFault) (m : segment)
    (h : mergeSegments fs outputPath segments ord fault = (.ok m, fs1)) :
    m.path = mergedPath outputPath := by
  rcases mergeSegments_cases fs outputPath segments ord fault with ⟨_, h1⟩ | ⟨_, h1⟩
  · rw [h1] at h
    cases h
  · rw [h1] at h
    simp only [Prod.mk.injEq, Except.ok.injEq] at h
    rw [← h.1]
    exact (mergeWrite_frame fault _ _ _).1

/-! ## The place of the merged file -/

theorem segment.put_file (s : segment) (fs : FS) (e : entry) (fault : Option WriteFault)
    (h : ∃ c, fs.lookup s.path = some (.file c)) :
    ∃ c, (s.put fs e fault).2.2.lookup s.path = some (.file c) := by
  obtain ⟨c, hc⟩ := h
  cases fault with
  | none =>
    rw [segment.put_none s fs e c hc]
    exact ⟨_, FS.lookup_store_self _ _ _⟩
  | some f =>
    simp only [segment.put, fileWrite, hc]
    exact ⟨_, FS.lookup_store_self _ _ _⟩

theorem mergeWrite_file (fault : Bytes → Option WriteFault) :
    ∀ (l : List (Bytes × Bytes)) (s : segment) (fs : FS),
      (∃ c, fs.lookup s.path = some (.file c)) →
      ∃ c, (mergeWrite fault l s fs).2.lookup s.path = some (.file c) := by
  intro l
  induction l with
  | nil => intro s fs h; exact h
  | cons x l ih =>
    obtain ⟨k0, v0⟩ := x
    intro s fs h
    have hstep : mergeWrite fault ((k0, v0) :: l) s fs =
        mergeWrite fault l (s.put fs ⟨k0, v0⟩ (fault k0)).2.1
          (s.put fs ⟨k0, v0⟩ (fault k0)).2.2 := by
      simp only [mergeWrite]
    have hp := segment.put_path s fs ⟨k0, v0⟩ (fault k0)
    have := ih (s.put fs ⟨k0, v0⟩ (fault k0)).2.1 (s.put fs ⟨k0, v0⟩ (fault k0)).2.2
      (by rw [hp]; exact segment.put_file s fs ⟨k0, v0⟩ (fault k0) h)
    rw [hstep]
    rw [hp] at this
    exact this

/-- The directory of the path that `filepath.Join` makes from `parent` and
`base` is `parent`. -/
theorem filepathDir_join (parent base : String)
    (hbase : '/' ∉ base.data) (hparent : parent.data ≠ [])
    (hlast : parent = "/" ∨ parent.data.getLast? ≠ some '/') :
    filepathDir (filepathJoin parent base) = parent := by
  have hnot : ∀ x ∈ base.data.reverse, decide (x ≠ '/') = true := by
    intro x hx
    have : x ≠ '/' := fun hc => hbase (by rw [← hc]; exact List.mem_reverse.1 hx)
    simpa using this
  have hdrop : ∀ r : List Char, (base.data.reverse ++ '/' :: r).dropWhile
      (fun c => decide (c ≠ '/')) = '/' :: r := by
    intro r
    apply dropWhile_append_stop _ _ _ _ hnot
    simp
  unfold filepathDir
  rw [filepathJoin_data]
  rcases dirPrefix_cases parent with ⟨h1, h2⟩ | ⟨h1, h2⟩ | ⟨_, _, h1, h2⟩
  · rcases h1 with h1 | h1
    · rw [h1] at hparent
      exact absurd rfl hparent
    · rw [h2, h1]
      have he : ("" : String).data = [] := rfl
      rw [he, List.nil_append]
      have hall : base.data.reverse.dropWhile (fun c => decide (c ≠ '/')) = [] :=
        List.dropWhile_eq_nil_iff.2 hnot
      simp only [hall, List.dropWhile_nil, if_true]
      rw [if_neg hbase]
  · rw [h2, h1]
    have hd : ("/" : String).data = ['/'] := rfl
    rw [hd]
    have hmem : '/' ∈ ['/'] ++ base.data := by simp
    have hrev : (['/'] ++ base.data).reverse = base.data.reverse ++ '/' :: [] := by simp
    have h3 : (['/'] : List Char).dropWhile (fun c => decide (c = '/')) = [] := by
      simp [List.dropWhile]
    simp only [hrev, hdrop, h3, if_true]
    rw [if_pos hmem]
  · have hd : (parent ++ "/").data = parent.data ++ ['/'] := by simp
    rw [h2, hd]
    have hrev : (parent.data ++ ['/'] ++ base.data).reverse =
        base.data.reverse ++ '/' :: parent.data.reverse := by simp
    have hne : parent.data.reverse ≠ [] := by simpa using hparent
    have hlast2 : parent.data.getLast? ≠ some '/' := by
      rcases hlast with h | h
      · exact absurd h h1
      · exact h
    obtain ⟨c, rest, hcr⟩ := List.exists_cons_of_ne_nil hne
    have hc : c ≠ '/' := by
      intro hcc
      apply hlast2
      have : parent.data = rest.reverse ++ [c] := by
        have := congrArg List.reverse hcr
        simpa using this
      rw [this, hcc]
      simp
    have h4 : ('/' :: parent.data.reverse).dropWhile (fun c => decide (c = '/')) =
        parent.data.reverse := by
      rw [hcr]
      simp [List.dropWhile, hc]
    simp only [hrev, hdrop, h4, hne, if_false, List.reverse_reverse]

/-- C14, the claim as stated fails: with the directory `/tmp/d` as first
argument the merged file is `/tmp/merged-segment`, next to the directory, not
`/tmp/d/merged-segment` inside it. With `d` the path is `merged-segment`, with
`/d` it is `/merged-segment`. -/
theorem mergeSegments_writes_beside_directory :
    mergedPath "d" = "merged-segment" ∧
    mergedPath "/d" = "/merged-segment" ∧
    (mergeSegments fsMerge "/tmp/d" [segOld, segNew] orderAsStored noFault).1 =
      .ok ⟨"/tmp/merged-segment", [(str "k2", 11), (str "k1", 0)], 22⟩ ∧
    filepathJoin "/tmp/d" "merged-segment" = "/tmp/d/merged-segment" ∧
    "/tmp/merged-segment" ≠ filepathJoin "/tmp/d" "merged-segment" ∧
    (mergeSegments fsMerge "/tmp/d" [segOld, segNew] orderAsStored noFault).2.lookup
      "/tmp/d/merged-segment" = none := by
  decide

/-- C14 (amended): the path of the segment that `mergeSegments` returns is
`merged-segment` in `filepath.Dir` of the first argument, and the file is
there after the call. For a first argument `parent/base` this is
`parent/merged-segment`: the file is created next to the path passed, not
inside it. -/
theorem mergeSegments_path (fs fs1 : FS) (outputPath : String) (segments : List segment)
    (ord : MapOrder) (fault : Bytes → Option WriteFault) (m : segment)
    (h : mergeSegments fs outputPath segments ord fault = (.ok m, fs1)) :
    m.path = filepathJoin (filepathDir outputPath) "merged-segment" ∧
    (∃ content, fs1.lookup m.path = some (.file content)) ∧
    (∀ parent base, outputPath = filepathJoin parent base → '/' ∉ base.data →
      parent.data ≠ [] → (parent = "/" ∨ parent.data.getLast? ≠ some '/') →
      m.path = filepathJoin parent "merged-segment") := by
  have hp := mergeSegments_ok_path fs fs1 outputPath segments ord fault m h
  refine ⟨hp, ?_, ?_⟩
  · rcases mergeSegments_cases fs outputPath segments ord fault with ⟨_, h1⟩ | ⟨_, h1⟩
    · rw [h1] at h
      cases h
    · rw [h1] at h
      simp only [Prod.mk.injEq, Except.ok.injEq] at h
      obtain ⟨hm, hfs⟩ := h
      rw [hp, ← hfs]
      exact mergeWrite_file fault _ ⟨mergedPath outputPath, [], 0⟩ _
        ⟨[], FS.lookup_store_self _ _ _⟩
  · intro parent base ho hb hpa hl
    rw [hp, mergedPath, ho, filepathDir_join parent base hb hpa hl]

theorem mergeSegments_path_witness :
    (⟨"/tmp/merged-segment", [(str "k2", 11), (str "k1", 0)], 22⟩ : segment).path =
      filepathJoin (filepathDir "/tmp/d") "merged-segment" ∧
    (∃ content, (mergeSegments fsMerge "/tmp/d" [segOld, segNew] orderAsStored noFault).2.lookup
      (⟨"/tmp/merged-segment", [(str "k2", 11), (str "k1", 0)], 22⟩ : segment).path =
        some (.file content)) ∧
    (⟨"/tmp/merged-segment", [(str "k2", 11), (str "k1", 0)], 22⟩ : segment).path =
      filepathJoin "/tmp" "merged-segment" :=
  ⟨(mergeSegments_path fsMerge
      (mergeSegments fsMerge "/tmp/d" [segOld, segNew] orderAsStored noFault).2 "/tmp/d"
      [segOld, segNew] orderAsStored noFault
      ⟨"/tmp/merged-segment", [(str "k2", 11), (str "k1", 0)], 22⟩ (by decide)).1,
   (mergeSegments_path fsMerge
      (mergeSegments fsMerge "/tmp/d" [segOld, segNew] orderAsStored noFault).2 "/tmp/d"
      [segOld, segNew] orderAsStored noFault
      ⟨"/tmp/merged-segment", [(str "k2", 11), (str "k1", 0)], 22⟩ (by decide)).2.1,
   (mergeSegments_path fsMerge
      (mergeSegments fsMerge "/tmp/d" [segOld, segNew] orderAsStored noFault).2 "/tmp/d"
      [segOld, segNew] orderAsStored noFault
      ⟨"/tmp/merged-segment", [(str "k2", 11), (str "k1", 0)], 22⟩ (by decide)).2.2 "/tmp" "d" (by decide) (by decide) (by decide) (by decide)⟩

/-! ## Index-to-file consistency of one segment -/

theorem encodeAll_append (a b : List entry) :
    encodeAll (a ++ b) = encodeAll a ++ encodeAll b := by
  induction a with
  | nil => rfl
  | cons e rest ih => simp [encodeAll, ih]

theorem encodeAll_length (es : List entry) :
    (encodeAll es).length = (es.map (fun e => 8 + e.key.length + e.value.length)).sum := by
  induction es with
  | nil => rfl
  | cons e rest ih => simp [encodeAll, entry.Encode_length, ih]

theorem lastOffset_append_single (es : List entry) (e : entry) (key : Bytes) :
    ∀ start, lastOffset start (es ++ [e]) key =
      if e.key = key then some (start + (encodeAll es).length) else lastOffset start es key := by
  induction es with
  | nil =>
    intro start
    simp [lastOffset, encodeAll]
  | cons x rest ih =>
    intro start
    have hih := ih (start + (8 + x.key.length + x.value.length))
    show lastOffset start (x :: (rest ++ [e])) key = _
    simp only [lastOffset, hih, encodeAll, List.length_append, entry.Encode_length]
    by_cases hk : e.key = key
    · simp only [hk, if_true]
      congr 1
      omega
    · simp only [hk, if_false]

theorem lastOffset_none_iff (es : List entry) (key : Bytes) :
    ∀ start, lastOffset start es key = none ↔ lastValue es key = none := by
  induction es with
  | nil => intro start; simp [lastOffset, lastValue]
  | cons e rest ih =>
    intro start
    simp only [lastOffset, lastValue]
    cases ho : lastOffset (start + (8 + e.key.length + e.value.length)) rest key with
    | none =>
      have := (ih _).1 ho
      rw [this]
      by_cases hk : e.key = key <;> simp [hk]
    | some p =>
      cases hv : lastValue rest key with
      | none =>
        have := (ih (start + (8 + e.key.length + e.value.length))).2 hv
        rw [this] at ho
        cases ho
      | some v => simp

/-- At the offset of the last record of a key the file holds a record of that
key with the last value written for it. -/
theorem lastOffset_spec (key : Bytes) (es : List entry) :
    ∀ start pos, lastOffset start es key = some pos →
      ∃ v rest, start ≤ pos ∧ lastValue es key = some v ∧
        (encodeAll es).drop (pos - start) = entry.Encode ⟨key, v⟩ ++ rest := by
  induction es with
  | nil => intro start pos h; simp [lastOffset] at h
  | cons e rest ih =>
    intro start pos h
    simp only [lastOffset] at h
    cases ho : lastOffset (start + (8 + e.key.length + e.value.length)) rest key with
    | some p =>
      rw [ho] at h
      simp only [Option.some.injEq] at h
      subst h
      obtain ⟨v, r, hle, hv, hd⟩ := ih _ _ ho
      refine ⟨v, r, by omega, by simp [lastValue, hv], ?_⟩
      have hsplit : p - start = e.Encode.length +
          (p - (start + (8 + e.key.length + e.value.length))) := by
        rw [entry.Encode_length]
        omega
      rw [encodeAll, hsplit, List.drop_append]
      exact hd
    | none =>
      rw [ho] at h
      by_cases hk : e.key = key
      · simp only [hk, if_true, Option.some.injEq] at h
        subst h
        have hv := (lastOffset_none_iff rest key _).1 ho
        refine ⟨e.value, encodeAll rest, Nat.le_refl _, by simp [lastValue, hv, hk], ?_⟩
        simp only [Nat.sub_self, List.drop_zero, encodeAll, ← hk]
      · simp [hk] at h

/-- What a consistent segment gives: the offset is the length of the file, a
key of the index has a record of its own at the indexed offset, with the last
value written for the key, and `get` returns that value. -/
theorem consistentWith_get (es : List entry) (s : segment) (fs : FS)
    (h : consistentWith es s fs) :
    (∃ content, fs.lookup s.path = some (.file content) ∧ s.offset = content.length ∧
      ∀ key pos, mapGet s.index key = some pos →
        ∃ v, lastValue es key = some v ∧
          DecodeFromReader (content.drop pos) =
            .ok (⟨key, v⟩, 8 + key.length + v.length) ∧
          s.get fs key = .ok v) ∧
    (∀ key, lastValue es key = none → s.get fs key = .error .ErrNotFound) := by
  obtain ⟨hfit, hl, ho, hidx⟩ := h
  have hfitv : ∀ key v, lastValue es key = some v → fits ⟨key, v⟩ := by
    intro key v
    clear hl ho hidx
    induction es with
    | nil => intro h; simp [lastValue] at h
    | cons e rest ih =>
      intro h
      simp only [lastValue] at h
      cases hv : lastValue rest key with
      | some w =>
        rw [hv] at h
        simp only [Option.some.injEq] at h
        subst h
        exact ih (fun x hx => hfit x (List.mem_cons_of_mem _ hx)) hv
      | none =>
        rw [hv] at h
        by_cases hk : e.key = key
        · simp only [hk, if_true, Option.some.injEq] at h
          subst h
          subst hk
          exact hfit e (List.mem_cons_self _ _)
        · simp [hk] at h
  refine ⟨⟨encodeAll es, hl, ho, ?_⟩, ?_⟩
  · intro key pos hp
    rw [hidx key] at hp
    obtain ⟨v, rest, _, hv, hd⟩ := lastOffset_spec key es 0 pos hp
    simp only [Nat.sub_zero] at hd
    have hf := hfitv key v hv
    have hdec := DecodeFromReader_Encode ⟨key, v⟩ rest hf.1 hf.2
    refine ⟨v, hv, by rw [hd]; exact hdec, ?_⟩
    exact segment.get_of_holdsRecord s fs key pos ⟨key, v⟩ (by rw [hidx key]; exact hp)
      ⟨_, rest, hl, hd⟩ hf.1 hf.2
  · intro key hv
    have := (lastOffset_none_iff es key 0).2 hv
    exact (segment.get_notFound_iff s fs key).2 (by rw [hidx key]; exact this)

/-- A successful `put` on a consistent segment keeps it consistent, with the
record put as the last one of the file. -/
theorem consistentWith_put (es : List entry) (s s1 : segment) (fs fs1 : FS) (e : entry)
    (fault : Option WriteFault) (h : consistentWith es s fs) (hfit : fits e)
    (hput : s.put fs e fault = (none, s1, fs1)) : consistentWith (es ++ [e]) s1 fs1 := by
  obtain ⟨hfits, hl, ho, hidx⟩ := h
  have hfault : fault = none := by
    cases fault with
    | none => rfl
    | some f => simp [segment.put, fileWrite, hl] at hput
  subst hfault
  rw [segment.put_none s fs e _ hl] at hput
  simp only [Prod.mk.injEq, true_and] at hput
  obtain ⟨hs1, hfs1⟩ := hput
  subst hs1 hfs1
  have henc : encodeAll (es ++ [e]) = encodeAll es ++ e.Encode := by
    rw [encodeAll_append]
    simp [encodeAll]
  refine ⟨?_, ?_, ?_, ?_⟩
  · intro x hx
    rcases List.mem_append.1 hx with h | h
    · exact hfits x h
    · rw [List.mem_singleton.1 h]
      exact hfit
  · rw [henc]
    exact FS.lookup_store_self _ _ _
  · rw [henc, List.length_append, ho]
  · intro key
    rw [lastOffset_append_single, Nat.zero_add]
    by_cases hk : e.key = key
    · simp only [hk, if_true]
      rw [← hk, mapGet_mapSet_self, ho]
    · simp only [hk, if_false]
      rw [mapGet_mapSet_ne _ _ _ _ hk]
      exact hidx key
/-- What the loop of `rebuildIndex` accepts is a run of records, and the index
it returns has, for every key of the run, the offset of its last record. -/
theorem rebuildLoop_records (fuel : Nat) :
    ∀ (stream : Bytes) (index index1 : hashIndex) (offset offset1 : Nat),
      rebuildLoop fuel stream index offset = .ok (index1, offset1) →
      ∃ es, (∀ e ∈ es, fits e) ∧ stream = encodeAll es ∧
        offset1 = offset + stream.length ∧
        ∀ key, mapGet index1 key =
          match lastOffset offset es key with
          | some pos => some pos
          | none => mapGet index key := by
  induction fuel with
  | zero =>
    intro stream index index1 offset offset1 h
    simp [rebuildLoop] at h
  | succ fuel ih =>
    intro stream index index1 offset offset1 h
    unfold rebuildLoop at h
    cases hd : DecodeFromReader stream with
    | error e =>
      rw [hd] at h
      rcases DecodeFromReader_error stream e hd with ⟨h1, h2⟩ | h1
      · subst h1 h2
        simp only [Except.ok.injEq, Prod.mk.injEq] at h
        obtain ⟨hi, ho⟩ := h
        subst hi ho
        exact ⟨[], fun e he => absurd he (List.not_mem_nil e), rfl, rfl, fun key => rfl⟩
      · subst h1
        simp at h
    | ok r =>
      obtain ⟨rec, n⟩ := r
      rw [hd] at h
      dsimp only at h
      obtain ⟨hs, hn, hk, hv⟩ := DecodeFromReader_ok stream rec n hd
      obtain ⟨es, hfit, hrest, hoff, hidx⟩ := ih _ _ _ _ _ h
      refine ⟨rec :: es, ?_, ?_, ?_, ?_⟩
      · intro e he
        rcases List.mem_cons.1 he with h1 | h1
        · rw [h1]
          exact ⟨hk, hv⟩
        · exact hfit e h1
      · rw [encodeAll, ← hrest]
        exact hs
      · have hlen := congrArg List.length hs
        rw [List.length_append, entry.Encode_length] at hlen
        omega
      · intro key
        rw [hidx key]
        simp only [lastOffset, ← hn]
        cases lastOffset (offset + n) es key with
        | some p => rfl
        | none =>
          by_cases hkey : rec.key = key
          · simp only [hkey, if_true]
            rw [← hkey]
            exact mapGet_mapSet_self _ _ _
          · simp only [hkey, if_false]
            exact mapGet_mapSet_ne _ _ _ _ hkey

/-- A segment that `newSegment` returns is consistent with the records of its
file. -/
theorem newSegment_consistent (fs fs1 : FS) (path : String) (s : segment)
    (h : newSegment fs path = (.ok s, fs1)) : ∃ es, consistentWith es s fs1 := by
  have key : ∀ (fs2 : FS) (content : Bytes), fs2.lookup path = some (.file content) →
      segment.rebuildIndex ⟨path, [], 0⟩ fs2 = .ok s → ∃ es, consistentWith es s fs2 := by
    intro fs2 content hl hr
    simp only [segment.rebuildIndex, hl] at hr
    cases hloop : rebuildLoop (content.length + 1) content [] 0 with
    | error e => simp [hloop] at hr
    | ok r =>
      obtain ⟨index1, offset1⟩ := r
      simp only [hloop, Except.ok.injEq] at hr
      obtain ⟨es, hfit, hc, ho, hidx⟩ := rebuildLoop_records _ _ _ _ _ _ hloop
      subst hr
      refine ⟨es, hfit, by rw [← hc]; exact hl, by rw [← hc]; simpa using ho, ?_⟩
      intro k
      rw [hidx k]
      cases lastOffset 0 es k <;> rfl
  cases hl : fs.lookup path with
  | none =>
    by_cases hp : fs.isDir (parentDir path) = true
    · simp only [newSegment, hl, hp, if_true, Prod.mk.injEq] at h
      obtain ⟨hr, hfs⟩ := h
      subst hfs
      exact key _ [] (FS.lookup_store_self _ _ _) hr
    · simp [newSegment, hl, hp] at h
  | some n =>
    cases n with
    | dir => simp [newSegment, hl] at h
    | file content =>
      simp only [newSegment, hl, Prod.mk.injEq] at h
      obtain ⟨hr, hfs⟩ := h
      subst hfs
      exact key _ content hl hr

/-- A `put` that fails keeps the segment as it is; when no byte of it reached
the file the segment stays consistent. -/
theorem consistentWith_failed_put (es : List entry) (s s1 : segment) (fs fs1 : FS) (e : entry)
    (fault : Option WriteFault) (err : Err) (h : consistentWith es s fs)
    (hput : s.put fs e fault = (some err, s1, fs1))
    (hfile : fs1.lookup s.path = fs.lookup s.path) : consistentWith es s1 fs1 := by
  have hs : s1 = s := by
    unfold segment.put at hput
    split at hput
    · simp only [Prod.mk.injEq] at hput
      exact hput.2.1.symm
    · simp at hput
  subst hs
  obtain ⟨hfits, hl, ho, hidx⟩ := h
  exact ⟨hfits, hfile.trans hl, ho, hidx⟩

/-- The last value of the key of the record at the end of a run is the value
of that record. -/
theorem lastValue_append_self (es : List entry) (e : entry) :
    lastValue (es ++ [e]) e.key = some e.value := by
  induction es with
  | nil => simp [lastValue]
  | cons x rest ih =>
    show lastValue (x :: (rest ++ [e])) e.key = _
    simp only [lastValue, ih]

/-- C16, the claim as stated fails: on a segment just created on an empty
file, the `put` of `k` fails after 3 bytes and the `put` of `j` that follows
succeeds. After this successful `put` the running offset is 10 and the file
has 13 bytes, the index has `j` at offset 0 where no record starts, and `get`
of `j` fails. -/
theorem put_after_partial_write :
    newSegment [("d", .dir)] "d/current-data" = (.ok segFresh, fsFresh) ∧
    (segFresh.put fsFresh ⟨str "k", str "a"⟩ (some ⟨3, .WriteError 28⟩)).1 =
      some (.WriteError 28) ∧
    (((segFresh.put fsFresh ⟨str "k", str "a"⟩ (some ⟨3, .WriteError 28⟩)).2.1).put
      (segFresh.put fsFresh ⟨str "k", str "a"⟩ (some ⟨3, .WriteError 28⟩)).2.2
      ⟨str "j", str "b"⟩ none).1 = none ∧
    afterPartialWrite.1 = ⟨"d/current-data", [(str "j", 0)], 10⟩ ∧
    afterPartialWrite.1.size afterPartialWrite.2 = some 13 ∧
    afterPartialWrite.1.get afterPartialWrite.2 (str "j") = .error .ErrUnexpectedEOF := by
  decide

/-- C16 (amended): a segment that `newSegment` returns is consistent with the
records of its file; a successful `put` of a record that fits the format keeps
it consistent, with the record as the last one, and so does a failed `put` of
which no byte reached the file. On a consistent segment the running offset is
the length of the file, every key of the index has at its offset a record of
that key with the last value written for it, `get` returns that value, and
`get` of the key just put returns the value just put. -/
theorem segment_consistency :
    (∀ fs path s fs1, newSegment fs path = (.ok s, fs1) → ∃ es, consistentWith es s fs1) ∧
    (∀ es s fs e fault s1 fs1, consistentWith es s fs → fits e →
      s.put fs e fault = (none, s1, fs1) →
      consistentWith (es ++ [e]) s1 fs1 ∧ s1.get fs1 e.key = .ok e.value) ∧
    (∀ es s fs e fault err s1 fs1, consistentWith es s fs →
      s.put fs e fault = (some err, s1, fs1) → fs1.lookup s.path = fs.lookup s.path →
      consistentWith es s1 fs1) ∧
    (∀ es s fs, consistentWith es s fs →
      (∃ content, fs.lookup s.path = some (.file content) ∧ s.offset = content.length ∧
        ∀ key pos, mapGet s.index key = some pos →
          ∃ v, lastValue es key = some v ∧
            DecodeFromReader (content.drop pos) =
              .ok (⟨key, v⟩, 8 + key.length + v.length) ∧
            s.get fs key = .ok v) ∧
      (∀ key, lastValue es key = none → s.get fs key = .error .ErrNotFound)) := by
  refine ⟨fun fs path s fs1 h => newSegment_consistent fs fs1 path s h, ?_, ?_, consistentWith_get⟩
  · intro es s fs e fault s1 fs1 h hfit hput
    have hc := consistentWith_put es s s1 fs fs1 e fault h hfit hput
    refine ⟨hc, ?_⟩
    obtain ⟨⟨content, hl, ho, hget⟩, _⟩ := consistentWith_get _ _ _ hc
    have hidx : mapGet s1.index e.key = some (encodeAll es).length := by
      rw [hc.2.2.2 e.key, lastOffset_append_single]
      simp
    obtain ⟨v, hv, _, hg⟩ := hget e.key _ hidx
    have hlast := lastValue_append_self es e
    rw [hlast] at hv
    simp only [Option.some.injEq] at hv
    rw [hg, hv]
  · intro es s fs e fault err s1 fs1 h hput hfile
    exact consistentWith_failed_put es s s1 fs fs1 e fault err h hput hfile

theorem segment_consistency_witness :
    (∃ es, consistentWith es segFresh fsFresh) ∧
    (consistentWith ([] ++ [⟨str "k", str "a"⟩])
        (segFresh.put fsFresh ⟨str "k", str "a"⟩ none).2.1
        (segFresh.put fsFresh ⟨str "k", str "a"⟩ none).2.2 ∧
      (segFresh.put fsFresh ⟨str "k", str "a"⟩ none).2.1.get
        (segFresh.put fsFresh ⟨str "k", str "a"⟩ none).2.2
        (entry.key ⟨str "k", str "a"⟩) = .ok (entry.value ⟨str "k", str "a"⟩)) ∧
    consistentWith [] (segFresh.put fsFresh ⟨str "k", str "a"⟩ (some ⟨0, .WriteError 28⟩)).2.1
      (segFresh.put fsFresh ⟨str "k", str "a"⟩ (some ⟨0, .WriteError 28⟩)).2.2 :=
  ⟨segment_consistency.1 [("d", .dir)] "d/current-data" segFresh fsFresh (by decide),
   segment_consistency.2.1 [] segFresh fsFresh ⟨str "k", str "a"⟩ none _ _
     ⟨fun e he => absurd he (List.not_mem_nil e), by decide, by decide, fun _ => rfl⟩
     ⟨by decide, by decide⟩ (by decide),
   segment_consistency.2.2.1 [] segFresh fsFresh ⟨str "k", str "a"⟩
     (some ⟨0, .WriteError 28⟩) (.WriteError 28) _ _
     ⟨fun e he => absurd he (List.not_mem_nil e), by decide, by decide, fun _ => rfl⟩
     (by decide) (by decide)⟩

/-! ## Rebuilding the index and replaying the puts -/

/-- The offset after a run of `put` calls is the start plus the bytes of the
records. -/
theorem indexAfter_offset (es : List entry) :
    ∀ index offset, (indexAfter es index offset).2 = offset + (encodeAll es).length := by
  induction es with
  | nil => intro index offset; rfl
  | cons e rest ih =>
    intro index offset
    simp only [indexAfter, ih, encodeAll, List.length_append, entry.Encode_length]
    omega

/-- The index after a run of `put` calls has, for every key of the run, the
offset of its last record, and is the old index for the other keys. -/
theorem indexAfter_index (es : List entry) :
    ∀ index offset key, mapGet (indexAfter es index offset).1 key =
      match lastOffset offset es key with
      | some pos => some pos
      | none => mapGet index key := by
  induction es with
  | nil => intro index offset key; rfl
  | cons e rest ih =>
    intro index offset key
    simp only [indexAfter, ih, lastOffset]
    cases lastOffset (offset + (8 + e.key.length + e.value.length)) rest key with
    | some p => rfl
    | none =>
      by_cases hkey : e.key = key
      · simp only [hkey, if_true]
        rw [← hkey]
        exact mapGet_mapSet_self _ _ _
      · simp only [hkey, if_false]
        exact mapGet_mapSet_ne _ _ _ _ hkey

/-- With enough fuel the loop of `rebuildIndex` over the bytes of a run of
records returns the index and the offset that the puts of the run reach. -/
theorem rebuildLoop_encodeAll (es : List entry) :
    ∀ fuel index offset, (∀ e ∈ es, fits e) → (encodeAll es).length < fuel →
      rebuildLoop fuel (encodeAll es) index offset = .ok (indexAfter es index offset) := by
  induction es with
  | nil =>
    intro fuel index offset _ hfuel
    cases fuel with
    | zero => simp at hfuel
    | succ fuel => simp [rebuildLoop, encodeAll, DecodeFromReader, indexAfter]
  | cons e rest ih =>
    intro fuel index offset hfit hfuel
    cases fuel with
    | zero => simp at hfuel
    | succ fuel =>
      have he := hfit e (List.mem_cons_self _ _)
      simp only [encodeAll, List.length_append, entry.Encode_length] at hfuel
      unfold rebuildLoop
      simp only [encodeAll]
      rw [DecodeFromReader_Encode e (encodeAll rest) he.1 he.2]
      dsimp only
      have hdrop : (e.Encode ++ encodeAll rest).drop (8 + e.key.length + e.value.length) =
          encodeAll rest := by
        rw [← entry.Encode_length e]
        exact List.drop_left _ _
      rw [hdrop, indexAfter]
      exact ih fuel _ _ (fun x hx => hfit x (List.mem_cons_of_mem _ hx)) (by omega)
/-- A run of `put` calls without injected failure on a segment whose file
exists succeeds: it appends the records to the file and reaches the index and
the offset of `indexAfter`. -/
theorem segment.putAll_spec (es : List entry) :
    ∀ (s : segment) (fs : FS) (content : Bytes), fs.lookup s.path = some (.file content) →
      ∃ fs1, s.putAll fs es =
          some (⟨s.path, (indexAfter es s.index s.offset).1,
            (indexAfter es s.index s.offset).2⟩, fs1) ∧
        fs1.lookup s.path = some (.file (content ++ encodeAll es)) := by
  induction es with
  | nil =>
    intro s fs content h
    exact ⟨fs, rfl, by simpa [encodeAll] using h⟩
  | cons e rest ih =>
    intro s fs content h
    obtain ⟨fs1, hp, hl⟩ := ih ⟨s.path, mapSet s.index e.key s.offset, s.offset + e.Encode.length⟩
      (fs.store s.path (.file (content ++ e.Encode))) (content ++ e.Encode)
      (FS.lookup_store_self _ _ _)
    refine ⟨fs1, ?_, ?_⟩
    · rw [segment.putAll, segment.put_none s fs e content h]
      dsimp only
      rw [hp, entry.Encode_length]
      rfl
    · rw [hl, encodeAll, List.append_assoc]

/-- C17: for every run of records that fit the format, put one after the
other into a segment that `newSegment` created on an empty file, every `put`
succeeds, and `rebuildIndex` from the empty index and offset 0 over the
resulting file returns the very segment that the puts reached: the same list
as index, which has for every key the offset of the last record with that
key, and the same offset, the sum of `8 + len(key) + len(value)` over the
records. -/
theorem rebuildIndex_eq_replay (fs0 fs : FS) (path : String) (s0 : segment) (es : List entry)
    (hnew : newSegment fs0 path = (.ok s0, fs))
    (hempty : fs.lookup path = some (.file []))
    (hfit : ∀ e ∈ es, fits e) :
    ∃ s1 fs1, s0.putAll fs es = some (s1, fs1) ∧
      fs1.lookup path = some (.file (encodeAll es)) ∧
      segment.rebuildIndex ⟨path, [], 0⟩ fs1 = .ok s1 ∧
      (∀ key, mapGet s1.index key = lastOffset 0 es key) ∧
      s1.offset = (es.map (fun e => 8 + e.key.length + e.value.length)).sum := by
  have hs0 : s0 = ⟨path, [], 0⟩ := by
    cases hl : fs0.lookup path with
    | none =>
      by_cases hp : fs0.isDir (parentDir path) = true
      · rw [newSegment_fresh fs0 path hl hp] at hnew
        simp only [Prod.mk.injEq, Except.ok.injEq] at hnew
        exact hnew.1.symm
      · simp [newSegment, hl, hp] at hnew
    | some n =>
      cases n with
      | dir => simp [newSegment, hl] at hnew
      | file content =>
        simp only [newSegment, hl, Prod.mk.injEq] at hnew
        obtain ⟨hr, hfs⟩ := hnew
        subst hfs
        rw [hl] at hempty
        simp only [Option.some.injEq, Node.file.injEq] at hempty
        subst hempty
        rw [rebuildIndex_empty _ _ hl] at hr
        simp only [Except.ok.injEq] at hr
        exact hr.symm
  subst hs0
  obtain ⟨fs1, hp, hl⟩ := segment.putAll_spec es ⟨path, [], 0⟩ fs [] hempty
  simp only [List.nil_append] at hl
  refine ⟨_, fs1, hp, hl, ?_, ?_, ?_⟩
  · simp only [segment.rebuildIndex, hl]
    rw [rebuildLoop_encodeAll es _ [] 0 hfit (Nat.lt_succ_self _)]
  · intro key
    have h := indexAfter_index es [] 0 key
    dsimp only
    rw [h]
    cases lastOffset 0 es key <;> rfl
  · dsimp only
    rw [indexAfter_offset, Nat.zero_add, encodeAll_length]

theorem rebuildIndex_eq_replay_witness :
    (∀ e ∈ [(⟨str "k", str "a"⟩ : entry), ⟨str "j", str "b"⟩, ⟨str "k", str "cc"⟩], fits e) ∧
    ∃ s1 fs1,
      segFresh.putAll fsFresh [⟨str "k", str "a"⟩, ⟨str "j", str "b"⟩, ⟨str "k", str "cc"⟩] =
        some (s1, fs1) ∧
      fs1.lookup "d/current-data" = some (.file (encodeAll
        [⟨str "k", str "a"⟩, ⟨str "j", str "b"⟩, ⟨str "k", str "cc"⟩])) ∧
      segment.rebuildIndex ⟨"d/current-data", [], 0⟩ fs1 = .ok s1 ∧
      (∀ key, mapGet s1.index key = lastOffset 0
        [⟨str "k", str "a"⟩, ⟨str "j", str "b"⟩, ⟨str "k", str "cc"⟩] key) ∧
      s1.offset = ([(⟨str "k", str "a"⟩ : entry), ⟨str "j", str "b"⟩, ⟨str "k", str "cc"⟩].map
        (fun e => 8 + e.key.length + e.value.length)).sum :=
  ⟨by decide,
   rebuildIndex_eq_replay [("d", .dir)] fsFresh "d/current-data" segFresh
     [⟨str "k", str "a"⟩, ⟨str "j", str "b"⟩, ⟨str "k", str "cc"⟩]
     (by decide) (by decide) (by decide)⟩

/-! ## What a Put leaves alone -/

/-- The entries of the segment list other than the active one are the same
after `Put`, whatever it returns. -/
theorem Db.Put_other_segments (db : Db) (fs : FS) (key value : Bytes)
    (fault : Option WriteFault) (i : Nat) (hi : i ≠ db.current) (hlt : i < db.segments.length) :
    (db.Put fs key value fault).2.1.segments[i]? = db.segments[i]? := by
  have hset : ∀ c, (db.segments.set db.current c)[i]? = db.segments[i]? := by
    intro c
    rw [List.getElem?_set_ne (Ne.symm hi)]
  have happ : ∀ c n, (db.segments.set db.current c ++ [n])[i]? = db.segments[i]? := by
    intro c n
    rw [List.getElem?_append_left (by simpa using hlt), hset]
  unfold Db.Put
  split
  · rfl
  · split
    · rfl
    · dsimp only
      split
      · exact hset _
      · split
        · split
          · exact hset _
          · exact happ _ _
        · exact hset _

/-- A file that is not the file of the active segment has the same content
after `Put`, whatever it returns. -/
theorem Db.Put_other_files (db : Db) (fs : FS) (key value : Bytes) (fault : Option WriteFault)
    (cur : segment) (p : String) (content : Bytes)
    (hcur : db.segments[db.current]? = some cur) (hp : p ≠ cur.path)
    (hl : fs.lookup p = some (.file content)) :
    (db.Put fs key value fault).2.2.lookup p = some (.file content) := by
  have hframe := segment.put_frame cur fs ⟨key, value⟩ fault p hp
  unfold Db.Put
  rw [hcur]
  dsimp only
  split
  · rename_i heq
    rw [heq] at hframe
    exact hframe.trans hl
  · rename_i cur1 fs1 heq
    rw [heq] at hframe
    dsimp only at hframe ⊢
    have h1 : fs1.lookup p = some (.file content) := hframe.trans hl
    split
    · exact h1
    · split
      · split
        · rename_i err fs2 hnew
          rw [newSegment_error _ _ _ _ hnew]
          exact h1
        · rename_i newSeg fs2 hnew
          obtain ⟨_, _, hother, hsame⟩ := newSegment_ok _ _ _ _ hnew
          by_cases hpath : p = filepathJoin db.dir (segmentName db.segments.length)
          · rw [hsame content (hpath ▸ h1)]
            exact h1
          · rw [hother p hpath]
            exact h1
      · exact h1

/-- C18: on the store of `afterGapPuts` the segment at position 0 is not the
active one (position 2) and both are backed by the file `d/segment-2`. The
`Put` of the key `j` succeeds and leaves the index and the offset of the
segment at position 0 as they were, but the file of that segment grows from
100 to 110 bytes, so its offset is no longer the length of its file. -/
theorem Put_writes_rotated_out_file :
    segmentPaths afterGapPuts = ["d/segment-2", "d/segment-1", "d/segment-2"] ∧
    currentOf afterGapPuts = some 2 ∧
    segmentAt afterGapPuts 0 = some ⟨"d/segment-2", [(str "k", 0)], 100⟩ ∧
    segmentFileSize afterGapPuts 0 = some 100 ∧
    segmentPaths afterGapThirdPut =
      ["d/segment-2", "d/segment-1", "d/segment-2", "d/segment-3"] ∧
    segmentAt afterGapThirdPut 0 = some ⟨"d/segment-2", [(str "k", 0)], 100⟩ ∧
    segmentFileSize afterGapThirdPut 0 = some 110 := by
  decide

/-! ## The merged segment when no write fails -/

theorem recordsOf_keys (l : List (Bytes × Bytes)) :
    (recordsOf l).map entry.key = l.map Prod.fst := by
  simp [recordsOf]

/-- Without write failure the last loop of `mergeSegments` appends one record
per entry of the working map and reaches the index and the offset of
`indexAfter`. -/
theorem mergeWrite_noFault (fault : Bytes → Option WriteFault) (hfault : ∀ k, fault k = none)
    (l : List (Bytes × Bytes)) :
    ∀ (s : segment) (fs : FS) (content : Bytes), fs.lookup s.path = some (.file content) →
      (mergeWrite fault l s fs).1 =
          ⟨s.path, (indexAfter (recordsOf l) s.index s.offset).1,
            (indexAfter (recordsOf l) s.index s.offset).2⟩ ∧
        (mergeWrite fault l s fs).2.lookup s.path =
          some (.file (content ++ encodeAll (recordsOf l))) := by
  induction l with
  | nil =>
    intro s fs content h
    exact ⟨rfl, by simpa [recordsOf, encodeAll, mergeWrite] using h⟩
  | cons x rest ih =>
    obtain ⟨k, v⟩ := x
    intro s fs content h
    obtain ⟨h1, h2⟩ := ih ⟨s.path, mapSet s.index k s.offset,
        s.offset + (entry.Encode ⟨k, v⟩).length⟩
      (fs.store s.path (.file (content ++ entry.Encode ⟨k, v⟩))) (content ++ entry.Encode ⟨k, v⟩)
      (FS.lookup_store_self _ _ _)
    have hstep : mergeWrite fault ((k, v) :: rest) s fs =
        mergeWrite fault rest ⟨s.path, mapSet s.index k s.offset,
          s.offset + (entry.Encode ⟨k, v⟩).length⟩
          (fs.store s.path (.file (content ++ entry.Encode ⟨k, v⟩))) := by
      rw [mergeWrite, hfault k, segment.put_none s fs ⟨k, v⟩ content h]
    rw [hstep]
    refine ⟨?_, ?_⟩
    · rw [h1, entry.Encode_length]
      rfl
    · rw [h2, List.append_assoc]
      rfl

theorem lastValue_eq_none_iff (es : List entry) (key : Bytes) :
    lastValue es key = none ↔ key ∉ es.map entry.key := by
  induction es with
  | nil => simp [lastValue]
  | cons e rest ih =>
    simp only [lastValue, List.map_cons, List.mem_cons, not_or]
    cases hv : lastValue rest key with
    | some v =>
      have hin : ¬ key ∉ rest.map entry.key := fun hc => by
        rw [ih.2 hc] at hv
        cases hv
      constructor
      · intro h
        cases h
      · intro h
        exact absurd h.2 hin
    | none =>
      have hout := ih.1 hv
      by_cases hk : e.key = key
      · simp [hk]
      · simp only [hk, if_false, true_iff]
        exact ⟨Ne.symm hk, hout⟩

/-- In a map whose keys are distinct, the value of a key is the second
component of the entry with that key. -/
theorem mapGet_eq_some_iff_mem {α : Type} (m : List (Bytes × α)) (k : Bytes) (v : α)
    (hnd : (m.map Prod.fst).Nodup) : mapGet m k = some v ↔ (k, v) ∈ m := by
  refine ⟨mapGet_mem m k v, ?_⟩
  induction m with
  | nil => intro h; simp at h
  | cons p rest ih =>
    obtain ⟨a, b⟩ := p
    intro h
    simp only [List.map_cons, List.nodup_cons] at hnd
    rcases List.mem_cons.1 h with h1 | h1
    · cases h1
      simp [mapGet]
    · have hne : a ≠ k := by
        intro hc
        subst hc
        exact hnd.1 (List.mem_map_of_mem Prod.fst h1)
      simp only [mapGet, hne, if_false]
      exact ih hnd.2 h1

/-- Among records whose keys are distinct, the last value of a key is the value
of the record with that key. -/
theorem lastValue_eq_some_iff_mem (l : List (Bytes × Bytes)) (k : Bytes)
    (hnd : (l.map Prod.fst).Nodup) :
    ∀ v, lastValue (recordsOf l) k = some v ↔ (k, v) ∈ l := by
  induction l with
  | nil => intro v; simp [recordsOf, lastValue]
  | cons p rest ih =>
    obtain ⟨a, b⟩ := p
    intro v
    simp only [List.map_cons, List.nodup_cons] at hnd
    have ih1 := ih hnd.2
    show lastValue (⟨a, b⟩ :: recordsOf rest) k = some v ↔ _
    simp only [lastValue, List.mem_cons, Prod.mk.injEq]
    cases hv : lastValue (recordsOf rest) k with
    | some w =>
      have hmem : (k, w) ∈ rest := (ih1 w).1 hv
      have hne : k ≠ a := by
        intro hc
        subst hc
        exact hnd.1 (List.mem_map_of_mem Prod.fst hmem)
      constructor
      · intro h
        simp only [Option.some.injEq] at h
        subst h
        exact Or.inr hmem
      · intro h
        rcases h with h | h
        · exact absurd h.1 hne
        · have hw := (ih1 v).2 h
          rw [hv] at hw
          exact hw
    | none =>
      have hout : (k, v) ∉ rest := fun hc => by
        rw [(ih1 v).2 hc] at hv
        cases hv
      by_cases hk : a = k
      · subst hk
        simp only [if_true, Option.some.injEq, true_and]
        constructor
        · intro h
          exact Or.inl h.symm
        · intro h
          rcases h with h | h
          · exact h.symm
          · exact absurd h hout
      · simp only [hk, if_false]
        constructor
        · intro h
          cases h
        · intro h
          rcases h with h | h
          · exact absurd h.1.symm hk
          · exact absurd h hout
theorem mergeKeys_error (fs : FS) (seg : segment) (key : Bytes) (err : Err)
    (hget : seg.get fs key = .error err) (l : List (Bytes × Nat)) :
    ∀ merged : List (Bytes × Bytes),
      mapGet (mergeKeys fs seg l merged) key = mapGet merged key := by
  induction l with
  | nil => intro merged; rfl
  | cons x l ih =>
    obtain ⟨k, pos⟩ := x
    intro merged
    simp only [mergeKeys]
    by_cases hk : k = key
    · subst hk
      rw [hget]
      exact ih merged
    · cases seg.get fs k with
      | ok v => rw [ih, mapGet_mapSet_ne _ _ _ _ hk]
      | error e => exact ih merged

/-- The value that the loop over one index leaves for a key: the value read
from the segment when the key is visited and its lookup succeeds, the value
that was there otherwise. -/
theorem mergeKeys_get (fs : FS) (seg : segment) (key : Bytes) (l : List (Bytes × Nat))
    (merged : List (Bytes × Bytes)) :
    mapGet (mergeKeys fs seg l merged) key =
      if key ∈ l.map Prod.fst then
        (match seg.get fs key with
          | .ok v => some v
          | .error _ => mapGet merged key)
      else mapGet merged key := by
  by_cases hmem : key ∈ l.map Prod.fst
  · rw [if_pos hmem]
    cases hg : seg.get fs key with
    | ok v => exact mergeKeys_hit fs seg key v hg l hmem merged
    | error e => exact mergeKeys_error fs seg key e hg l merged
  · rw [if_neg hmem]
    exact mergeKeys_other fs seg key l hmem merged

/-- The content of the working map does not depend on the order in which the
indexes are visited. -/
theorem mergeCollect_congr (fs : FS) (ord1 ord2 : MapOrder) (key : Bytes)
    (segs : List segment) :
    ∀ (i j : Nat) (m1 m2 : List (Bytes × Bytes)), mapGet m1 key = mapGet m2 key →
      mapGet (mergeCollect fs ord1 i segs m1) key =
        mapGet (mergeCollect fs ord2 j segs m2) key := by
  induction segs with
  | nil => intro i j m1 m2 h; exact h
  | cons t rest ih =>
    intro i j m1 m2 h
    simp only [mergeCollect]
    apply ih
    rw [mergeKeys_get, mergeKeys_get, h]
    have h1 := ((ord1.index_perm i t.index).map Prod.fst).mem_iff (a := key)
    have h2 := ((ord2.index_perm j t.index).map Prod.fst).mem_iff (a := key)
    by_cases hmem : key ∈ t.index.map Prod.fst
    · rw [if_pos (h1.2 hmem), if_pos (h2.2 hmem)]
    · rw [if_neg (fun hc => hmem (h1.1 hc)), if_neg (fun hc => hmem (h2.1 hc))]

/-- A value of the working map was read from a segment whose index has the
key, unless it was in the map from the start. -/
theorem mergeCollect_value (fs : FS) (ord : MapOrder) (key val : Bytes) (segs : List segment) :
    ∀ (i : Nat) (merged : List (Bytes × Bytes)),
      mapGet (mergeCollect fs ord i segs merged) key = some val →
      mapGet merged key = some val ∨
        ∃ s ∈ segs, mapGet s.index key ≠ none ∧ s.get fs key = .ok val := by
  induction segs with
  | nil => intro i merged h; exact Or.inl h
  | cons t rest ih =>
    intro i merged h
    simp only [mergeCollect] at h
    rcases ih _ _ h with h1 | ⟨s, hs, h2⟩
    · rw [mergeKeys_get] at h1
      by_cases hmem : key ∈ (ord.index i t.index).map Prod.fst
      · rw [if_pos hmem] at h1
        have hidx : mapGet t.index key ≠ none :=
          (mapGet_ne_none_iff t.index key).2
            ((((ord.index_perm i t.index).map Prod.fst).mem_iff).1 hmem)
        cases hg : t.get fs key with
        | ok v =>
          rw [hg] at h1
          simp only [Option.some.injEq] at h1
          subst h1
          exact Or.inr ⟨t, List.mem_cons_self _ _, hidx, hg⟩
        | error e =>
          rw [hg] at h1
          exact Or.inl h1
      · rw [if_neg hmem] at h1
        exact Or.inl h1
    · exact Or.inr ⟨s, List.mem_cons_of_mem _ hs, h2⟩

/-- Among the segments whose index has a key there is a last one. -/
theorem exists_last_indexed (key : Bytes) (segs : List segment)
    (h : ∃ s ∈ segs, mapGet s.index key ≠ none) :
    ∃ older s newer, segs = older ++ s :: newer ∧ mapGet s.index key ≠ none ∧
      ∀ t ∈ newer, mapGet t.index key = none := by
  induction segs with
  | nil =>
    obtain ⟨s, hs, _⟩ := h
    exact absurd hs (List.not_mem_nil s)
  | cons t rest ih =>
    by_cases hrest : ∃ s ∈ rest, mapGet s.index key ≠ none
    · obtain ⟨older, s, newer, h1, h2, h3⟩ := ih hrest
      exact ⟨t :: older, s, newer, by rw [h1]; rfl, h2, h3⟩
    · obtain ⟨s, hs, hk⟩ := h
      rcases List.mem_cons.1 hs with h1 | h1
      · subst h1
        refine ⟨[], s, rest, rfl, hk, ?_⟩
        intro u hu
        by_contra hc
        exact hrest ⟨u, hu, hc⟩
      · exact absurd ⟨s, h1, hk⟩ hrest

theorem readsBack_get (fs : FS) (s : segment) (key : Bytes) (h : readsBack fs s = true)
    (hk : mapGet s.index key ≠ none) : ∃ v, s.get fs key = .ok v := by
  have hmem := (mapGet_ne_none_iff s.index key).1 hk
  obtain ⟨p, hp, hpk⟩ := List.mem_map.1 hmem
  have hall := List.all_eq_true.1 h p hp
  rw [hpk] at hall
  cases hg : s.get fs key with
  | ok v => exact ⟨v, rfl⟩
  | error e =>
    rw [hg] at hall
    cases hall
/-- The keys of the working map are the keys of the indexes of the segments
when every indexed key can be read back. -/
theorem mergeCollect_keys (fs : FS) (ord : MapOrder) (segments : List segment) (key : Bytes)
    (hread : ∀ s ∈ segments, readsBack fs s = true) :
    mapGet (mergeCollect fs ord 0 segments []) key ≠ none ↔
      ∃ s ∈ segments, mapGet s.index key ≠ none := by
  constructor
  · intro h
    rcases mapGet_mergeCollect fs ord key segments 0 [] h with h1 | ⟨s, hs, hk, _⟩
    · exact absurd rfl h1
    · exact ⟨s, hs, hk⟩
  · intro h
    obtain ⟨older, s, newer, hsegs, hk, hnewer⟩ := exists_last_indexed key segments h
    obtain ⟨v, hv⟩ := readsBack_get fs s key (hread s (by rw [hsegs]; simp)) hk
    rw [hsegs, mergeCollect_last fs ord key v older newer s hv hnewer 0 []]
    exact Option.some_ne_none v

/-- A value of the working map is the value read from the last segment whose
index has the key, when every indexed key can be read back. -/
theorem mergeCollect_most_recent (fs : FS) (ord : MapOrder) (segments : List segment)
    (key val : Bytes) (hread : ∀ s ∈ segments, readsBack fs s = true)
    (h : mapGet (mergeCollect fs ord 0 segments []) key = some val) :
    ∃ older s newer, segments = older ++ s :: newer ∧ s.get fs key = .ok val ∧
      ∀ t ∈ newer, mapGet t.index key = none := by
  have hne : mapGet (mergeCollect fs ord 0 segments []) key ≠ none := by
    rw [h]
    exact Option.some_ne_none val
  obtain ⟨older, s, newer, hsegs, hk, hnewer⟩ :=
    exists_last_indexed key segments ((mergeCollect_keys fs ord segments key hread).1 hne)
  obtain ⟨v, hv⟩ := readsBack_get fs s key (hread s (by rw [hsegs]; simp)) hk
  have hlast := mergeCollect_last fs ord key v older newer s hv hnewer 0 []
  rw [← hsegs, h] at hlast
  simp only [Option.some.injEq] at hlast
  subst hlast
  exact ⟨older, s, newer, hsegs, hv, hnewer⟩

/-- C19: when every indexed key of every input segment can be read back, the
merged file can be created and no write fails, `mergeSegments` returns a
segment whose index has exactly the keys of the indexes of the input segments;
its file is a run of records with distinct keys, one for each of these keys,
each with the value read from the last input segment whose index has the key,
so the length of the file is the sum of `8 + len(key) + len(value)` over these
records. -/
theorem mergeSegments_compacts (fs : FS) (outputPath : String) (segments : List segment)
    (ord : MapOrder) (fault : Bytes → Option WriteFault)
    (hread : ∀ s ∈ segments, readsBack fs s = true)
    (hdir : fs.lookup (mergedPath outputPath) ≠ some .dir)
    (hparent : parentMissing fs (mergedPath outputPath) = false)
    (hfault : ∀ k, fault k = none) :
    ∃ m fs1 recs, mergeSegments fs outputPath segments ord fault = (.ok m, fs1) ∧
      (∀ k, mapGet m.index k ≠ none ↔ ∃ s ∈ segments, mapGet s.index k ≠ none) ∧
      fs1.lookup m.path = some (.file (encodeAll recs)) ∧
      (recs.map entry.key).Nodup ∧
      (∀ k, k ∈ recs.map entry.key ↔ ∃ s ∈ segments, mapGet s.index k ≠ none) ∧
      (∀ e ∈ recs, ∃ older s newer, segments = older ++ s :: newer ∧
        s.get fs e.key = .ok e.value ∧ ∀ t ∈ newer, mapGet t.index e.key = none) ∧
      m.size fs1 = some ((recs.map (fun e => 8 + e.key.length + e.value.length)).sum) := by
  rcases mergeSegments_cases fs outputPath segments ord fault with ⟨h, _⟩ | ⟨_, heq⟩
  · rcases h with h | h
    · exact absurd h hdir
    · rw [hparent] at h
      cases h
  obtain ⟨h1, h2⟩ := mergeWrite_noFault fault hfault
    (ord.merged (mergeCollect fs ord 0 segments [])) ⟨mergedPath outputPath, [], 0⟩
    (fs.store (mergedPath outputPath) (.file [])) [] (FS.lookup_store_self _ _ _)
  simp only [List.nil_append] at h2
  dsimp only at h1
  have hnd : ((ord.merged (mergeCollect fs ord 0 segments [])).map Prod.fst).Nodup :=
    (((ord.merged_perm _).map Prod.fst).nodup_iff).2
      (mergeCollect_keys_nodup fs ord segments 0 [] List.nodup_nil)
  have hkeys : ∀ k, k ∈ (recordsOf (ord.merged (mergeCollect fs ord 0 segments []))).map
      entry.key ↔ ∃ s ∈ segments, mapGet s.index k ≠ none := by
    intro k
    rw [recordsOf_keys, (((ord.merged_perm _).map Prod.fst).mem_iff), ← mapGet_ne_none_iff]
    exact mergeCollect_keys fs ord segments k hread
  refine ⟨_, _, recordsOf (ord.merged (mergeCollect fs ord 0 segments [])), heq, ?_, ?_, ?_,
    hkeys, ?_, ?_⟩
  · intro k
    rw [← hkeys k, h1]
    dsimp only
    have hn := lastOffset_none_iff
      (recordsOf (ord.merged (mergeCollect fs ord 0 segments []))) k 0
    have hv := lastValue_eq_none_iff
      (recordsOf (ord.merged (mergeCollect fs ord 0 segments []))) k
    rw [indexAfter_index]
    cases hlo : lastOffset 0 (recordsOf (ord.merged (mergeCollect fs ord 0 segments []))) k with
    | some p =>
      refine ⟨fun _ => ?_, fun _ => Option.some_ne_none p⟩
      by_contra hc
      rw [hn.2 (hv.2 hc)] at hlo
      cases hlo
    | none =>
      refine ⟨fun h => absurd rfl h, fun h => absurd h (hv.1 (hn.1 hlo))⟩
  · rw [h1]
    exact h2
  · rw [recordsOf_keys]
    exact hnd
  · intro e he
    obtain ⟨p, hp, hpe⟩ := List.mem_map.1 he
    subst hpe
    have hmem : (p.1, p.2) ∈ mergeCollect fs ord 0 segments [] :=
      ((ord.merged_perm _).mem_iff).1 hp
    have hget := (mapGet_eq_some_iff_mem _ p.1 p.2
      (mergeCollect_keys_nodup fs ord segments 0 [] List.nodup_nil)).2 hmem
    exact mergeCollect_most_recent fs ord segments p.1 p.2 hread hget
  · rw [h1]
    simp only [segment.size]
    rw [h2]
    dsimp only
    rw [encodeAll_length]

theorem mergeSegments_compacts_witness :
    ∃ m fs1 recs, mergeSegments fsMerge "/tmp/d" [segOld, segNew] orderAsStored noFault =
        (.ok m, fs1) ∧
      (∀ k, mapGet m.index k ≠ none ↔ ∃ s ∈ [segOld, segNew], mapGet s.index k ≠ none) ∧
      fs1.lookup m.path = some (.file (encodeAll recs)) ∧
      (recs.map entry.key).Nodup ∧
      (∀ k, k ∈ recs.map entry.key ↔ ∃ s ∈ [segOld, segNew], mapGet s.index k ≠ none) ∧
      (∀ e ∈ recs, ∃ older s newer, [segOld, segNew] = older ++ s :: newer ∧
        s.get fsMerge e.key = .ok e.value ∧ ∀ t ∈ newer, mapGet t.index e.key = none) ∧
      m.size fs1 = some ((recs.map (fun e => 8 + e.key.length + e.value.length)).sum) :=
  mergeSegments_compacts fsMerge "/tmp/d" [segOld, segNew] orderAsStored noFault
    (by decide) (by decide) (by decide) (fun _ => rfl)

/-! ## The merged segment and the order of the map iterations -/

/-- What `get` returns on a consistent segment: the last value written for the
key, `ErrNotFound` when no record has the key. -/
theorem consistentWith_get_eq (es : List entry) (s : segment) (fs : FS) (key : Bytes)
    (h : consistentWith es s fs) :
    s.get fs key =
      match lastValue es key with
      | some v => .ok v
      | none => .error .ErrNotFound := by
  obtain ⟨⟨content, _, _, hget⟩, hnone⟩ := consistentWith_get es s fs h
  cases hv : lastValue es key with
  | none => exact hnone key hv
  | some v =>
    have hidx := h.2.2.2 key
    cases hlo : lastOffset 0 es key with
    | none =>
      rw [(lastOffset_none_iff es key 0).1 hlo] at hv
      cases hv
    | some pos =>
      rw [hlo] at hidx
      obtain ⟨v1, hv1, _, hg⟩ := hget key pos hidx
      rw [hv] at hv1
      simp only [Option.some.injEq] at hv1
      subst hv1
      exact hg

/-- Without write failure the segment that the last loop of `mergeSegments`
fills from an empty file is consistent with the records of the working map. -/
theorem mergeWrite_consistent (fault : Bytes → Option WriteFault) (hfault : ∀ k, fault k = none)
    (l : List (Bytes × Bytes)) (fs : FS) (path : String)
    (hfit : ∀ e ∈ recordsOf l, fits e) :
    consistentWith (recordsOf l)
      (mergeWrite fault l ⟨path, [], 0⟩ (fs.store path (.file []))).1
      (mergeWrite fault l ⟨path, [], 0⟩ (fs.store path (.file []))).2 := by
  obtain ⟨h1, h2⟩ := mergeWrite_noFault fault hfault l ⟨path, [], 0⟩
    (fs.store path (.file [])) [] (FS.lookup_store_self _ _ _)
  simp only [List.nil_append] at h2
  dsimp only at h1
  refine ⟨hfit, ?_, ?_, ?_⟩
  · rw [h1]
    exact h2
  · rw [h1]
    dsimp only
    rw [indexAfter_offset, Nat.zero_add]
  · intro key
    rw [h1]
    dsimp only
    rw [indexAfter_index]
    cases lastOffset 0 (recordsOf l) key <;> rfl

/-- The records of the working map fit the format when the keys of the
indexes do: every value was returned by a `get`. -/
theorem mergeCollect_fits (fs : FS) (ord : MapOrder) (segments : List segment)
    (hkeys : ∀ s ∈ segments, ∀ p ∈ s.index, p.1.length < 4294967296) :
    ∀ e ∈ recordsOf (ord.merged (mergeCollect fs ord 0 segments [])), fits e := by
  intro e he
  obtain ⟨p, hp, hpe⟩ := List.mem_map.1 he
  subst hpe
  have hmem : (p.1, p.2) ∈ mergeCollect fs ord 0 segments [] :=
    ((ord.merged_perm _).mem_iff).1 hp
  have hget := (mapGet_eq_some_iff_mem _ p.1 p.2
    (mergeCollect_keys_nodup fs ord segments 0 [] List.nodup_nil)).2 hmem
  rcases mergeCollect_value fs ord p.1 p.2 segments 0 [] hget with h | ⟨s, hs, hk, hv⟩
  · cases h
  · obtain ⟨q, hq, hqk⟩ := List.mem_map.1 ((mapGet_ne_none_iff s.index p.1).1 hk)
    refine ⟨?_, segment.get_ok_length s fs p.1 p.2 hv⟩
    show p.1.length < 4294967296
    rw [← hqk]
    exact hkeys s hs q hq

/-- The last value of a key among the records written for the working map is
the value the working map has for the key. -/
theorem lastValue_merged (fs : FS) (ord : MapOrder) (segments : List segment) (key : Bytes) :
    lastValue (recordsOf (ord.merged (mergeCollect fs ord 0 segments []))) key =
      mapGet (mergeCollect fs ord 0 segments []) key := by
  have hnd0 := mergeCollect_keys_nodup fs ord segments 0 [] List.nodup_nil
  have hnd : ((ord.merged (mergeCollect fs ord 0 segments [])).map Prod.fst).Nodup :=
    (((ord.merged_perm _).map Prod.fst).nodup_iff).2 hnd0
  apply Option.ext
  intro v
  show _ = some v ↔ _ = some v
  rw [lastValue_eq_some_iff_mem _ key hnd v, (ord.merged_perm _).mem_iff,
    mapGet_eq_some_iff_mem _ key v hnd0]

/-- C20 (amended): when no append to the merged file fails, the merged file
can be created and the keys of the indexes are shorter than 2^32 bytes,
`mergeSegments` returns a segment for each of two orders of the map
iterations, and `get` returns the same result from the two segments for every
key. -/
theorem mergeSegments_order_independent (fs : FS) (outputPath : String)
    (segments : List segment) (ord1 ord2 : MapOrder) (fault : Bytes → Option WriteFault)
    (hkeys : ∀ s ∈ segments, ∀ p ∈ s.index, p.1.length < 4294967296)
    (hdir : fs.lookup (mergedPath outputPath) ≠ some .dir)
    (hparent : parentMissing fs (mergedPath outputPath) = false)
    (hfault : ∀ k, fault k = none) :
    ∃ m1 fs1 m2 fs2,
      mergeSegments fs outputPath segments ord1 fault = (.ok m1, fs1) ∧
      mergeSegments fs outputPath segments ord2 fault = (.ok m2, fs2) ∧
      ∀ key, m1.get fs1 key = m2.get fs2 key := by
  have hcan : ¬ (fs.lookup (mergedPath outputPath) = some .dir ∨
      parentMissing fs (mergedPath outputPath) = true) := by
    rintro (h | h)
    · exact hdir h
    · rw [hparent] at h
      cases h
  rcases mergeSegments_cases fs outputPath segments ord1 fault with ⟨h, _⟩ | ⟨_, heq1⟩
  · exact absurd h hcan
  rcases mergeSegments_cases fs outputPath segments ord2 fault with ⟨h, _⟩ | ⟨_, heq2⟩
  · exact absurd h hcan
  refine ⟨_, _, _, _, heq1, heq2, ?_⟩
  intro key
  rw [consistentWith_get_eq _ _ _ key (mergeWrite_consistent fault hfault _ fs
      (mergedPath outputPath) (mergeCollect_fits fs ord1 segments hkeys)),
    consistentWith_get_eq _ _ _ key (mergeWrite_consistent fault hfault _ fs
      (mergedPath outputPath) (mergeCollect_fits fs ord2 segments hkeys)),
    lastValue_merged, lastValue_merged,
    mergeCollect_congr fs ord1 ord2 key segments 0 0 [] [] rfl]

theorem mergeSegments_order_independent_witness :
    ∃ m1 fs1 m2 fs2,
      mergeSegments fsMerge "/tmp/d" [segOld, segNew] orderAsStored noFault = (.ok m1, fs1) ∧
      mergeSegments fsMerge "/tmp/d" [segOld, segNew] orderReversed noFault = (.ok m2, fs2) ∧
      ∀ key, m1.get fs1 key = m2.get fs2 key :=
  mergeSegments_order_independent fsMerge "/tmp/d" [segOld, segNew] orderAsStored orderReversed
    noFault (by decide) (by decide) (by decide) (fun _ => rfl)

/-- On the example the two orders give merged files with different bytes and
indexes with different offsets. -/
theorem mergeSegments_layout_depends_on_order :
    (mergeSegments fsMerge "/tmp/d" [segOld, segNew] orderAsStored noFault).1 =
      .ok ⟨"/tmp/merged-segment", [(str "k2", 11), (str "k1", 0)], 22⟩ ∧
    (mergeSegments fsMerge "/tmp/d" [segOld, segNew] orderReversed noFault).1 =
      .ok ⟨"/tmp/merged-segment", [(str "k1", 11), (str "k2", 0)], 22⟩ := by
  decide

/-! ## The errors the merge reports -/

/-- The working map holds, for a key, the value read from the last segment
that reads the key back, whatever the later segments have in their indexes. -/
theorem mergeCollect_last_readable (fs : FS) (ord : MapOrder) (key val : Bytes)
    (older newer : List segment) (s : segment)
    (hget : s.get fs key = .ok val)
    (hnewer : ∀ t ∈ newer, ∀ v, t.get fs key ≠ .ok v) :
    ∀ (i : Nat) (merged : List (Bytes × Bytes)),
      mapGet (mergeCollect fs ord i (older ++ s :: newer) merged) key = some val := by
  have hskip : ∀ (l : List segment), (∀ t ∈ l, ∀ v, t.get fs key ≠ .ok v) →
      ∀ (i : Nat) (merged : List (Bytes × Bytes)),
        mapGet (mergeCollect fs ord i l merged) key = mapGet merged key := by
    intro l
    induction l with
    | nil => intro _ i merged; rfl
    | cons t rest ih =>
      intro h i merged
      simp only [mergeCollect]
      rw [ih (fun u hu => h u (List.mem_cons_of_mem _ hu)), mergeKeys_get]
      cases hg : t.get fs key with
      | ok v => exact absurd hg (h t (List.mem_cons_self _ _) v)
      | error e => simp
  induction older with
  | nil =>
    intro i merged
    simp only [List.nil_append, mergeCollect]
    rw [hskip newer hnewer]
    apply mergeKeys_hit fs s key val hget
    have hin : mapGet s.index key ≠ none := by
      intro hc
      rw [(segment.get_notFound_iff s fs key).2 hc] at hget
      cases hget
    exact ((((ord.index_perm i s.index).map Prod.fst).mem_iff).2
      ((mapGet_ne_none_iff s.index key).1 hin))
  | cons t rest ih =>
    intro i merged
    simp only [List.cons_append, mergeCollect]
    exact ih _ _

/-- C12, the claim as stated fails: the read of `k1` from the newer segment
fails and `mergeSegments` returns a segment, without error, that holds the
older value of `k1`; the append of `k1` fails and `mergeSegments` returns a
segment, without error, that lacks `k1`. -/
theorem mergeSegments_swallows_errors :
    mapGet segNew.index (str "k1") = some 0 ∧
    segNew.get fsMergeTruncated (str "k1") = .error .EOF ∧
    (mergeSegments fsMergeTruncated "/tmp/d" [segOld, segNew] orderAsStored noFault).1 =
      .ok ⟨"/tmp/merged-segment", [(str "k2", 11), (str "k1", 0)], 22⟩ ∧
    (⟨"/tmp/merged-segment", [(str "k2", 11), (str "k1", 0)], 22⟩ : segment).get
      (mergeSegments fsMergeTruncated "/tmp/d" [segOld, segNew] orderAsStored noFault).2
      (str "k1") = .ok (str "a") ∧
    (mergeSegments fsMerge "/tmp/d" [segOld, segNew] orderAsStored (faultOn (str "k1"))).1 =
      .ok ⟨"/tmp/merged-segment", [(str "k2", 0)], 11⟩ := by
  decide

/-- C12 (amended): `mergeSegments` returns an error exactly when the file
`merged-segment` cannot be created: its path names a directory, or names
nothing in a directory that does not exist. A failed read is not reported: a
key that no input segment reads back is absent from the index of the returned
segment, and for a key (shorter than `2^32` bytes) that some segment reads
back while every later segment fails to read it or lacks it, `get` on the
returned segment gives the value of that older segment when no append fails.
A failed append is not reported either: the key is absent from the index of
the returned segment. -/
theorem mergeSegments_error_iff (fs : FS) (outputPath : String) (segments : List segment)
    (ord : MapOrder) (fault : Bytes → Option WriteFault) :
    ((∃ e fs1, mergeSegments fs outputPath segments ord fault = (.error e, fs1)) ↔
      (fs.lookup (mergedPath outputPath) = some .dir ∨
        parentMissing fs (mergedPath outputPath) = true)) ∧
    (∀ m fs1 key, mergeSegments fs outputPath segments ord fault = (.ok m, fs1) →
      (∀ s ∈ segments, ∀ v, s.get fs key ≠ .ok v) → mapGet m.index key = none) ∧
    (∀ m fs1 key val older s newer,
      mergeSegments fs outputPath segments ord fault = (.ok m, fs1) →
      segments = older ++ s :: newer → s.get fs key = .ok val →
      (∀ t ∈ newer, ∀ v, t.get fs key ≠ .ok v) →
      key.length < 4294967296 → (∀ k, fault k = none) → m.get fs1 key = .ok val) ∧
    (∀ m fs1 key, mergeSegments fs outputPath segments ord fault = (.ok m, fs1) →
      fault key ≠ none → mapGet m.index key = none) := by
  have hkeys : ∀ m fs1 key, mergeSegments fs outputPath segments ord fault = (.ok m, fs1) →
      mapGet m.index key ≠ none →
      fault key = none ∧ ∃ s ∈ segments, ∃ v, s.get fs key = .ok v := by
    intro m fs1 key hm hk
    rcases mergeSegments_cases fs outputPath segments ord fault with ⟨_, h⟩ | ⟨_, h⟩
    · rw [h] at hm
      cases hm
    · rw [h] at hm
      simp only [Prod.mk.injEq, Except.ok.injEq] at hm
      rw [← hm.1] at hk
      rcases (mergeWrite_frame fault _ _ _).2.2 key hk with h1 | ⟨h1, h2⟩
      · exact absurd rfl h1
      · refine ⟨h2, ?_⟩
        have hperm := (ord.merged_perm (mergeCollect fs ord 0 segments [])).map Prod.fst
        have h3 := (mapGet_ne_none_iff _ key).2 ((hperm.mem_iff).1 h1)
        rcases mapGet_mergeCollect fs ord key segments 0 [] h3 with h4 | ⟨s, hs, _, v, hv⟩
        · exact absurd rfl h4
        · exact ⟨s, hs, v, hv⟩
  refine ⟨⟨?_, ?_⟩, ?_, ?_, ?_⟩
  · rintro ⟨e, fs1, h⟩
    rcases mergeSegments_cases fs outputPath segments ord fault with ⟨hd, _⟩ | ⟨_, h2⟩
    · exact hd
    · rw [h2] at h
      cases h
  · intro hd
    rcases mergeSegments_cases fs outputPath segments ord fault with ⟨_, h2⟩ | ⟨hnd, _⟩
    · exact ⟨_, _, h2⟩
    · rcases hd with hd | hd
      · exact absurd hd hnd.1
      · rw [hnd.2] at hd
        cases hd
  · intro m fs1 key hm hread
    by_contra hc
    obtain ⟨_, s, hs, v, hv⟩ := hkeys m fs1 key hm hc
    exact hread s hs v hv
  · intro m fs1 key val older s newer hm hsegs hget hnewer hklen hfault
    rcases mergeSegments_cases fs outputPath segments ord fault with ⟨_, h⟩ | ⟨⟨hdir, hparent⟩, _⟩
    · rw [h] at hm
      cases hm
    · have hM := mergeCollect_last_readable fs ord key val older newer s hget hnewer 0 []
      rw [← hsegs] at hM
      obtain ⟨m2, fs2, h2, _, hg⟩ := mergeSegments_get_collected fs outputPath segments ord fault
        key val hM hklen (segment.get_ok_length s fs key val hget) hdir hparent hfault
      rw [hm] at h2
      simp only [Prod.mk.injEq, Except.ok.injEq] at h2
      rw [h2.1, h2.2]
      exact hg
  · intro m fs1 key hm hf
    by_contra hc
    exact hf (hkeys m fs1 key hm hc).1

theorem mergeSegments_error_iff_witness :
    ((∃ e fs1, mergeSegments fsMergeBlocked "/tmp/d" [segOld, segNew] orderAsStored noFault =
        (.error e, fs1)) ↔
      (fsMergeBlocked.lookup (mergedPath "/tmp/d") = some .dir ∨
        parentMissing fsMergeBlocked (mergedPath "/tmp/d") = true)) ∧
    ((∃ e fs1, mergeSegments [] "/no/such/dir/x" [] orderAsStored noFault = (.error e, fs1)) ↔
      (FS.lookup [] (mergedPath "/no/such/dir/x") = some .dir ∨
        parentMissing [] (mergedPath "/no/such/dir/x") = true)) ∧
    mapGet (⟨"/tmp/merged-segment", [], 0⟩ : segment).index (str "k1") = none ∧
    (⟨"/tmp/merged-segment", [(str "k2", 11), (str "k1", 0)], 22⟩ : segment).get
      (mergeSegments fsMergeTruncated "/tmp/d" [segOld, segNew] orderAsStored noFault).2
      (str "k1") = .ok (str "a") ∧
    mapGet (⟨"/tmp/merged-segment", [(str "k2", 0)], 11⟩ : segment).index (str "k1") = none :=
  ⟨(mergeSegments_error_iff fsMergeBlocked "/tmp/d" [segOld, segNew] orderAsStored noFault).1,
   (mergeSegments_error_iff [] "/no/such/dir/x" [] orderAsStored noFault).1,
   (mergeSegments_error_iff fsMergeTruncated "/tmp/d" [segNew] orderAsStored noFault).2.1
      ⟨"/tmp/merged-segment", [], 0⟩
      (mergeSegments fsMergeTruncated "/tmp/d" [segNew] orderAsStored noFault).2 (str "k1")
      (by decide) (by
        intro s hs v
        simp only [List.mem_singleton] at hs
        subst hs
        have : segNew.get fsMergeTruncated (str "k1") = .error .EOF := by decide
        rw [this]
        intro hc
        cases hc),
   (mergeSegments_error_iff fsMergeTruncated "/tmp/d" [segOld, segNew] orderAsStored
      noFault).2.2.1
      ⟨"/tmp/merged-segment", [(str "k2", 11), (str "k1", 0)], 22⟩
      (mergeSegments fsMergeTruncated "/tmp/d" [segOld, segNew] orderAsStored noFault).2
      (str "k1") (str "a") [] segOld [segNew] (by decide) rfl (by decide) (by
        intro t ht v
        simp only [List.mem_singleton] at ht
        subst ht
        have : segNew.get fsMergeTruncated (str "k1") = .error .EOF := by decide
        rw [this]
        intro hc
        cases hc) (by decide) (fun _ => rfl),
   (mergeSegments_error_iff fsMerge "/tmp/d" [segOld, segNew] orderAsStored
      (faultOn (str "k1"))).2.2.2
      ⟨"/tmp/merged-segment", [(str "k2", 0)], 11⟩
      (mergeSegments fsMerge "/tmp/d" [segOld, segNew] orderAsStored (faultOn (str "k1"))).2
      (str "k1") (by decide) (by decide)⟩

/-- Where the directory of `merged-segment` does not exist the merge fails
with a path error; on the example the directory exists, and with a relative
first argument the file is created in the working directory. -/
theorem mergeSegments_missing_directory :
    (mergeSegments [] "/no/such/dir/x" [] orderAsStored noFault).1 = .error .PathError ∧
    parentMissing [] (mergedPath "/no/such/dir/x") = true ∧
    parentMissing fsMerge (mergedPath "/tmp/d") = false ∧
    mergeSegments [("d", .dir)] "d" [] orderAsStored noFault =
      (.ok ⟨"merged-segment", [], 0⟩, [("d", .dir), ("merged-segment", .file [])]) := by
  decide
/-- C20, the claim as stated fails: the append of `k1` fails after 3 bytes.
When the working map is visited as stored, `k1` comes first, its 3 bytes stay
at the start of the file and `get` of `k2` on the merged segment fails; when
it is visited in reverse, `k2` comes first and `get` of `k2` returns `b`. -/
theorem mergeSegments_order_matters_on_failure :
    (mergeSegments fsMerge "/tmp/d" [segOld, segNew] orderAsStored
        (partialFaultOn (str "k1"))).1 = .ok ⟨"/tmp/merged-segment", [(str "k2", 0)], 11⟩ ∧
    (mergeSegments fsMerge "/tmp/d" [segOld, segNew] orderReversed
        (partialFaultOn (str "k1"))).1 = .ok ⟨"/tmp/merged-segment", [(str "k2", 0)], 11⟩ ∧
    (⟨"/tmp/merged-segment", [(str "k2", 0)], 11⟩ : segment).get
      (mergeSegments fsMerge "/tmp/d" [segOld, segNew] orderAsStored
        (partialFaultOn (str "k1"))).2 (str "k2") = .error .ErrUnexpectedEOF ∧
    (⟨"/tmp/merged-segment", [(str "k2", 0)], 11⟩ : segment).get
      (mergeSegments fsMerge "/tmp/d" [segOld, segNew] orderReversed
        (partialFaultOn (str "k1"))).2 (str "k2") = .ok (str "b") := by
  decide

/-- C11, the claim as stated fails: on the store opened on `fsBlocked` a `Put`
of `k` fails after 3 bytes. The `Put` of `j` that follows appends its record
without error, the file has 103 bytes, the creation of `segment-1` fails and
`Put` returns that error; the segment list is the one before with `j` indexed
at offset 0 in the active segment, and `Get` of `j` fails. -/
theorem Put_rotation_failure_after_partial_write :
    afterBlockedPartial.1 = some (.WriteError 28) ∧
    afterBlockedPartial.2.1 = ⟨[⟨"d/current-data", [], 0⟩], 0, "d"⟩ ∧
    ((⟨"d/current-data", [], 0⟩ : segment).put afterBlockedPartial.2.2
      ⟨str "j", bigValue 1⟩ none).1 = none ∧
    (⟨"d/current-data", [(str "j", 0)], 100⟩ : segment).size afterBlockedFull.2.2 = some 103 ∧
    (newSegment afterBlockedFull.2.2 (filepathJoin "d" (segmentName 1))).1 =
      .error .PathError ∧
    afterBlockedFull.1 = some .PathError ∧
    afterBlockedFull.2.1 = ⟨[⟨"d/current-data", [(str "j", 0)], 100⟩], 0, "d"⟩ ∧
    afterBlockedFull.2.1.Get afterBlockedFull.2.2 (str "j") = .error .ErrUnexpectedEOF := by
  decide

/-! ## The inputs of the merge and the file it writes -/

end Datastore

namespace Balancer

/-! ## The least-traffic choice -/

theorem trafficGet_trafficSet (m : TrafficMap) (srv other : String) (n : Nat) :
    trafficGet (trafficSet m srv n) other = if srv = other then n else trafficGet m other := by
  by_cases h : srv = other
  · simp [trafficSet, trafficGet, h]
  · simp only [trafficSet, trafficGet, h, if_false]
    induction m with
    | nil => rfl
    | cons p rest ih =>
      obtain ⟨a, b⟩ := p
      by_cases ha : a = srv <;> by_cases hb : a = other <;>
        simp_all [List.filter, trafficGet]

theorem trafficGet_trafficAdd (m : TrafficMap) (srv other : String) (n : Nat) :
    trafficGet (trafficAdd m srv n) other =
      if srv = other then (trafficGet m srv + n) % 18446744073709551616
      else trafficGet m other :=
  trafficGet_trafficSet m srv other _

theorem pickLoop_spec (traffic : TrafficMap) :
    ∀ (l : List String) (min : Nat) (chosen : String),
      (pickLoop traffic l min chosen = chosen ∧ ∀ s ∈ l, min ≤ trafficGet traffic s) ∨
      ∃ pre post, l = pre ++ pickLoop traffic l min chosen :: post ∧
        trafficGet traffic (pickLoop traffic l min chosen) < min ∧
        (∀ s ∈ pre, trafficGet traffic (pickLoop traffic l min chosen) < trafficGet traffic s) ∧
        (∀ s ∈ post, trafficGet traffic (pickLoop traffic l min chosen) ≤ trafficGet traffic s) := by
  intro l
  induction l with
  | nil =>
    intro min chosen
    exact Or.inl ⟨rfl, fun s hs => absurd hs (List.not_mem_nil s)⟩
  | cons srv rest ih =>
    intro min chosen
    by_cases hlt : trafficGet traffic srv < min
    · have hstep : pickLoop traffic (srv :: rest) min chosen =
          pickLoop traffic rest (trafficGet traffic srv) srv := by
        simp only [pickLoop, hlt, if_true]
      rw [hstep]
      right
      rcases ih (trafficGet traffic srv) srv with ⟨h1, h2⟩ | ⟨pre, post, h1, h2, h3, h4⟩
      · refine ⟨[], rest, by rw [h1]; rfl, by rw [h1]; exact hlt, ?_, ?_⟩
        · intro s hs
          exact absurd hs (List.not_mem_nil s)
        · intro s hs
          rw [h1]
          exact h2 s hs
      · refine ⟨srv :: pre, post, by rw [List.cons_append, ← h1], Nat.lt_trans h2 hlt, ?_, h4⟩
        intro s hs
        rcases List.mem_cons.1 hs with h | h
        · rw [h]
          exact h2
        · exact h3 s h
    · have hstep : pickLoop traffic (srv :: rest) min chosen =
          pickLoop traffic rest min chosen := by
        simp only [pickLoop, hlt, if_false]
      rw [hstep]
      rcases ih min chosen with ⟨h1, h2⟩ | ⟨pre, post, h1, h2, h3, h4⟩
      · left
        refine ⟨h1, ?_⟩
        intro s hs
        rcases List.mem_cons.1 hs with h | h
        · rw [h]
          exact Nat.le_of_not_lt hlt
        · exact h2 s h
      · right
        refine ⟨srv :: pre, post, by rw [List.cons_append, ← h1], h2, ?_, h4⟩
        intro s hs
        rcases List.mem_cons.1 hs with h | h
        · rw [h]
          exact Nat.lt_of_lt_of_le h2 (Nat.le_of_not_lt hlt)
        · exact h3 s h

/-- The choice is the first healthy backend with the least traffic. -/
theorem pick_first_minimal (traffic : TrafficMap) (healthy : List String)
    (hne : healthy ≠ []) :
    ∃ chosen pre post, pick traffic healthy = some chosen ∧
      healthy = pre ++ chosen :: post ∧
      (∀ s ∈ pre, trafficGet traffic chosen < trafficGet traffic s) ∧
      (∀ s ∈ post, trafficGet traffic chosen ≤ trafficGet traffic s) := by
  cases healthy with
  | nil => exact absurd rfl hne
  | cons first rest =>
    refine ⟨pickLoop traffic rest (trafficGet traffic first) first, ?_⟩
    rcases pickLoop_spec traffic rest (trafficGet traffic first) first with
      ⟨h1, h2⟩ | ⟨pre, post, h1, h2, h3, h4⟩
    · refine ⟨[], rest, rfl, by rw [h1]; rfl, ?_, ?_⟩
      · intro s hs
        exact absurd hs (List.not_mem_nil s)
      · intro s hs
        rw [h1]
        exact h2 s hs
    · refine ⟨first :: pre, post, rfl, by rw [List.cons_append, ← h1], ?_, h4⟩
      intro s hs
      rcases List.mem_cons.1 hs with h | h
      · rw [h]
        exact h2
      · exact h3 s h

theorem expectedPick_eq (t1 t2 : TrafficMap) (h : ∀ s, trafficGet t1 s = trafficGet t2 s) :
    ∀ (l : List String) (min : Nat) (chosen : String),
      expectedPick t1 l min chosen = pickLoop t2 l min chosen := by
  intro l
  induction l with
  | nil => intro min chosen; rfl
  | cons s rest ih =>
    intro min chosen
    simp only [expectedPick, pickLoop, h s, ih]

theorem uint64_natCast (n : Nat) : uint64 (n : Int) = n % 18446744073709551616 := by
  unfold uint64
  omega

theorem trafficGet_zeros (servers : List String) :
    ∀ (t : TrafficMap) (s : String), (∀ x, trafficGet t x = 0) →
      trafficGet (servers.foldl (fun t s => trafficSet t s 0) t) s = 0 := by
  induction servers with
  | nil => intro t s h; exact h s
  | cons a rest ih =>
    intro t s h
    simp only [List.foldl_cons]
    apply ih
    intro x
    rw [trafficGet_trafficSet]
    split
    · rfl
    · exact h x

/-- The handler, served the loads one after the other with every backend
healthy, chooses what the loop of `expectedSequence` chooses, from any two
traffic tables with the same counters. -/
theorem serve_eq_expectedLoop (first : String) (others : List String) :
    ∀ (loads : List Nat) (tH tE : TrafficMap) (seq : List String),
      (∀ s, trafficGet tE s = trafficGet tH s) →
      ∃ chosen, expectedLoop (first :: others) (loads.map Int.ofNat) tE seq =
          some (seq ++ chosen) ∧
        serve (first :: others) (fun _ => true) (loads.map (fun n _ => some n)) tH =
          chosen.map some := by
  intro loads
  induction loads with
  | nil =>
    intro tH tE seq _
    exact ⟨[], by simp [expectedLoop], rfl⟩
  | cons n rest ih =>
    intro tH tE seq h
    have hfilter : (first :: others).filter (fun _ => true) = first :: others := by simp
    have hpick : expectedPick tE others (trafficGet tE first) first =
        pickLoop tH others (trafficGet tH first) first := by
      rw [expectedPick_eq tE tH h, h first]
    have hhandler : handler (first :: others) (fun _ => true) (fun _ => some n) tH =
        (some (pickLoop tH others (trafficGet tH first) first),
          trafficAdd tH (pickLoop tH others (trafficGet tH first) first) n) := by
      simp only [handler, hfilter, pick]
    have hrel : ∀ s, trafficGet (trafficAdd tE
          (pickLoop tH others (trafficGet tH first) first) (uint64 (Int.ofNat n))) s =
        trafficGet (trafficAdd tH (pickLoop tH others (trafficGet tH first) first) n) s := by
      intro s
      rw [trafficGet_trafficAdd, trafficGet_trafficAdd, h s, h]
      split
      · have := uint64_natCast n
        simp only [Int.ofNat_eq_coe] at this ⊢
        rw [this]
        omega
      · rfl
    obtain ⟨chosen, h1, h2⟩ := ih (trafficAdd tH
      (pickLoop tH others (trafficGet tH first) first) n)
      (trafficAdd tE (pickLoop tH others (trafficGet tH first) first) (uint64 (Int.ofNat n)))
      (seq ++ [pickLoop tH others (trafficGet tH first) first]) hrel
    refine ⟨pickLoop tH others (trafficGet tH first) first :: chosen, ?_, ?_⟩
    · simp only [List.map_cons, expectedLoop, hpick]
      rw [h1]
      simp
    · simp only [List.map_cons, serve, hhandler]
      rw [h2]
/-- C15: among the healthy backends, taken in pool order, the handler chooses
the first one whose counter is minimal; when `forward` succeeds only the
counter of the chosen backend grows, by the number of bytes written; and with
every backend healthy and all counters at 0 the backends chosen for a list of
response sizes are those of `expectedSequence(loads, serversPool)`. -/
theorem handler_least_traffic (traffic : TrafficMap) (pool : List String)
    (health : String → Bool) (forward : String → Option Nat) (loads : List Nat) :
    (pool.filter health ≠ [] →
      ∃ chosen pre post, (handler pool health forward traffic).1 = some chosen ∧
        pool.filter health = pre ++ chosen :: post ∧
        (∀ s ∈ pre, trafficGet traffic chosen < trafficGet traffic s) ∧
        (∀ s ∈ post, trafficGet traffic chosen ≤ trafficGet traffic s)) ∧
    (∀ chosen n, (handler pool health forward traffic).1 = some chosen →
      forward chosen = some n →
      ∀ s, trafficGet (handler pool health forward traffic).2 s =
        if chosen = s then (trafficGet traffic chosen + n) % 18446744073709551616
        else trafficGet traffic s) ∧
    (∃ seq, expectedSequence (loads.map Int.ofNat) serversPool = some seq ∧
      serve serversPool (fun _ => true) (loads.map (fun n _ => some n)) [] = seq.map some) := by
  refine ⟨?_, ?_, ?_⟩
  · intro hne
    obtain ⟨chosen, pre, post, h1, h2, h3, h4⟩ :=
      pick_first_minimal traffic (pool.filter health) hne
    refine ⟨chosen, pre, post, ?_, h2, h3, h4⟩
    simp only [handler, h1]
    cases forward chosen <;> rfl
  · intro chosen n hc hf s
    cases hp : pick traffic (pool.filter health) with
    | none => simp [handler, hp] at hc
    | some c =>
      have hcc : c = chosen := by
        simp only [handler, hp] at hc
        cases hfc : forward c with
        | none => simpa [hfc] using hc
        | some k => simpa [hfc] using hc
      subst hcc
      simp only [handler, hp, hf]
      exact trafficGet_trafficAdd traffic c s n
  · obtain ⟨chosen, h1, h2⟩ := serve_eq_expectedLoop "server1:8080"
      ["server2:8080", "server3:8080"] loads []
      (serversPool.foldl (fun t s => trafficSet t s 0) []) []
      (fun s => trafficGet_zeros serversPool [] s (fun _ => rfl))
    exact ⟨chosen, by simpa [expectedSequence] using h1, h2⟩

theorem handler_least_traffic_witness :
    (∃ chosen pre post,
      (handler serversPool (fun _ => true) (fun _ => some 10)
        [("server1:8080", 80), ("server2:8080", 50), ("server3:8080", 50)]).1 = some chosen ∧
      serversPool.filter (fun _ => true) = pre ++ chosen :: post ∧
      (∀ s ∈ pre, trafficGet [("server1:8080", 80), ("server2:8080", 50), ("server3:8080", 50)]
          chosen <
        trafficGet [("server1:8080", 80), ("server2:8080", 50), ("server3:8080", 50)] s) ∧
      (∀ s ∈ post, trafficGet [("server1:8080", 80), ("server2:8080", 50), ("server3:8080", 50)]
          chosen ≤
        trafficGet [("server1:8080", 80), ("server2:8080", 50), ("server3:8080", 50)] s)) ∧
    (∀ s, trafficGet (handler serversPool (fun _ => true) (fun _ => some 10)
        [("server1:8080", 80), ("server2:8080", 50), ("server3:8080", 50)]).2 s =
      if "server2:8080" = s then
        (trafficGet [("server1:8080", 80), ("server2:8080", 50), ("server3:8080", 50)]
          "server2:8080" + 10) % 18446744073709551616
      else trafficGet [("server1:8080", 80), ("server2:8080", 50), ("server3:8080", 50)] s) ∧
    (∃ seq, expectedSequence (predefinedLoads.map Int.ofNat) serversPool = some seq ∧
      serve serversPool (fun _ => true) (predefinedLoads.map (fun n _ => some n)) [] =
        seq.map some) :=
  ⟨(handler_least_traffic [("server1:8080", 80), ("server2:8080", 50), ("server3:8080", 50)]
      serversPool (fun _ => true) (fun _ => some 10) predefinedLoads).1 (by decide),
   (handler_least_traffic [("server1:8080", 80), ("server2:8080", 50), ("server3:8080", 50)]
      serversPool (fun _ => true) (fun _ => some 10) predefinedLoads).2.1 "server2:8080" 10
      (by decide) rfl,
   (handler_least_traffic [("server1:8080", 80), ("server2:8080", 50), ("server3:8080", 50)]
      serversPool (fun _ => true) (fun _ => some 10) predefinedLoads).2.2⟩

end Balancer
